import Mathlib

/-!
Verification of the circom-witnesscalc graph builder, optimizer, codec and
evaluator against its natural-language specification.

The Rust sources are shallowly embedded: machine integers (U256, u32, u64,
usize) are modelled as Nat with explicit reductions modulo 2^w where the code
wraps or casts; arkworks BN254 scalar-field elements (Fr) are modelled by
their Montgomery representation word, a Nat below the modulus; fallible or
panicking code returns Option (none models a panic / fatal error).

File names referenced below are those of the repository sources
(src/graph.rs, src/storage.rs, src/lib.rs, src/bin/build-circuit.rs).
-/

/-- The BN254 scalar field modulus.  Modelled from the spec: the constant
crate::field::M lives in src/field.rs, which is not part of the provided
sources; the spec fixes it to the BN254 scalar-field modulus. -/
def M : Nat := 21888242871839275222246405745257275088548364400416034343698204186575808495617

/-- Size of the U256 value space. -/
def U256size : Nat := 2 ^ 256

/-- The Montgomery constant R = 2^256 mod M used by arkworks for BN254. -/
def Rmont : Nat := 6350874878119819312338956282401532410528162663560392320966563075034087161851

/-- The inverse of R modulo M. -/
def RmontInv : Nat := 9915499612839321149637521777990102151350674507940716049588462388200839649614

theorem Rmont_eq : Rmont = 2 ^ 256 % M := by decide

theorem Rmont_mul_inv : Rmont * RmontInv % M = 1 := by decide

theorem M_pos : 0 < M := by decide

theorem M_lt_U256size : M < U256size := by decide

/-- Wrapping U256 subtraction x - y for y below 2^256 (two's complement wrap),
as performed by the ruint Sub operator. -/
def u256sub (x y : Nat) : Nat := (x + (U256size - y)) % U256size

namespace Graph

/-- The operator enum of src/graph.rs. -/
inductive Operation where
  | Mul
  | MMul
  | Add
  | Sub
  | Eq
  | Neq
  | Lt
  | Gt
  | Leq
  | Geq
  | Land
  | Lor
  | Shl
  | Shr
  | Band
  | Neg
  | Div
  | Idiv
  | TernCond
deriving DecidableEq, Repr

/-- Modular inverse as computed by ruint U256::inv_mod: some inverse in
[0, m) when the argument is coprime to m, none otherwise. -/
def invMod (b m : Nat) : Option Nat :=
  if Nat.gcd b m = 1 then some (((Nat.xgcd b m).1 % (m : Int)).toNat) else none

/-- compute_shl_uint of src/graph.rs: shift amount is the low 64-bit limb of
b; ruint shl is a wrapping left shift inside 256 bits (release build: the
debug_assert on b < 256 is compiled out). -/
def compute_shl_uint (a b : Nat) : Nat := a * 2 ^ (b % 2 ^ 64) % U256size

/-- compute_shr_uint of src/graph.rs: shift amount is the low 64-bit limb of
b; ruint shr is a plain right shift (zero when the amount reaches 256). -/
def compute_shr_uint (a b : Nat) : Nat := a / 2 ^ (b % 2 ^ 64)

/-- Operation::eval of src/graph.rs, the canonical-form (U256) evaluator.
none models a panic: unwrap of a missing modular inverse, U256 division by
zero, or the unimplemented! fallback for MMul, Neg and TernCond. -/
def Operation.eval (op : Operation) (a b : Nat) : Option Nat :=
  match op with
  | .Add => some ((a + b) % M)
  | .Sub => some ((a + u256sub M b) % M)
  | .Mul => some (a * b % M)
  | .Eq => some (if a = b then 1 else 0)
  | .Neq => some (if a = b then 0 else 1)
  | .Lt => some (if a < b then 1 else 0)
  | .Gt => some (if b < a then 1 else 0)
  | .Leq => some (if a ≤ b then 1 else 0)
  | .Geq => some (if b ≤ a then 1 else 0)
  | .Land => some (if a ≠ 0 ∧ b ≠ 0 then 1 else 0)
  | .Lor => some (if a ≠ 0 ∨ b ≠ 0 then 1 else 0)
  | .Shl => some (compute_shl_uint a b)
  | .Shr => some (compute_shr_uint a b)
  | .Band => some (Nat.land a b)
  | .Div =>
      if b = 0 then some 0
      else (invMod b M).map (fun i => a * i % M)
  | .Idiv => if b = 0 then none else some (a / b)
  | _ => none

/-- Operation::eval_uno of src/graph.rs.  Only Neg is implemented; M - a is
the wrapping U256 subtraction. -/
def Operation.eval_uno (op : Operation) (a : Nat) : Option Nat :=
  match op with
  | .Neg => some (if a = 0 then 0 else u256sub M a)
  | _ => none

/-- Operation::eval_tres of src/graph.rs.  Only TernCond is implemented. -/
def Operation.eval_tres (op : Operation) (a b c : Nat) : Option Nat :=
  match op with
  | .TernCond => some (if a = 0 then c else b)
  | _ => none

/-- An arkworks BN254 Fr element, modelled by its Montgomery representation
word: the canonical value v is carried as v * R mod M. -/
abbrev Fr := Nat

/-- Fr::new of arkworks: reduce the canonical input and convert it into
Montgomery form. -/
def Fr.new (c : Nat) : Fr := c * Rmont % M

/-- into_bigint of arkworks: convert the Montgomery representation back to
the canonical value (Montgomery reduction by R^-1). -/
def Fr.canon (r : Fr) : Nat := r * RmontInv % M

/-- Fr::from_bigint of arkworks: succeeds only for canonical values below
the modulus, then converts to Montgomery form. -/
def Fr.from_bigint (c : Nat) : Option Fr :=
  if c < M then some (Fr.new c) else none

/-- Montgomery multiplication (REDC): on representation words it computes
ra * rb * R^-1 mod M. -/
def Fr.mulm (a b : Fr) : Fr := a * b * RmontInv % M

/-- Modular subtraction on Montgomery representation words. -/
def Fr.subm (a b : Fr) : Fr := (a + (M - b % M)) % M

/-- Field inverse (arkworks Fr::inverse for a nonzero argument), expressed
on Montgomery representation words through the canonical value. -/
def Fr.inv (b : Fr) : Fr := Fr.new (((Nat.xgcd (Fr.canon b) M).1 % (M : Int)).toNat)

/-- The Fr one: Montgomery representation of 1. -/
def Fr.one : Fr := Rmont

/-- bit_and of src/graph.rs: convert both operands to canonical form, AND
the four 64-bit limbs (equivalently, Nat.land on the 256-bit values),
conditionally subtract the modulus when the result strictly exceeds it, and
re-encode through Fr::from_bigint (whose unwrap models as Option.bind). -/
def bit_and (a b : Fr) : Option Fr :=
  let d := Nat.land (Fr.canon a) (Fr.canon b)
  Fr.from_bigint (if M < d then d - M else d)

/-- shr of src/graph.rs on Fr: zero shift returns the argument unchanged;
shifts of 254 or more return zero; otherwise the canonical value is shifted
right by the low byte of the shift amount (the limb loop of the source) and
re-encoded with from_bigint. -/
def shr (a b : Fr) : Option Fr :=
  let n := Fr.canon b
  if n = 0 then some a
  else if 254 ≤ n then some 0
  else Fr.from_bigint (Fr.canon a / 2 ^ (n % 256))

/-- Operation::eval_fr of src/graph.rs, the Montgomery-form evaluator.
Only Add, Sub, Mul, Shr, Band, Div and Neq are implemented; division by
zero returns zero. -/
def Operation.eval_fr (op : Operation) (a b : Fr) : Option Fr :=
  match op with
  | .Add => some ((a + b) % M)
  | .Sub => some (Fr.subm a b)
  | .Mul => some (Fr.mulm a b)
  | .Shr => shr a b
  | .Band => bit_and a b
  | .Div => if b = 0 then some 0 else some (Fr.mulm a (Fr.inv b))
  | .Neq => some (if a = b then 0 else Fr.one)
  | _ => none

/-- Operation::eval_fr_uno of src/graph.rs: only Neg, computed by
subtracting the canonical value from the modulus. -/
def Operation.eval_fr_uno (op : Operation) (a : Fr) : Option Fr :=
  match op with
  | .Neg =>
      if a = 0 then some 0
      else Fr.from_bigint (M - Fr.canon a)
  | _ => none

/-- Operation::eval_fr_tres of src/graph.rs: only TernCond. -/
def Operation.eval_fr_tres (op : Operation) (a b c : Fr) : Option Fr :=
  match op with
  | .TernCond => some (if a = 0 then c else b)
  | _ => none

/-- The node variants of src/graph.rs.  Indices are usize node references. -/
inductive Node where
  | Input (i : Nat)
  | Constant (c : Nat)
  | MontConstant (c : Fr)
  | UnoOp (op : Operation) (a : Nat)
  | Op (op : Operation) (a b : Nat)
  | TresOp (op : Operation) (a b c : Nat)
deriving DecidableEq, Repr

/-- All node references of a single node are strictly below i. -/
def nodeRefsLt (n : Node) (i : Nat) : Bool :=
  match n with
  | .Op _ a b => decide (a < i) && decide (b < i)
  | .UnoOp _ a => decide (a < i)
  | .TresOp _ a b c => decide (a < i) && decide (b < i) && decide (c < i)
  | _ => true

def assert_validAux : List Node → Nat → Bool
  | [], _ => true
  | n :: rest, i => nodeRefsLt n i && assert_validAux rest (i + 1)

/-- assert_valid of src/graph.rs: true when all references are backwards
(the source panics otherwise). -/
def assert_valid (nodes : List Node) : Bool := assert_validAux nodes 0

/-- One step of the constant-propagation loop of src/graph.rs (propagate):
the node at index acc.length is folded using the already-rewritten prefix
acc.  none models the panic of an unimplemented operator evaluation. -/
def propagateStep (acc : List Node) (n : Node) : Option Node :=
  match n with
  | .Op op a b =>
      match acc.get? a, acc.get? b with
      | some (.Constant va), some (.Constant vb) => (op.eval va vb).map .Constant
      | _, _ =>
          if a = b then
            match op with
            | .Eq | .Leq | .Geq => some (.Constant 1)
            | .Neq | .Lt | .Gt => some (.Constant 0)
            | _ => some (.Op op a b)
          else some (.Op op a b)
  | .UnoOp op a =>
      match acc.get? a with
      | some (.Constant va) => (op.eval_uno va).map .Constant
      | _ => some (.UnoOp op a)
  | .TresOp op a b c =>
      match acc.get? a, acc.get? b, acc.get? c with
      | some (.Constant va), some (.Constant vb), some (.Constant vc) =>
          (op.eval_tres va vb vc).map .Constant
      | _, _, _ => some (.TresOp op a b c)
  | n => some n

def propagateGo (acc : List Node) : List Node → Option (List Node)
  | [] => some acc
  | n :: rest =>
      match propagateStep acc n with
      | none => none
      | some m => propagateGo (acc ++ [m]) rest

/-- propagate of src/graph.rs: assert validity, then fold every node whose
operands are all Constant (reading the mutated array, so constants cascade),
and fold comparisons of identical operand indices. -/
def propagate (nodes : List Node) : Option (List Node) :=
  if assert_valid nodes then propagateGo [] nodes else none

/-- Mark the parents of a used node (one iteration of the backward sweep of
tree_shake). -/
def markOne (used : List Bool) (i : Nat) (n : Node) : List Bool :=
  if used.getD i false then
    match n with
    | .Op _ a b => (used.set a true).set b true
    | .UnoOp _ a => used.set a true
    | .TresOp _ a b c => ((used.set a true).set b true).set c true
    | _ => used
  else used

/-- The backward marking sweep of tree_shake: process indices k-1, ..., 0. -/
def markLoop (nodes : List Node) (used : List Bool) : Nat → List Bool
  | 0 => used
  | k + 1 =>
      match nodes.get? k with
      | some n => markLoop nodes (markOne used k n) k
      | none => markLoop nodes used k

/-- Keep exactly the nodes whose used flag is set. -/
def retainNodes (nodes : List Node) (used : List Bool) : List Node :=
  (nodes.zip used).filterMap (fun p => if p.2 then some p.1 else none)

/-- The renumber vector of tree_shake: position i holds the new index when
node i is used, none otherwise. -/
def buildRenumber : List Bool → Nat → List (Option Nat)
  | [], _ => []
  | b :: rest, idx =>
      (if b then some idx else none) :: buildRenumber rest (if b then idx + 1 else idx)

/-- Look up renumber[a] and unwrap (none models the panic). -/
def renLookup (ren : List (Option Nat)) (a : Nat) : Option Nat :=
  match ren.get? a with
  | some (some x) => some x
  | _ => none

/-- Rewrite the references of one node through the renumber vector. -/
def renumberNode (ren : List (Option Nat)) (n : Node) : Option Node :=
  match n with
  | .Op op a b => do
      let a2 ← renLookup ren a
      let b2 ← renLookup ren b
      some (.Op op a2 b2)
  | .UnoOp op a => do
      let a2 ← renLookup ren a
      some (.UnoOp op a2)
  | .TresOp op a b c => do
      let a2 ← renLookup ren a
      let b2 ← renLookup ren b
      let c2 ← renLookup ren c
      some (.TresOp op a2 b2 c2)
  | n => some n

/-- tree_shake of src/graph.rs: assert validity, mark the outputs as used,
sweep backwards marking referenced parents, drop unused nodes, renumber the
surviving references and the outputs.  none models any of the panics
(invalid graph, output index out of range, unwrap of a missing renumber
entry). -/
def tree_shake (nodes : List Node) (outputs : List Nat) : Option (List Node × List Nat) :=
  if assert_valid nodes = false then none
  else if outputs.any (fun o => nodes.length ≤ o) then none
  else
    let used0 := outputs.foldl (fun u o => u.set o true) (List.replicate nodes.length false)
    let used := markLoop nodes used0 nodes.length
    let ren := buildRenumber used 0
    match (retainNodes nodes used).mapM (renumberNode ren), outputs.mapM (renLookup ren) with
    | some ns2, some outs2 => some (ns2, outs2)
    | _, _ => none

/-- First index of a value in a list (value_map[&value][0]: the node
indices grouped under one value are pushed in increasing order, so the
head of the group is the first index holding that value). -/
def idxOfFirst (l : List Nat) (v : Nat) : Option Nat :=
  match l with
  | [] => none
  | x :: xs => if x = v then some 0 else (idxOfFirst xs v).map (fun j => j + 1)

/-- The renumber map of value_numbering: node a is mapped to the first index
holding the same random evaluation value (value_map[&value][0]). -/
def renumValue (values : List Nat) (a : Nat) : Option Nat :=
  match values.get? a with
  | some v => idxOfFirst values v
  | none => none

/-- Rewrite the references of one node through the value-numbering map. -/
def vnNode (values : List Nat) (n : Node) : Option Node :=
  match n with
  | .Op op a b => do
      let a2 ← renumValue values a
      let b2 ← renumValue values b
      some (.Op op a2 b2)
  | .UnoOp op a => do
      let a2 ← renumValue values a
      some (.UnoOp op a2)
  | .TresOp op a b c => do
      let a2 ← renumValue values a
      let b2 ← renumValue values b
      let c2 ← renumValue values c
      some (.TresOp op a2 b2 c2)
  | n => some n

/-- value_numbering of src/graph.rs.  The values parameter abstracts the
outcome of random_eval (whose pseudorandom draws are irrelevant to the
rewriting itself); the source guarantees values.length = nodes.length. -/
def value_numbering (nodes : List Node) (outputs : List Nat) (values : List Nat) :
    Option (List Node × List Nat) :=
  if assert_valid nodes = false then none
  else if values.length ≠ nodes.length then none
  else
    match nodes.mapM (vnNode values), outputs.mapM (renumValue values) with
    | some ns2, some outs2 => some (ns2, outs2)
    | _, _ => none

/-- constants of src/graph.rs (probabilistic constant detection).  The two
value vectors abstract the two random_eval runs; a node that is not already
Constant and whose two evaluation values agree is rewritten to Constant. -/
def constants (nodes : List Node) (va vb : List Nat) : Option (List Node) :=
  if assert_valid nodes = false then none
  else if va.length ≠ nodes.length ∨ vb.length ≠ nodes.length then none
  else
    some ((nodes.zip (va.zip vb)).map (fun p =>
      match p.1 with
      | .Constant c => .Constant c
      | n => if p.2.1 = p.2.2 then .Constant p.2.1 else n))

/-- Does montgomery_form accept this binary operator? -/
def montOk (op : Operation) : Bool :=
  match op with
  | .Add | .Sub | .Mul | .Shr | .Band | .Div | .Neq => true
  | _ => false

/-- One node of the montgomery_form loop: convert a Constant to
MontConstant via Fr::new, keep other nodes, and require every operator to
lie in the Montgomery-supported subset (none models the unimplemented!
panic on any other operator). -/
def montStep (n : Node) : Option Node :=
  match n with
  | .Constant c => some (.MontConstant (Fr.new c))
  | .MontConstant c => some (.MontConstant c)
  | .Input i => some (.Input i)
  | .Op op a b => if montOk op then some (.Op op a b) else none
  | .UnoOp op a => if op = .Neg then some (.UnoOp op a) else none
  | .TresOp op a b c => if op = .TernCond then some (.TresOp op a b c) else none

/-- montgomery_form of src/graph.rs. -/
def montgomery_form (nodes : List Node) : Option (List Node) :=
  nodes.mapM montStep

end Graph

namespace BuildCircuit

/-- The compile-time value of the symbolic interpreter of
src/bin/build-circuit.rs: either a constant field element or a handle to a
graph node. -/
inductive Var where
  | Value (c : Nat)
  | Node (i : Nat)
deriving DecidableEq, Repr

/-- node_from_var of src/bin/build-circuit.rs: a Value pushes a fresh
Constant node and uses its index; a Node handle is used as is. -/
def node_from_var (nodes : List Graph.Node) : Var → List Graph.Node × Nat
  | .Value c => (nodes ++ [.Constant c], nodes.length)
  | .Node i => (nodes, i)

/-- The interpreter state acted on by the graph builder: the global node
array, the signal table signal_node_idx (usize::MAX sentinel modelled as
none) and the local variable frame. -/
structure BState where
  nodes : List Graph.Node
  signals : List (Option Nat)
  vars : List (Option Var)

/-- Push a binary operation node, materializing Value operands as Constant
nodes first (build_binary_op_var / node_from_compute_bucket of
src/bin/build-circuit.rs). -/
def pushOp2 (s : BState) (op : Graph.Operation) (va vb : Var) : BState × Nat :=
  let p1 := node_from_var s.nodes va
  let p2 := node_from_var p1.1 vb
  ({ s with nodes := p2.1 ++ [.Op op p1.2 p2.2] }, p2.1.length)

/-- Push a unary operation node (build_unary_op_var). -/
def pushOp1 (s : BState) (op : Graph.Operation) (va : Var) : BState × Nat :=
  let p1 := node_from_var s.nodes va
  ({ s with nodes := p1.1 ++ [.UnoOp op p1.2] }, p1.1.length)

/-- Push a ternary operation node (the Branch-as-ternary lowering). -/
def pushOp3 (s : BState) (op : Graph.Operation) (va vb vc : Var) : BState × Nat :=
  let p1 := node_from_var s.nodes va
  let p2 := node_from_var p1.1 vb
  let p3 := node_from_var p2.1 vc
  ({ s with nodes := p3.1 ++ [.TresOp op p1.2 p2.2 p3.2] }, p3.1.length)

/-- The expression-evaluation relation of the symbolic interpreter
(calc_expression and its helpers in src/bin/build-circuit.rs): from a state,
evaluating an IR expression may append nodes and yields a Var.  Each
constructor mirrors one way the source produces a Var: a U32 literal, a
BigInt reference to an existing Constant node (var_from_value_instruction),
a signal load, a variable load, a constant fold of an operation on two
Values, or a pushed operation node. -/
inductive EvalVar : BState → BState → Var → Prop
  | value (s : BState) (c : Nat) :
      EvalVar s s (.Value c)
  | constRef (s : BState) (i c : Nat)
      (h : s.nodes.get? i = some (.Constant c)) :
      EvalVar s s (.Node i)
  | loadSignal (s : BState) (k i : Nat)
      (h : s.signals.get? k = some (some i)) :
      EvalVar s s (.Node i)
  | loadVar (s : BState) (k : Nat) (v : Var)
      (h : s.vars.get? k = some (some v)) :
      EvalVar s s v
  | foldValue2 (s s1 s2 : BState) (op : Graph.Operation) (ca cb r : Nat) :
      EvalVar s s1 (.Value ca) → EvalVar s1 s2 (.Value cb) →
      op.eval ca cb = some r →
      EvalVar s s2 (.Value r)
  | foldValue1 (s s1 : BState) (op : Graph.Operation) (ca r : Nat) :
      EvalVar s s1 (.Value ca) →
      op.eval_uno ca = some r →
      EvalVar s s1 (.Value r)
  | compute2 (s s1 s2 : BState) (op : Graph.Operation) (va vb : Var) :
      EvalVar s s1 va → EvalVar s1 s2 vb →
      EvalVar s (pushOp2 s2 op va vb).1 (.Node (pushOp2 s2 op va vb).2)
  | compute1 (s s1 : BState) (op : Graph.Operation) (va : Var) :
      EvalVar s s1 va →
      EvalVar s (pushOp1 s1 op va).1 (.Node (pushOp1 s1 op va).2)
  | compute3 (s s1 s2 s3 : BState) (op : Graph.Operation) (va vb vc : Var) :
      EvalVar s s1 va → EvalVar s1 s2 vb → EvalVar s2 s3 vc →
      EvalVar s (pushOp3 s3 op va vb vc).1 (.Node (pushOp3 s3 op va vb vc).2)

/-- One state mutation of the builder (the Store / CreateCmp / input-setup
paths of src/bin/build-circuit.rs): store the evaluated Var into a local
variable; store it into an unset signal (materializing a node index via
node_from_var, as the signal-store path does); or push a fresh Input node
and record its index in the signal table (get_inputs). -/
inductive BStep : BState → BState → Prop
  | storeVar (s s1 : BState) (k : Nat) (v : Var) :
      EvalVar s s1 v →
      BStep s { s1 with vars := s1.vars.set k (some v) }
  | storeSignal (s s1 : BState) (k : Nat) (v : Var) :
      EvalVar s s1 v →
      s1.signals.get? k = some none →
      BStep s
        { s1 with
          nodes := (node_from_var s1.nodes v).1,
          signals := s1.signals.set k (some (node_from_var s1.nodes v).2) }
  | pushInput (s : BState) (k j : Nat) :
      BStep s
        { s with
          nodes := s.nodes ++ [.Input j],
          signals := s.signals.set k (some s.nodes.length) }

/-- Reachability by builder steps. -/
def BReach : BState → BState → Prop := Relation.ReflTransGen BStep

/-- A Var handle is in range for the current node array. -/
def varOk (len : Nat) : Var → Prop
  | .Value _ => True
  | .Node i => i < len

/-- The builder invariant: the node array has only back-references and every
node index stored in the signal table or the variable frame is in range. -/
def stateOk (s : BState) : Prop :=
  Graph.assert_valid s.nodes = true ∧
  (∀ k i, s.signals.get? k = some (some i) → i < s.nodes.length) ∧
  (∀ k v, s.vars.get? k = some (some v) → varOk s.nodes.length v)

/-- The initial builder state: no nodes, all signals unset, all variables
unset. -/
def initState (nsig nvar : Nat) : BState :=
  ⟨[], List.replicate nsig none, List.replicate nvar none⟩

/-- StatusInput of the IR store bucket. -/
inductive StatusInput where
  | Last
  | NoLast
  | Unknown
deriving DecidableEq, Repr

/-- A subcomponent slot entry (ComponentInstance of
src/bin/build-circuit.rs). -/
structure ComponentInstance where
  template_id : Nat
  signal_offset : Nat
  number_of_inputs : Nat
deriving DecidableEq, Repr

/-- The signal-writing loop of store_subcomponent_signals: every target
slot must be unset (usize::MAX) and in range, else the source panics. -/
def writeSignals (signals : List (Option Nat)) (base : Nat) :
    List Nat → Option (List (Option Nat))
  | [] => some signals
  | idx :: rest =>
      match signals.get? base with
      | some none => writeSignals (signals.set base (some idx)) (base + 1) rest
      | _ => none

/-- Wrapping 64-bit usize subtraction: the release-mode semantics of the
Rust expression x - y on usize (two's-complement wraparound; a debug build
would panic on underflow).  For y ≤ x < 2^64 it coincides with plain
subtraction. -/
def usizeSub (x y : Nat) : Nat := (x + (2 ^ 64 - y % 2 ^ 64)) % 2 ^ 64

/-- The tail of store_subcomponent_signals of src/bin/build-circuit.rs,
after the store target has been resolved to the absolute signal index:
write the size source node indices, decrement the remaining-input counter
(a usize subtraction, which wraps around in a release build when size
exceeds the remaining count), then consult the StatusInput.  The returned
Bool records whether run_template is invoked on the callee.  none models
the panics: a target signal already set or out of range, a source slice
shorter than size, or a violated Last/NoLast assertion. -/
def store_subcomponent_signals (status : StatusInput) (signal_idx : Nat)
    (size : Nat) (src_node_idxs : List Nat) (signals : List (Option Nat))
    (comp : ComponentInstance) :
    Option (List (Option Nat) × ComponentInstance × Bool) :=
  if src_node_idxs.length < size then none
  else
    match writeSignals signals signal_idx (src_node_idxs.take size) with
    | none => none
    | some signals2 =>
        let n2 := usizeSub comp.number_of_inputs size
        let comp2 := { comp with number_of_inputs := n2 }
        match status with
        | .Last => if n2 = 0 then some (signals2, comp2, true) else none
        | .NoLast => if 0 < n2 then some (signals2, comp2, false) else none
        | .Unknown => some (signals2, comp2, n2 == 0)

end BuildCircuit

namespace Lib

/-- A serde_json number, as far as deserialize_inputs observes it: either a
number for which Number::is_u64 holds (carrying its value), or any other
number (negative or fractional), for which is_u64 is false. -/
inductive JsonNum where
  | uInt (n : Nat)
  | nonU64
deriving DecidableEq, Repr

/-- A parsed JSON value. -/
inductive JsonValue where
  | null
  | bool (b : Bool)
  | num (n : JsonNum)
  | str (s : String)
  | arr (xs : List JsonValue)
  | obj (entries : List (String × JsonValue))
deriving Repr

/-- The public error enum of src/lib.rs. -/
inductive Error where
  | InputsUnmarshal (msg : String)
  | InputFieldNumberParseError
deriving DecidableEq, Repr

/-- ruint U256::from_str_radix(s, 10): parse a base-10 digit string with a
per-step overflow check against 2^256; any non-digit character or overflow
is a parse error.  Note there is no check against the field modulus M. -/
def parseU256 (s : String) : Option Nat :=
  s.toList.foldl
    (fun acc c =>
      acc.bind (fun n =>
        if c.isDigit then
          let m := n * 10 + (c.toNat - 48)
          if m < U256size then some m else none
        else none))
    (some 0)

/-- One scalar inside an input array: string or u64 number; anything else
is an InputsUnmarshal error. -/
def parseArrayScalar (v : JsonValue) : Except Error Nat :=
  match v with
  | .str s =>
      match parseU256 s with
      | some i => .ok i
      | none => .error .InputFieldNumberParseError
  | .num (.uInt n) => .ok n
  | .num .nonU64 => .error (.InputsUnmarshal "signal value is not a positive integer")
  | _ => .error (.InputsUnmarshal "inputs must be a string")

def parseArrayScalars : List JsonValue → Except Error (List Nat)
  | [] => .ok []
  | v :: rest => do
      let i ← parseArrayScalar v
      let is ← parseArrayScalars rest
      .ok (i :: is)

/-- Process the entries of the top-level JSON object, in iteration order. -/
def deserializeEntries : List (String × JsonValue) → Except Error (List (String × List Nat))
  | [] => .ok []
  | (k, v) :: rest => do
      let vals ← (match v with
        | .str s =>
            match parseU256 s with
            | some i => .ok [i]
            | none => .error Error.InputFieldNumberParseError
        | .num (.uInt n) => .ok [n]
        | .num .nonU64 => .error (.InputsUnmarshal "signal value is not a positive integer")
        | .arr ss => parseArrayScalars ss
        | _ => .error (.InputsUnmarshal "value must be a number as a string, a number or an array"))
      let restParsed ← deserializeEntries rest
      .ok ((k, vals) :: restParsed)

/-- deserialize_inputs of src/lib.rs.  The argument is the outcome of
serde_json::from_slice: none for malformed JSON.  The outer Option models
panics: the source unwraps the serde_json result, so malformed JSON panics
instead of producing an Error value. -/
def deserialize_inputs : Option JsonValue → Option (Except Error (List (String × List Nat)))
  | none => none
  | some (.obj entries) => some (deserializeEntries entries)
  | some _ => some (.error (.InputsUnmarshal "inputs must be an object"))

/-- Write the values vals at buffer positions off, off+1, ...; none models
the index panic when a write lands outside the buffer. -/
def setAt (buf : List Nat) (off : Nat) : List Nat → Option (List Nat)
  | [] => some buf
  | v :: rest =>
      if off < buf.length then setAt (buf.set off v) (off + 1) rest
      else none

/-- Association lookup in the input directory; a missing key models the
panicking HashMap index inputs_info[key]. -/
def lookupInfo (info : List (String × Nat × Nat)) (k : String) : Option (Nat × Nat) :=
  match info with
  | [] => none
  | (k2, off, len) :: rest => if k2 = k then some (off, len) else lookupInfo rest k

/-- populate_inputs of src/lib.rs: iterate over the provided inputs, look
each name up in the declared directory (panic when absent), check the
declared length against the provided length (panic on mismatch), and copy
the values at the declared offset.  Declared names that were not provided
are not visited at all. -/
def populate_inputs : List (String × List Nat) → List (String × Nat × Nat) →
    List Nat → Option (List Nat)
  | [], _, buf => some buf
  | (k, vals) :: rest, info, buf =>
      match lookupInfo info k with
      | none => none
      | some (off, len) =>
          if len ≠ vals.length then none
          else
            match setAt buf off vals with
            | none => none
            | some buf2 => populate_inputs rest info buf2

/-- get_inputs_size of src/lib.rs: the maximum Input index in the leading
run of Input nodes, plus one. -/
def giSizeGo : List Graph.Node → Bool → Nat → Nat
  | [], _, maxi => maxi + 1
  | n :: rest, start, maxi =>
      match n with
      | .Input i => giSizeGo rest true (max maxi i)
      | _ => if start then maxi + 1 else giSizeGo rest start maxi

def get_inputs_size (nodes : List Graph.Node) : Nat := giSizeGo nodes false 0

/-- get_inputs_buffer of src/lib.rs: a zero buffer with position 0 set to
the field element 1. -/
def get_inputs_buffer (size : Nat) : List Nat :=
  (List.replicate size 0).set 0 1

end Lib

namespace Storage

/-!
The graph codec of src/storage.rs.  The node type written to disk uses the
operator split of that file: a unary, a binary and a ternary operator enum
(crate::graph::{UnoOperation, Operation, TresOperation}).  Bytes are
modelled as Nat (each below 256 by construction of the encoders).  The
protobuf message schema (field numbers, the oneof layout) is generated from
the .proto file of the repository, which is not under src/; it is modelled
from the spec, section 4.5: length-delimited protobuf Node messages with
variants Input{idx:u32}, Constant{value_le:bytes}, UnoOp{op,a_idx},
DuoOp{op,a_idx,b_idx}, TresOp{op,a_idx,b_idx,c_idx}, and a GraphMetadata
message with witness_signals (repeated u32, packed) and an inputs map.
Field numbers are assigned in declaration order; operator enums are
numbered in the order of the operator tables.  prost encoding is modelled
with every field emitted explicitly; the decoder applies prost merge
semantics (defaults for absent fields, later fields overwrite, repeated
fields append). -/

/-- The unary operator enum serialized by src/storage.rs. -/
inductive UnoOperation where
  | Neg
  | Id
deriving DecidableEq, Repr

/-- The binary operator enum serialized by src/storage.rs (proto DuoOp). -/
inductive Operation where
  | Mul
  | Div
  | Add
  | Sub
  | Pow
  | Idiv
  | Mod
  | Eq
  | Neq
  | Lt
  | Gt
  | Leq
  | Geq
  | Land
  | Lor
  | Shl
  | Shr
  | Bor
  | Band
  | Bxor
deriving DecidableEq, Repr

/-- The ternary operator enum serialized by src/storage.rs. -/
inductive TresOperation where
  | TernCond
deriving DecidableEq, Repr

/-- The graph node type serialized by src/storage.rs.  MontConstant carries
the canonical value of the Fr element (what Into<BigUint> yields). -/
inductive Node where
  | Input (i : Nat)
  | Constant (c : Nat)
  | MontConstant (c : Nat)
  | UnoOp (op : UnoOperation) (a : Nat)
  | Op (op : Operation) (a b : Nat)
  | TresOp (op : TresOperation) (a b c : Nat)
deriving DecidableEq, Repr

def UnoOperation.code : UnoOperation → Nat
  | .Neg => 0
  | .Id => 1

def unoFromCode : Nat → Option UnoOperation
  | 0 => some .Neg
  | 1 => some .Id
  | _ => none

def Operation.code : Operation → Nat
  | .Mul => 0
  | .Div => 1
  | .Add => 2
  | .Sub => 3
  | .Pow => 4
  | .Idiv => 5
  | .Mod => 6
  | .Eq => 7
  | .Neq => 8
  | .Lt => 9
  | .Gt => 10
  | .Leq => 11
  | .Geq => 12
  | .Land => 13
  | .Lor => 14
  | .Shl => 15
  | .Shr => 16
  | .Bor => 17
  | .Band => 18
  | .Bxor => 19

def duoFromCode : Nat → Option Operation
  | 0 => some .Mul
  | 1 => some .Div
  | 2 => some .Add
  | 3 => some .Sub
  | 4 => some .Pow
  | 5 => some .Idiv
  | 6 => some .Mod
  | 7 => some .Eq
  | 8 => some .Neq
  | 9 => some .Lt
  | 10 => some .Gt
  | 11 => some .Leq
  | 12 => some .Geq
  | 13 => some .Land
  | 14 => some .Lor
  | 15 => some .Shl
  | 16 => some .Shr
  | 17 => some .Bor
  | 18 => some .Band
  | 19 => some .Bxor
  | _ => none

def TresOperation.code : TresOperation → Nat
  | .TernCond => 0

def tresFromCode : Nat → Option TresOperation
  | 0 => some .TernCond
  | _ => none

/-- The in-memory protobuf Node message (proto::node::Node oneof).  The
constant variant carries the optional BigUInt submessage. -/
inductive PNode where
  | input (idx : Nat)
  | constant (value : Option (List Nat))
  | unoOp (op a : Nat)
  | duoOp (op a b : Nat)
  | tresOp (op a b c : Nat)
deriving DecidableEq, Repr

/-- num_bigint BigUint::to_bytes_le digits (little endian, minimal). -/
def natBytesLEAux : Nat → Nat → List Nat
  | 0, _ => []
  | f + 1, n => if n = 0 then [] else n % 256 :: natBytesLEAux f (n / 256)

/-- BigUint::to_bytes_le: minimal little-endian bytes; zero encodes as a
single zero byte. -/
def natBytesLE (n : Nat) : List Nat :=
  if n = 0 then [0] else natBytesLEAux n n

/-- Little-endian byte list to Nat. -/
def bytesToNatLE : List Nat → Nat
  | [] => 0
  | b :: rest => b + 256 * bytesToNatLE rest

/-- From<&graph::Node> for proto::node::Node of src/storage.rs: every usize
index is cast to u32 (truncating), a Constant node panics (none), a
MontConstant is written as the little-endian bytes of its canonical value. -/
def nodeToProto : Node → Option PNode
  | .Input i => some (.input (i % 2 ^ 32))
  | .Constant _ => none
  | .MontConstant c => some (.constant (some (natBytesLE c)))
  | .UnoOp op a => some (.unoOp op.code (a % 2 ^ 32))
  | .Op op a b => some (.duoOp op.code (a % 2 ^ 32) (b % 2 ^ 32))
  | .TresOp op a b c => some (.tresOp op.code (a % 2 ^ 32) (b % 2 ^ 32) (c % 2 ^ 32))

/-- From<proto::Node> for graph::Node of src/storage.rs: u32 indices widen
to usize, a Constant message becomes MontConstant via
Fr::from_le_bytes_mod_order, operator enum codes are unwrapped (none models
the try_from unwrap panic on an unknown code or an absent BigUInt value). -/
def protoToNode : PNode → Option Node
  | .input idx => some (.Input idx)
  | .constant none => none
  | .constant (some bytes) => some (.MontConstant (bytesToNatLE bytes % M))
  | .unoOp op a => (unoFromCode op).map (fun o => .UnoOp o a)
  | .duoOp op a b => (duoFromCode op).map (fun o => .Op o a b)
  | .tresOp op a b c => (tresFromCode op).map (fun o => .TresOp o a b c)

/-- LEB128 varint encoding, fuelled (the fuel argument bounds the number of
division steps; fuel n suffices for n). -/
def varintEncAux : Nat → Nat → List Nat
  | 0, n => [n % 128]
  | f + 1, n => if n < 128 then [n] else (n % 128 + 128) :: varintEncAux f (n / 128)

def varintEnc (n : Nat) : List Nat := varintEncAux n n

/-- prost decode_varint: reads at most 10 bytes (the argument i is the
current byte position), rejects values that overflow u64 (a terminating
tenth byte of 2 or more), and returns the value together with the number of
bytes consumed. -/
def varintDecAux : Nat → List Nat → Option (Nat × Nat)
  | _, [] => none
  | i, b :: bs =>
      if 10 ≤ i then none
      else if b < 128 then
        if i = 9 ∧ 2 ≤ b then none else some (b * 2 ^ (7 * i), i + 1)
      else
        match varintDecAux (i + 1) bs with
        | some (v, len) => some ((b - 128) * 2 ^ (7 * i) + v, len)
        | none => none

def varintDec (bs : List Nat) : Option (Nat × Nat) := varintDecAux 0 bs

/-- A decoded protobuf field value: a varint (wire type 0) or a
length-delimited byte string (wire type 2).  The messages of this codec use
no other wire types. -/
inductive FieldVal where
  | vint (n : Nat)
  | bytes (bs : List Nat)
deriving DecidableEq, Repr

/-- Encode one field: tag varint (field number shifted left by 3, low bits
the wire type), then the payload. -/
def fieldEnc : Nat × FieldVal → List Nat
  | (f, .vint n) => varintEnc (f * 8) ++ varintEnc n
  | (f, .bytes bs) => varintEnc (f * 8 + 2) ++ varintEnc bs.length ++ bs

def fieldsEnc (fl : List (Nat × FieldVal)) : List Nat := (fl.map fieldEnc).flatten

/-- Parse an entire message buffer into its field list (the prost decode
loop).  Field number 0 and wire types other than 0 and 2 are rejected. -/
def fieldsDecAux : Nat → List Nat → Option (List (Nat × FieldVal))
  | _, [] => some []
  | 0, _ :: _ => none
  | f + 1, bs =>
      match varintDec bs with
      | none => none
      | some (tag, used) =>
          if tag < 8 then none
          else
            let rest := bs.drop used
            match tag % 8 with
            | 0 =>
                match varintDec rest with
                | none => none
                | some (v, used2) =>
                    (fieldsDecAux f (rest.drop used2)).map
                      (fun fl => (tag / 8, FieldVal.vint v) :: fl)
            | 2 =>
                match varintDec rest with
                | none => none
                | some (ln, used2) =>
                    let rest2 := rest.drop used2
                    if ln ≤ rest2.length then
                      (fieldsDecAux f (rest2.drop ln)).map
                        (fun fl => (tag / 8, FieldVal.bytes (rest2.take ln)) :: fl)
                    else none
            | _ => none

def fieldsDec (bs : List Nat) : Option (List (Nat × FieldVal)) :=
  fieldsDecAux bs.length bs

/-- Decode a packed repeated varint payload. -/
def packedDecAux : Nat → List Nat → Option (List Nat)
  | _, [] => some []
  | 0, _ :: _ => none
  | f + 1, bs =>
      match varintDec bs with
      | none => none
      | some (v, used) => (packedDecAux f (bs.drop used)).map (fun l => v :: l)

def packedDec (bs : List Nat) : Option (List Nat) := packedDecAux bs.length bs

def packedEnc (ns : List Nat) : List Nat := (ns.map varintEnc).flatten

/-- InputNode{idx: u32 = field 1}: merge loop over the field list. -/
def interpInputGo (st : Nat) : List (Nat × FieldVal) → Option Nat
  | [] => some st
  | (f, v) :: rest =>
      if f = 1 then
        match v with
        | .vint n => interpInputGo n rest
        | _ => none
      else interpInputGo st rest

def interpInput (fl : List (Nat × FieldVal)) : Option Nat := interpInputGo 0 fl

/-- BigUInt{value_le: bytes = field 1}. -/
def interpBigGo (st : List Nat) : List (Nat × FieldVal) → Option (List Nat)
  | [] => some st
  | (f, v) :: rest =>
      if f = 1 then
        match v with
        | .bytes bs => interpBigGo bs rest
        | _ => none
      else interpBigGo st rest

def interpBig (fl : List (Nat × FieldVal)) : Option (List Nat) := interpBigGo [] fl

/-- ConstantNode{value: optional BigUInt = field 1}. -/
def interpConstGo (st : Option (List Nat)) :
    List (Nat × FieldVal) → Option (Option (List Nat))
  | [] => some st
  | (f, v) :: rest =>
      if f = 1 then
        match v with
        | .bytes bs =>
            match fieldsDec bs with
            | none => none
            | some sub =>
                match interpBig sub with
                | none => none
                | some b => interpConstGo (some b) rest
        | _ => none
      else interpConstGo st rest

def interpConst (fl : List (Nat × FieldVal)) : Option (Option (List Nat)) :=
  interpConstGo none fl

/-- UnoOpNode{op = field 1, a_idx = field 2}. -/
def interpUnoGo (st : Nat × Nat) : List (Nat × FieldVal) → Option (Nat × Nat)
  | [] => some st
  | (f, v) :: rest =>
      if f = 1 ∨ f = 2 then
        match v with
        | .vint n =>
            interpUnoGo (if f = 1 then (n, st.2) else (st.1, n)) rest
        | _ => none
      else interpUnoGo st rest

def interpUno (fl : List (Nat × FieldVal)) : Option (Nat × Nat) := interpUnoGo (0, 0) fl

/-- DuoOpNode{op = 1, a_idx = 2, b_idx = 3}. -/
def interpDuoGo (st : Nat × Nat × Nat) :
    List (Nat × FieldVal) → Option (Nat × Nat × Nat)
  | [] => some st
  | (f, v) :: rest =>
      if f = 1 ∨ f = 2 ∨ f = 3 then
        match v with
        | .vint n =>
            interpDuoGo
              (if f = 1 then (n, st.2.1, st.2.2)
               else if f = 2 then (st.1, n, st.2.2)
               else (st.1, st.2.1, n)) rest
        | _ => none
      else interpDuoGo st rest

def interpDuo (fl : List (Nat × FieldVal)) : Option (Nat × Nat × Nat) :=
  interpDuoGo (0, 0, 0) fl

/-- TresOpNode{op = 1, a_idx = 2, b_idx = 3, c_idx = 4}. -/
def interpTresGo (st : Nat × Nat × Nat × Nat) :
    List (Nat × FieldVal) → Option (Nat × Nat × Nat × Nat)
  | [] => some st
  | (f, v) :: rest =>
      if f = 1 ∨ f = 2 ∨ f = 3 ∨ f = 4 then
        match v with
        | .vint n =>
            interpTresGo
              (if f = 1 then (n, st.2.1, st.2.2.1, st.2.2.2)
               else if f = 2 then (st.1, n, st.2.2.1, st.2.2.2)
               else if f = 3 then (st.1, st.2.1, n, st.2.2.2)
               else (st.1, st.2.1, st.2.2.1, n)) rest
        | _ => none
      else interpTresGo st rest

def interpTres (fl : List (Nat × FieldVal)) : Option (Nat × Nat × Nat × Nat) :=
  interpTresGo (0, 0, 0, 0) fl

/-- proto::Node, a oneof over fields 1..5; a later oneof field overwrites
an earlier one, absence decodes to none (whose unwrap panics later). -/
def interpNodeGo (st : Option PNode) :
    List (Nat × FieldVal) → Option (Option PNode)
  | [] => some st
  | (f, v) :: rest =>
      if f = 1 ∨ f = 2 ∨ f = 3 ∨ f = 4 ∨ f = 5 then
        match v with
        | .bytes bs =>
            match fieldsDec bs with
            | none => none
            | some sub =>
                if f = 1 then
                  match interpInput sub with
                  | none => none
                  | some idx => interpNodeGo (some (.input idx)) rest
                else if f = 2 then
                  match interpConst sub with
                  | none => none
                  | some c => interpNodeGo (some (.constant c)) rest
                else if f = 3 then
                  match interpUno sub with
                  | none => none
                  | some p => interpNodeGo (some (.unoOp p.1 p.2)) rest
                else if f = 4 then
                  match interpDuo sub with
                  | none => none
                  | some p => interpNodeGo (some (.duoOp p.1 p.2.1 p.2.2)) rest
                else
                  match interpTres sub with
                  | none => none
                  | some p => interpNodeGo (some (.tresOp p.1 p.2.1 p.2.2.1 p.2.2.2)) rest
        | _ => none
      else interpNodeGo st rest

def interpNode (fl : List (Nat × FieldVal)) : Option (Option PNode) :=
  interpNodeGo none fl

/-- SignalDescription{offset = 1, len = 2}. -/
def interpSigGo (st : Nat × Nat) : List (Nat × FieldVal) → Option (Nat × Nat)
  | [] => some st
  | (f, v) :: rest =>
      if f = 1 ∨ f = 2 then
        match v with
        | .vint n =>
            interpSigGo (if f = 1 then (n, st.2) else (st.1, n)) rest
        | _ => none
      else interpSigGo st rest

def interpSig (fl : List (Nat × FieldVal)) : Option (Nat × Nat) := interpSigGo (0, 0) fl

/-- A map entry of the inputs map: key (string = field 1, modelled by its
UTF-8 bytes) and value (SignalDescription message = field 2). -/
def interpEntryGo (st : List Nat × Nat × Nat) :
    List (Nat × FieldVal) → Option (List Nat × Nat × Nat)
  | [] => some st
  | (f, v) :: rest =>
      if f = 1 ∨ f = 2 then
        match v with
        | .bytes bs =>
            if f = 1 then interpEntryGo (bs, st.2) rest
            else
              match fieldsDec bs with
              | none => none
              | some sub =>
                  match interpSig sub with
                  | none => none
                  | some p => interpEntryGo (st.1, p) rest
        | _ => none
      else interpEntryGo st rest

def interpEntry (fl : List (Nat × FieldVal)) : Option (List Nat × Nat × Nat) :=
  interpEntryGo ([], 0, 0) fl

/-- GraphMetadata{witness_signals: repeated u32 packed = field 1,
inputs: map = field 2}.  A packed payload appends all its varints; an
unpacked varint occurrence appends one; each map occurrence appends one
entry. -/
def interpMdGo (st : List Nat × List (List Nat × Nat × Nat)) :
    List (Nat × FieldVal) → Option (List Nat × List (List Nat × Nat × Nat))
  | [] => some st
  | (f, v) :: rest =>
      if f = 1 then
        match v with
        | .bytes bs =>
            match packedDec bs with
            | none => none
            | some vs => interpMdGo (st.1 ++ vs, st.2) rest
        | .vint n => interpMdGo (st.1 ++ [n], st.2) rest
      else if f = 2 then
        match v with
        | .bytes bs =>
            match fieldsDec bs with
            | none => none
            | some sub =>
                match interpEntry sub with
                | none => none
                | some e => interpMdGo (st.1, st.2 ++ [e]) rest
        | _ => none
      else interpMdGo st rest

def interpMd (fl : List (Nat × FieldVal)) :
    Option (List Nat × List (List Nat × Nat × Nat)) :=
  interpMdGo ([], []) fl

/-- The encoded field list of one protobuf Node message. -/
def pnodeFields : PNode → List (Nat × FieldVal)
  | .input idx => [(1, .bytes (fieldsEnc [(1, .vint idx)]))]
  | .constant none => [(2, .bytes (fieldsEnc []))]
  | .constant (some bytes) =>
      [(2, .bytes (fieldsEnc [(1, .bytes (fieldsEnc [(1, .bytes bytes)]))]))]
  | .unoOp op a => [(3, .bytes (fieldsEnc [(1, .vint op), (2, .vint a)]))]
  | .duoOp op a b =>
      [(4, .bytes (fieldsEnc [(1, .vint op), (2, .vint a), (3, .vint b)]))]
  | .tresOp op a b c =>
      [(5, .bytes (fieldsEnc [(1, .vint op), (2, .vint a), (3, .vint b), (4, .vint c)]))]

def pnodeEnc (pn : PNode) : List Nat := fieldsEnc (pnodeFields pn)

/-- The encoded field list of the GraphMetadata message, with the u32 casts
of serialize_witnesscalc_graph applied. -/
def mdFields (ws : List Nat) (inputs : List (List Nat × Nat × Nat)) :
    List (Nat × FieldVal) :=
  (1, FieldVal.bytes (packedEnc (ws.map (fun x => x % 2 ^ 32)))) ::
    inputs.map (fun e =>
      (2, FieldVal.bytes (fieldsEnc
        [(1, .bytes e.1),
         (2, .bytes (fieldsEnc [(1, .vint (e.2.1 % 2 ^ 32)), (2, .vint (e.2.2 % 2 ^ 32))]))])))

def mdEnc (ws : List Nat) (inputs : List (List Nat × Nat × Nat)) : List Nat :=
  fieldsEnc (mdFields ws inputs)

/-- 8 little-endian bytes of n mod 2^64. -/
def u64le (n : Nat) : List Nat :=
  [n % 256, n / 256 % 256, n / 256 ^ 2 % 256, n / 256 ^ 3 % 256,
   n / 256 ^ 4 % 256, n / 256 ^ 5 % 256, n / 256 ^ 6 % 256, n / 256 ^ 7 % 256]

/-- The 14 magic bytes wtns.graph.001. -/
def MAGIC : List Nat := [119, 116, 110, 115, 46, 103, 114, 97, 112, 104, 46, 48, 48, 49]

/-- read_message_length of src/storage.rs over the push-back reader state
(modelled as the list of bytes still to be delivered): read up to 10 bytes
into a zero-initialized buffer (short reads near EOF leave trailing zero
bytes, which are pushed back along with the unconsumed real bytes), decode
the length delimiter from the buffer, and push back everything after it. -/
def rmLength (avail : List Nat) : Option (Nat × List Nat) :=
  let buf := avail.take 10 ++ List.replicate (10 - avail.length) 0
  match varintDec buf with
  | none => none
  | some (n, used) => some (n, buf.drop used ++ avail.drop 10)

/-- read_message of src/storage.rs, up to the protobuf decode: read the
length, then exactly that many bytes (an incomplete read is an unexpected
EOF error). -/
def rmBytes (avail : List Nat) : Option (List Nat × List Nat) :=
  match rmLength avail with
  | none => none
  | some (ln, av) =>
      if ln ≤ av.length then some (av.take ln, av.drop ln) else none

/-- serialize_witnesscalc_graph of src/storage.rs: magic, little-endian
u64 node count, the length-delimited node messages, the length-delimited
metadata message, and the trailing little-endian u64 byte offset of the
metadata.  none models the panic on serializing a Constant node. -/
def serialize_witnesscalc_graph (nodes : List Node) (ws : List Nat)
    (inputs : List (List Nat × Nat × Nat)) : Option (List Nat) :=
  match nodes.mapM nodeToProto with
  | none => none
  | some pns =>
      let nodeBytes := (pns.map (fun pn =>
        varintEnc (pnodeEnc pn).length ++ pnodeEnc pn)).flatten
      let mdBytes := mdEnc ws inputs
      let ptr := 14 + 8 + nodeBytes.length
      some (MAGIC ++ u64le (nodes.length % 2 ^ 64) ++ nodeBytes ++
        (varintEnc mdBytes.length ++ mdBytes) ++ u64le (ptr % 2 ^ 64))

/-- The node-reading loop of deserialize_witnesscalc_graph. -/
def readNodes : Nat → List Nat → Option (List Node × List Nat)
  | 0, avail => some ([], avail)
  | k + 1, avail =>
      match rmBytes avail with
      | none => none
      | some (mb, avail2) =>
          match fieldsDec mb with
          | none => none
          | some fl =>
              match interpNode fl with
              | none => none
              | some none => none
              | some (some pn) =>
                  match protoToNode pn with
                  | none => none
                  | some n => (readNodes k avail2).map (fun p => (n :: p.1, p.2))

/-- deserialize_witnesscalc_graph of src/storage.rs: check the magic, read
the u64 node count, decode that many length-delimited node messages, decode
the metadata message, and assemble the triple.  The trailing metadata
offset is not read back. -/
def deserialize_witnesscalc_graph (bs : List Nat) :
    Option (List Node × List Nat × List (List Nat × Nat × Nat)) :=
  if bs.length < 14 then none
  else if bs.take 14 ≠ MAGIC then none
  else
    let r1 := bs.drop 14
    if r1.length < 8 then none
    else
      match readNodes (bytesToNatLE (r1.take 8)) (r1.drop 8) with
      | none => none
      | some (nodes, avail) =>
          match rmBytes avail with
          | none => none
          | some (mb, _) =>
              match fieldsDec mb with
              | none => none
              | some fl =>
                  match interpMd fl with
                  | none => none
                  | some (ws, inputs) => some (nodes, ws, inputs)

end Storage

/-! ### Basic facts about the canonical evaluators (claims C8, C9, C10) -/

theorem Fr_canon_lt (r : Graph.Fr) : Graph.Fr.canon r < M :=
  Nat.mod_lt _ M_pos

/-- C10: evaluating Idiv in canonical form with divisor zero panics (the
ruint U256 division panics on a zero divisor and the source has no guard),
unlike Div, which returns 0. -/
theorem c10_idiv_zero_panics (a : Nat) :
    Graph.Operation.eval .Idiv a 0 = none ∧ Graph.Operation.eval .Div a 0 = some 0 :=
  ⟨rfl, rfl⟩

/-- C8 counterexample: at a = 1, b = 256, the canonical Shr evaluator
returns 0, but a right shift by b mod 256 = 0 positions would return 1.
The shift count is the low 64-bit limb of b, not b mod 256. -/
theorem c8_counterexample :
    Graph.Operation.eval .Shr 1 256 = some 0 ∧ (1 : Nat) >>> (256 % 256) = 1 := by
  constructor
  · show some (Graph.compute_shr_uint 1 256) = some 0
    unfold Graph.compute_shr_uint
    norm_num
  · decide

/-- C8 amended: the canonical Shl and Shr evaluators shift by the low
64-bit limb of b (b mod 2^64); Shl truncates the result to 256 bits and
Shr yields 0 for counts of 256 or more.  For b < 256 — the only counts the
builder produces, and the domain of the compiled-out debug_assert — the
count coincides with b mod 256 and the original claim holds. -/
theorem c8_shift_semantics (a b : Nat) :
    Graph.Operation.eval .Shl a b = some ((a <<< (b % 2 ^ 64)) % U256size) ∧
    Graph.Operation.eval .Shr a b = some (a >>> (b % 2 ^ 64)) ∧
    (b < 256 →
      Graph.Operation.eval .Shl a b = some ((a <<< (b % 256)) % U256size) ∧
      Graph.Operation.eval .Shr a b = some (a >>> (b % 256))) := by
  have hshl : Graph.Operation.eval .Shl a b = some ((a <<< (b % 2 ^ 64)) % U256size) := by
    show some (Graph.compute_shl_uint a b) = _
    rw [Graph.compute_shl_uint, Nat.shiftLeft_eq]
  have hshr : Graph.Operation.eval .Shr a b = some (a >>> (b % 2 ^ 64)) := by
    show some (Graph.compute_shr_uint a b) = _
    rw [Graph.compute_shr_uint, Nat.shiftRight_eq_div_pow]
  refine ⟨hshl, hshr, fun hb => ?_⟩
  have h64 : b % 2 ^ 64 = b := Nat.mod_eq_of_lt (lt_trans hb (by norm_num))
  have h256 : b % 256 = b := Nat.mod_eq_of_lt hb
  rw [hshl, hshr, h64, h256]
  exact ⟨rfl, rfl⟩

/-- C8 witness: the amended theorem applied at a = 5, b = 3. -/
theorem c8_shift_semantics_witness :
    Graph.Operation.eval .Shl 5 3 = some 40 ∧ Graph.Operation.eval .Shr 5 1 = some 2 := by
  have h1 := ((c8_shift_semantics 5 3).2.2 (by decide)).1
  have h2 := ((c8_shift_semantics 5 1).2.2 (by decide)).2
  rw [h1, h2]
  exact ⟨by decide, by decide⟩

/-- C9: the Montgomery-form Band evaluator converts both operands to
canonical form, ANDs the 64-bit limbs (Nat.land on the 256-bit values) and
reduces modulo M (the reduction is the identity here, since the AND of two
canonical values is below M); the canonical Band evaluator is the plain
limb-wise AND with no reduction. -/
theorem c9_band_semantics :
    (∀ a b : Graph.Fr,
      Graph.Operation.eval_fr .Band a b =
        some (Graph.Fr.new (Nat.land (Graph.Fr.canon a) (Graph.Fr.canon b) % M))) ∧
    (∀ x y : Nat, Graph.Operation.eval .Band x y = some (Nat.land x y)) := by
  constructor
  · intro a b
    show Graph.bit_and a b = _
    have hd : Nat.land (Graph.Fr.canon a) (Graph.Fr.canon b) < M :=
      lt_of_le_of_lt Nat.and_le_left (Fr_canon_lt a)
    rw [Graph.bit_and]
    rw [if_neg (by omega)]
    rw [Graph.Fr.from_bigint, if_pos hd, Nat.mod_eq_of_lt hd]
  · intro x y
    rfl

/-! ### Primality of the BN254 modulus (Lucas certificates)

The Div claims quantify over nonzero field elements; their modular inverses
exist because M is prime.  M is certified prime through the Lucas primality
theorem, with the prime factorization of M - 1 and a certificate chain for
its large prime factors. -/

set_option maxRecDepth 100000

/-- Binary modular exponentiation, fuelled (fuel e suffices for exponent e);
used only to state and check the Lucas certificates by kernel reduction. -/
def powModAux : Nat → Nat → Nat → Nat → Nat
  | 0, _, _, m => 1 % m
  | f + 1, a, e, m =>
      if e = 0 then 1 % m
      else
        let h := powModAux f a (e / 2) m
        if e % 2 = 0 then h * h % m else h * h % m * a % m

def powMod (a e m : Nat) : Nat := powModAux e a e m

theorem powModAux_cast (m : Nat) :
    ∀ f e a, e ≤ f → ((powModAux f a e m : Nat) : ZMod m) = ((a : ZMod m)) ^ e := by
  intro f
  induction f with
  | zero =>
      intro e a he
      have h0 : e = 0 := Nat.le_zero.mp he
      subst h0
      simp [powModAux, ZMod.natCast_mod]
  | succ f ih =>
      intro e a he
      by_cases he0 : e = 0
      · subst he0
        simp [powModAux, ZMod.natCast_mod]
      · have hlt : e / 2 < e := Nat.div_lt_self (Nat.pos_of_ne_zero he0) one_lt_two
        have hk : e / 2 ≤ f := by omega
        have IH := ih (e / 2) a hk
        show ((if e = 0 then 1 % m
              else
                let h := powModAux f a (e / 2) m
                if e % 2 = 0 then h * h % m else h * h % m * a % m : Nat) : ZMod m) = _
        rw [if_neg he0]
        by_cases hpar : e % 2 = 0
        · simp only [hpar, if_pos]
          rw [ZMod.natCast_mod, Nat.cast_mul, IH, ← pow_add]
          congr 1
          omega
        · rw [if_neg hpar]
          rw [ZMod.natCast_mod, Nat.cast_mul, ZMod.natCast_mod, Nat.cast_mul, IH, ← pow_add]
          rw [← pow_succ]
          congr 1
          omega

theorem powModAux_lt (f a e m : Nat) (hm : 0 < m) : powModAux f a e m < m := by
  cases f with
  | zero => exact Nat.mod_lt _ hm
  | succ f =>
      show (if e = 0 then 1 % m
            else
              let h := powModAux f a (e / 2) m
              if e % 2 = 0 then h * h % m else h * h % m * a % m) < m
      by_cases he : e = 0
      · rw [if_pos he]; exact Nat.mod_lt _ hm
      · rw [if_neg he]
        by_cases hpar : e % 2 = 0
        · simp only [hpar, if_pos]; exact Nat.mod_lt _ hm
        · rw [if_neg hpar]; exact Nat.mod_lt _ hm

theorem prime_of_lucas (p a : Nat) (hp : 2 ≤ p)
    (h1 : powMod a (p - 1) p = 1 % p)
    (hq : ∀ q : Nat, q.Prime → q ∣ p - 1 → powMod a ((p - 1) / q) p ≠ 1 % p) :
    p.Prime := by
  have hcast : ∀ e : Nat, ((powMod a e p : Nat) : ZMod p) = ((a : ZMod p)) ^ e :=
    fun e => powModAux_cast p e e a le_rfl
  have hone : ((1 % p : Nat) : ZMod p) = 1 := by
    rw [ZMod.natCast_mod, Nat.cast_one]
  apply lucas_primality p ((a : Nat) : ZMod p)
  · rw [← hcast, h1, hone]
  · intro q hqp hdvd hcon
    apply hq q hqp hdvd
    have h2 : ((powMod a ((p - 1) / q) p : Nat) : ZMod p) = ((1 % p : Nat) : ZMod p) := by
      rw [hcast, hcon, hone]
    have h3 : powMod a ((p - 1) / q) p ≡ 1 % p [MOD p] :=
      (ZMod.natCast_eq_natCast_iff _ _ _).mp h2
    have h4 : powMod a ((p - 1) / q) p < p := powModAux_lt _ _ _ _ (by omega)
    have h5 : 1 % p < p := Nat.mod_lt _ (by omega)
    have h6 := h3
    unfold Nat.ModEq at h6
    rwa [Nat.mod_eq_of_lt h4, Nat.mod_eq_of_lt h5] at h6

theorem prime_1593227 : Nat.Prime 1593227 := by norm_num

theorem prime_639533339 : Nat.Prime 639533339 := by
  apply prime_of_lucas 639533339 2 (by norm_num)
  · decide
  · intro q hq hdvd
    have he : (639533339 - 1 : Nat) = 2 * (229 * (853 * (1637))) := by norm_num
    rw [he] at hdvd
    rcases (Nat.Prime.dvd_mul hq).mp hdvd with h | hdvd
    · rw [(Nat.prime_dvd_prime_iff_eq hq (by norm_num)).mp h]
      decide
    rcases (Nat.Prime.dvd_mul hq).mp hdvd with h | hdvd
    · rw [(Nat.prime_dvd_prime_iff_eq hq (by norm_num)).mp h]
      decide
    rcases (Nat.Prime.dvd_mul hq).mp hdvd with h | hdvd
    · rw [(Nat.prime_dvd_prime_iff_eq hq (by norm_num)).mp h]
      decide

    rw [(Nat.prime_dvd_prime_iff_eq hq (by norm_num)).mp hdvd]
    decide

theorem prime_65865678001877903 : Nat.Prime 65865678001877903 := by
  apply prime_of_lucas 65865678001877903 5 (by norm_num)
  · decide
  · intro q hq hdvd
    have he : (65865678001877903 - 1 : Nat) = 2 * (83 * (379 * (1637 * (639533339)))) := by norm_num
    rw [he] at hdvd
    rcases (Nat.Prime.dvd_mul hq).mp hdvd with h | hdvd
    · rw [(Nat.prime_dvd_prime_iff_eq hq (by norm_num)).mp h]
      decide
    rcases (Nat.Prime.dvd_mul hq).mp hdvd with h | hdvd
    · rw [(Nat.prime_dvd_prime_iff_eq hq (by norm_num)).mp h]
      decide
    rcases (Nat.Prime.dvd_mul hq).mp hdvd with h | hdvd
    · rw [(Nat.prime_dvd_prime_iff_eq hq (by norm_num)).mp h]
      decide
    rcases (Nat.Prime.dvd_mul hq).mp hdvd with h | hdvd
    · rw [(Nat.prime_dvd_prime_iff_eq hq (by norm_num)).mp h]
      decide

    rw [(Nat.prime_dvd_prime_iff_eq hq prime_639533339).mp hdvd]
    decide

theorem prime_13818364434197438864469338081 : Nat.Prime 13818364434197438864469338081 := by
  apply prime_of_lucas 13818364434197438864469338081 3 (by norm_num)
  · decide
  · intro q hq hdvd
    have he : (13818364434197438864469338081 - 1 : Nat) = 2 ^ 5 * (5 * (823 * (1593227 * (65865678001877903)))) := by norm_num
    rw [he] at hdvd
    rcases (Nat.Prime.dvd_mul hq).mp hdvd with h | hdvd
    · rw [(Nat.prime_dvd_prime_iff_eq hq (by norm_num)).mp (Nat.Prime.dvd_of_dvd_pow hq h)]
      decide
    rcases (Nat.Prime.dvd_mul hq).mp hdvd with h | hdvd
    · rw [(Nat.prime_dvd_prime_iff_eq hq (by norm_num)).mp h]
      decide
    rcases (Nat.Prime.dvd_mul hq).mp hdvd with h | hdvd
    · rw [(Nat.prime_dvd_prime_iff_eq hq (by norm_num)).mp h]
      decide
    rcases (Nat.Prime.dvd_mul hq).mp hdvd with h | hdvd
    · rw [(Nat.prime_dvd_prime_iff_eq hq prime_1593227).mp h]
      decide

    rw [(Nat.prime_dvd_prime_iff_eq hq prime_65865678001877903).mp hdvd]
    decide

theorem prime_12048837557 : Nat.Prime 12048837557 := by
  apply prime_of_lucas 12048837557 2 (by norm_num)
  · decide
  · intro q hq hdvd
    have he : (12048837557 - 1 : Nat) = 2 ^ 2 * (7 ^ 2 * (661 * (93001))) := by norm_num
    rw [he] at hdvd
    rcases (Nat.Prime.dvd_mul hq).mp hdvd with h | hdvd
    · rw [(Nat.prime_dvd_prime_iff_eq hq (by norm_num)).mp (Nat.Prime.dvd_of_dvd_pow hq h)]
      decide
    rcases (Nat.Prime.dvd_mul hq).mp hdvd with h | hdvd
    · rw [(Nat.prime_dvd_prime_iff_eq hq (by norm_num)).mp (Nat.Prime.dvd_of_dvd_pow hq h)]
      decide
    rcases (Nat.Prime.dvd_mul hq).mp hdvd with h | hdvd
    · rw [(Nat.prime_dvd_prime_iff_eq hq (by norm_num)).mp h]
      decide

    rw [(Nat.prime_dvd_prime_iff_eq hq (by norm_num)).mp hdvd]
    decide

theorem prime_5156902474397 : Nat.Prime 5156902474397 := by
  apply prime_of_lucas 5156902474397 2 (by norm_num)
  · decide
  · intro q hq hdvd
    have he : (5156902474397 - 1 : Nat) = 2 ^ 2 * (107 * (12048837557)) := by norm_num
    rw [he] at hdvd
    rcases (Nat.Prime.dvd_mul hq).mp hdvd with h | hdvd
    · rw [(Nat.prime_dvd_prime_iff_eq hq (by norm_num)).mp (Nat.Prime.dvd_of_dvd_pow hq h)]
      decide
    rcases (Nat.Prime.dvd_mul hq).mp hdvd with h | hdvd
    · rw [(Nat.prime_dvd_prime_iff_eq hq (by norm_num)).mp h]
      decide

    rw [(Nat.prime_dvd_prime_iff_eq hq prime_12048837557).mp hdvd]
    decide

theorem prime_1670836401704629 : Nat.Prime 1670836401704629 := by
  apply prime_of_lucas 1670836401704629 2 (by norm_num)
  · decide
  · intro q hq hdvd
    have he : (1670836401704629 - 1 : Nat) = 2 ^ 2 * (3 ^ 4 * (5156902474397)) := by norm_num
    rw [he] at hdvd
    rcases (Nat.Prime.dvd_mul hq).mp hdvd with h | hdvd
    · rw [(Nat.prime_dvd_prime_iff_eq hq (by norm_num)).mp (Nat.Prime.dvd_of_dvd_pow hq h)]
      decide
    rcases (Nat.Prime.dvd_mul hq).mp hdvd with h | hdvd
    · rw [(Nat.prime_dvd_prime_iff_eq hq (by norm_num)).mp (Nat.Prime.dvd_of_dvd_pow hq h)]
      decide

    rw [(Nat.prime_dvd_prime_iff_eq hq prime_5156902474397).mp hdvd]
    decide

theorem prime_405928799 : Nat.Prime 405928799 := by
  apply prime_of_lucas 405928799 22 (by norm_num)
  · decide
  · intro q hq hdvd
    have he : (405928799 - 1 : Nat) = 2 * (11 * (3691 * (4999))) := by norm_num
    rw [he] at hdvd
    rcases (Nat.Prime.dvd_mul hq).mp hdvd with h | hdvd
    · rw [(Nat.prime_dvd_prime_iff_eq hq (by norm_num)).mp h]
      decide
    rcases (Nat.Prime.dvd_mul hq).mp hdvd with h | hdvd
    · rw [(Nat.prime_dvd_prime_iff_eq hq (by norm_num)).mp h]
      decide
    rcases (Nat.Prime.dvd_mul hq).mp hdvd with h | hdvd
    · rw [(Nat.prime_dvd_prime_iff_eq hq (by norm_num)).mp h]
      decide

    rw [(Nat.prime_dvd_prime_iff_eq hq (by norm_num)).mp hdvd]
    decide

theorem M_prime : Nat.Prime M := by
  rw [show M = 21888242871839275222246405745257275088548364400416034343698204186575808495617 from rfl]
  apply prime_of_lucas 21888242871839275222246405745257275088548364400416034343698204186575808495617 5 (by norm_num)
  · decide
  · intro q hq hdvd
    have he : (21888242871839275222246405745257275088548364400416034343698204186575808495617 - 1 : Nat) = 2 ^ 28 * (3 ^ 2 * (13 * (29 * (983 * (11003 * (237073 * (405928799 * (1670836401704629 * (13818364434197438864469338081))))))))) := by norm_num
    rw [he] at hdvd
    rcases (Nat.Prime.dvd_mul hq).mp hdvd with h | hdvd
    · rw [(Nat.prime_dvd_prime_iff_eq hq (by norm_num)).mp (Nat.Prime.dvd_of_dvd_pow hq h)]
      decide
    rcases (Nat.Prime.dvd_mul hq).mp hdvd with h | hdvd
    · rw [(Nat.prime_dvd_prime_iff_eq hq (by norm_num)).mp (Nat.Prime.dvd_of_dvd_pow hq h)]
      decide
    rcases (Nat.Prime.dvd_mul hq).mp hdvd with h | hdvd
    · rw [(Nat.prime_dvd_prime_iff_eq hq (by norm_num)).mp h]
      decide
    rcases (Nat.Prime.dvd_mul hq).mp hdvd with h | hdvd
    · rw [(Nat.prime_dvd_prime_iff_eq hq (by norm_num)).mp h]
      decide
    rcases (Nat.Prime.dvd_mul hq).mp hdvd with h | hdvd
    · rw [(Nat.prime_dvd_prime_iff_eq hq (by norm_num)).mp h]
      decide
    rcases (Nat.Prime.dvd_mul hq).mp hdvd with h | hdvd
    · rw [(Nat.prime_dvd_prime_iff_eq hq (by norm_num)).mp h]
      decide
    rcases (Nat.Prime.dvd_mul hq).mp hdvd with h | hdvd
    · rw [(Nat.prime_dvd_prime_iff_eq hq (by norm_num)).mp h]
      decide
    rcases (Nat.Prime.dvd_mul hq).mp hdvd with h | hdvd
    · rw [(Nat.prime_dvd_prime_iff_eq hq prime_405928799).mp h]
      decide
    rcases (Nat.Prime.dvd_mul hq).mp hdvd with h | hdvd
    · rw [(Nat.prime_dvd_prime_iff_eq hq prime_1670836401704629).mp h]
      decide

    rw [(Nat.prime_dvd_prime_iff_eq hq prime_13818364434197438864469338081).mp hdvd]
    decide

/-! ### Division semantics (claim C3) -/

theorem Rmont_modeq_one : Rmont * RmontInv ≡ 1 [MOD M] := by
  show Rmont * RmontInv % M = 1 % M
  rw [Rmont_mul_inv]
  decide

/-- Every nonzero value below the prime modulus is coprime to it. -/
theorem coprime_of_pos_lt {b : Nat} (hb0 : b ≠ 0) (hbM : b < M) : Nat.gcd b M = 1 := by
  have h1 : ¬ (M ∣ b) := fun hdvd =>
    absurd (Nat.le_of_dvd (Nat.pos_of_ne_zero hb0) hdvd) (not_le.mpr hbM)
  have h2 : Nat.Coprime M b := (Nat.Prime.coprime_iff_not_dvd M_prime).mpr h1
  rw [Nat.gcd_comm]
  exact h2

/-- invMod returns the modular inverse whenever the argument is coprime to
the modulus (the ruint inv_mod contract). -/
theorem invMod_spec {b : Nat} (h1 : Nat.gcd b M = 1) :
    ∃ i, Graph.invMod b M = some i ∧ i < M ∧ b * i % M = 1 := by
  have hpos : (0 : Int) < (M : Int) := by exact_mod_cast M_pos
  have hne : (M : Int) ≠ 0 := by omega
  have h3 : (0 : Int) ≤ (Nat.xgcd b M).1 % (M : Int) := Int.emod_nonneg _ hne
  have h2 : (Nat.xgcd b M).1 % (M : Int) < (M : Int) := Int.emod_lt_of_pos _ hpos
  refine ⟨((Nat.xgcd b M).1 % (M : Int)).toNat, ?_, by omega, ?_⟩
  · rw [Graph.invMod, if_pos h1]
  · have hbez := Nat.gcd_eq_gcd_ab b M
    rw [h1] at hbez
    have hInt : ((b : Int) * (((Nat.xgcd b M).1 % (M : Int)).toNat : Int)) % M = 1 := by
      rw [Int.toNat_of_nonneg h3]
      rw [Int.mul_emod b ((Nat.xgcd b M).1 % (M : Int)) (M : Int),
          Int.emod_emod_of_dvd _ dvd_rfl, ← Int.mul_emod]
      have hg : (b : Int) * (Nat.xgcd b M).1 = 1 - (M : Int) * Nat.gcdB b M := by
        have hA : (Nat.gcdA b M) = (Nat.xgcd b M).1 := rfl
        rw [← hA]
        push_cast at hbez
        linarith [hbez]
      have hr : (1 : Int) - (M : Int) * Nat.gcdB b M = 1 + (M : Int) * (-(Nat.gcdB b M)) := by
        ring
      rw [hg, hr, Int.add_mul_emod_self_left]
      have h1M : (1 : Int) < (M : Int) := by exact_mod_cast (by decide : 1 < M)
      exact Int.emod_eq_of_lt (by norm_num) h1M
    have hcast : ((b * ((Nat.xgcd b M).1 % (M : Int)).toNat % M : Nat) : Int) = ((1 : Nat) : Int) := by
      push_cast
      exact hInt
    exact_mod_cast hcast

/-- A nonzero Fr representation word has nonzero canonical value. -/
theorem canon_ne_zero {b : Graph.Fr} (hb : b ≠ 0) (hbM : b < M) : Graph.Fr.canon b ≠ 0 := by
  intro h
  have hdvd : M ∣ b * RmontInv := Nat.dvd_of_mod_eq_zero h
  rcases (Nat.Prime.dvd_mul M_prime).mp hdvd with h1 | h1
  · have h3 := Nat.le_of_dvd (Nat.pos_of_ne_zero hb) h1
    exact absurd h3 (not_le.mpr hbM)
  · have h2 := Nat.eq_zero_of_dvd_of_lt h1 (by decide)
    exact absurd h2 (by decide)

/-- The canonical value of the Montgomery division result a * b^-1: it is
the canonical value of a times the modular inverse of the canonical value
of b. -/
theorem canon_mulm_inv (a b : Graph.Fr) (hb0 : b ≠ 0) (hbM : b < M) :
    ∃ i, i < M ∧ Graph.Fr.canon b * i % M = 1 ∧
      Graph.Fr.canon (Graph.Fr.mulm a (Graph.Fr.inv b)) = Graph.Fr.canon a * i % M := by
  have hcb0 : Graph.Fr.canon b ≠ 0 := canon_ne_zero hb0 hbM
  have hcbM : Graph.Fr.canon b < M := Nat.mod_lt _ M_pos
  obtain ⟨i, hsome, hlt, hinv⟩ := invMod_spec (coprime_of_pos_lt hcb0 hcbM)
  have hieq : i = ((Nat.xgcd (Graph.Fr.canon b) M).1 % (M : Int)).toNat := by
    rw [Graph.invMod, if_pos (coprime_of_pos_lt hcb0 hcbM)] at hsome
    exact (Option.some_inj.mp hsome).symm
  refine ⟨i, hlt, hinv, ?_⟩
  show (Graph.Fr.mulm a (Graph.Fr.inv b)) * RmontInv % M = (a * RmontInv % M) * i % M
  have hgoal : (Graph.Fr.mulm a (Graph.Fr.inv b)) * RmontInv ≡ (a * RmontInv % M) * i [MOD M] := by
    calc (Graph.Fr.mulm a (Graph.Fr.inv b)) * RmontInv
        = (a * (i * Rmont % M) * RmontInv % M) * RmontInv := by
          rw [Graph.Fr.mulm, Graph.Fr.inv, Graph.Fr.new, ← hieq]
      _ ≡ (a * (i * Rmont % M) * RmontInv) * RmontInv [MOD M] :=
          Nat.ModEq.mul_right _ (Nat.mod_modEq _ _)
      _ ≡ (a * (i * Rmont) * RmontInv) * RmontInv [MOD M] := by
          apply Nat.ModEq.mul_right
          apply Nat.ModEq.mul_right
          exact Nat.ModEq.mul_left _ (Nat.mod_modEq _ _)
      _ = (a * RmontInv * i) * (Rmont * RmontInv) := by ring
      _ ≡ (a * RmontInv * i) * 1 [MOD M] :=
          Nat.ModEq.mul_left _ Rmont_modeq_one
      _ = (a * RmontInv) * i := by ring
      _ ≡ ((a * RmontInv) % M) * i [MOD M] :=
          Nat.ModEq.mul_right _ (Nat.mod_modEq _ _).symm
  exact hgoal

/-- C3: dividing by zero completes and returns 0 in both the canonical
evaluator (Operation::eval) and the Montgomery evaluator
(Operation::eval_fr); for a nonzero divisor b both return a multiplied by
the modular inverse of b (stated via the unique witness i of the inverse:
b * i = 1 mod M). -/
theorem c3_div_semantics :
    (∀ a : Nat, Graph.Operation.eval .Div a 0 = some 0) ∧
    (∀ a : Graph.Fr, Graph.Operation.eval_fr .Div a 0 = some 0) ∧
    (∀ a b : Nat, b ≠ 0 → b < M →
      ∃ i, i < M ∧ b * i % M = 1 ∧
        Graph.Operation.eval .Div a b = some (a * i % M)) ∧
    (∀ a b : Graph.Fr, b ≠ 0 → b < M →
      ∃ r i, Graph.Operation.eval_fr .Div a b = some r ∧ i < M ∧
        Graph.Fr.canon b * i % M = 1 ∧
        Graph.Fr.canon r = Graph.Fr.canon a * i % M) := by
  refine ⟨fun a => rfl, fun a => rfl, ?_, ?_⟩
  · intro a b hb hbM
    obtain ⟨i, hsome, hlt, hinv⟩ := invMod_spec (coprime_of_pos_lt hb hbM)
    refine ⟨i, hlt, hinv, ?_⟩
    show (if b = 0 then some 0 else (Graph.invMod b M).map (fun i => a * i % M)) = _
    rw [if_neg hb, hsome]
    rfl
  · intro a b hb hbM
    obtain ⟨i, hlt, hinv, hcanon⟩ := canon_mulm_inv a b hb hbM
    refine ⟨Graph.Fr.mulm a (Graph.Fr.inv b), i, ?_, hlt, hinv, hcanon⟩
    show (if b = 0 then some 0 else some (Graph.Fr.mulm a (Graph.Fr.inv b))) = _
    rw [if_neg hb]

/-- C3 witness: the theorem applied at a = 2, b = 3 (and at divisor 0). -/
theorem c3_div_semantics_witness :
    Graph.Operation.eval .Div 2 0 = some 0 ∧
    Graph.Operation.eval_fr .Div 2 0 = some 0 ∧
    (∃ i, i < M ∧ 3 * i % M = 1 ∧
      Graph.Operation.eval .Div 2 3 = some (2 * i % M)) ∧
    (∃ r i, Graph.Operation.eval_fr .Div 2 3 = some r ∧ i < M ∧
      Graph.Fr.canon 3 * i % M = 1 ∧
      Graph.Fr.canon r = Graph.Fr.canon 2 * i % M) :=
  ⟨c3_div_semantics.1 2, c3_div_semantics.2.1 2,
   c3_div_semantics.2.2.1 2 3 (by decide) (by decide),
   c3_div_semantics.2.2.2 2 3 (by decide) (by decide)⟩

/-! ### The Montgomery rewrite pass (claim C4) -/

theorem mapM_opt_some {α β : Type} (f : α → Option β) :
    ∀ (xs : List α) (ys : List β), xs.mapM f = some ys →
      ys.length = xs.length ∧
      ∀ i x, xs.get? i = some x → ∃ y, f x = some y ∧ ys.get? i = some y := by
  intro xs
  induction xs with
  | nil =>
      intro ys h
      simp only [List.mapM_nil, pure, Option.some_inj] at h
      subst h
      exact ⟨rfl, fun i x hx => by simp at hx⟩
  | cons x xs ih =>
      intro ys h
      rw [List.mapM_cons] at h
      match hfx : f x with
      | none => rw [hfx] at h; simp at h
      | some y =>
          rw [hfx] at h
          match hrest : xs.mapM f with
          | none => rw [hrest] at h; simp at h
          | some ys2 =>
              rw [hrest] at h
              simp only [Option.bind_eq_bind, Option.some_bind, Option.pure_def,
                Option.some_inj] at h
              obtain ⟨hlen, hget⟩ := ih ys2 hrest
              subst h
              refine ⟨by simp [hlen], ?_⟩
              intro i a ha
              match i with
              | 0 =>
                  simp only [List.get?] at ha ⊢
                  exact ⟨y, by rw [← Option.some_inj.mp ha]; exact hfx, rfl⟩
              | i + 1 =>
                  simp only [List.get?] at ha ⊢
                  exact hget i a ha

theorem mapM_opt_none {α β : Type} (f : α → Option β) :
    ∀ (xs : List α) (x : α), x ∈ xs → f x = none → xs.mapM f = none := by
  intro xs
  induction xs with
  | nil => intro x hx; simp at hx
  | cons a xs ih =>
      intro x hx hfx
      rw [List.mapM_cons]
      rcases List.mem_cons.mp hx with h | h
      · subst h; rw [hfx]; rfl
      · match hfa : f a with
        | none => rfl
        | some y => rw [ih x h hfx]; rfl

/-- Backwards characterization of a successful Option mapM. -/
theorem mapM_opt_back {α β : Type} (f : α → Option β) :
    ∀ (xs : List α) (ys : List β), xs.mapM f = some ys →
      ∀ i y, ys.get? i = some y → ∃ x, xs.get? i = some x ∧ f x = some y := by
  intro xs
  induction xs with
  | nil =>
      intro ys h i y hy
      simp only [List.mapM_nil, pure, Option.some_inj] at h
      subst h
      simp at hy
  | cons x xs ih =>
      intro ys h i y hy
      rw [List.mapM_cons] at h
      match hfx : f x with
      | none => rw [hfx] at h; simp at h
      | some y0 =>
          rw [hfx] at h
          match hrest : xs.mapM f with
          | none => rw [hrest] at h; simp at h
          | some ys2 =>
              rw [hrest] at h
              simp only [Option.bind_eq_bind, Option.some_bind, Option.pure_def,
                Option.some_inj] at h
              subst h
              match i with
              | 0 =>
                  simp only [List.get?] at hy ⊢
                  exact ⟨x, rfl, by rw [hfx, hy]⟩
              | i + 1 =>
                  simp only [List.get?] at hy ⊢
                  exact ih ys2 hrest i y hy

/-- Any output node of montStep is not Constant, and its operator obeys the
Montgomery subset. -/
theorem montStep_shape (x y : Graph.Node) (h : Graph.montStep x = some y) :
    (∀ c, y ≠ .Constant c) ∧
    (∀ op a b, y = .Op op a b → Graph.montOk op = true) ∧
    (∀ op a, y = .UnoOp op a → op = .Neg) ∧
    (∀ op a b c, y = .TresOp op a b c → op = .TernCond) := by
  cases x with
  | Input j =>
      obtain rfl : Graph.Node.Input j = y := Option.some_inj.mp h
      simp
  | Constant c =>
      obtain rfl : Graph.Node.MontConstant (Graph.Fr.new c) = y := Option.some_inj.mp h
      simp
  | MontConstant c =>
      obtain rfl : Graph.Node.MontConstant c = y := Option.some_inj.mp h
      simp
  | Op op a b =>
      by_cases hok : Graph.montOk op
      · rw [Graph.montStep, if_pos hok] at h
        obtain rfl : Graph.Node.Op op a b = y := Option.some_inj.mp h
        simp only [ne_eq, Graph.Node.Op.injEq]
        refine ⟨by simp, ?_, by simp, by simp⟩
        rintro op2 a2 b2 ⟨rfl, rfl, rfl⟩
        exact hok
      · rw [Graph.montStep, if_neg hok] at h
        cases h
  | UnoOp op a =>
      by_cases hok : op = Graph.Operation.Neg
      · rw [Graph.montStep, if_pos hok] at h
        obtain rfl : Graph.Node.UnoOp op a = y := Option.some_inj.mp h
        simp only [ne_eq, Graph.Node.UnoOp.injEq]
        refine ⟨by simp, by simp, ?_, by simp⟩
        rintro op2 a2 ⟨rfl, rfl⟩
        exact hok
      · rw [Graph.montStep, if_neg hok] at h
        cases h
  | TresOp op a b c =>
      by_cases hok : op = Graph.Operation.TernCond
      · rw [Graph.montStep, if_pos hok] at h
        obtain rfl : Graph.Node.TresOp op a b c = y := Option.some_inj.mp h
        simp only [ne_eq, Graph.Node.TresOp.injEq]
        refine ⟨by simp, by simp, by simp, ?_⟩
        rintro op2 a2 b2 c2 ⟨rfl, rfl, rfl, rfl⟩
        exact hok
      · rw [Graph.montStep, if_neg hok] at h
        cases h

/-- The montOk predicate spells out exactly the supported binary subset. -/
theorem montOk_iff (op : Graph.Operation) :
    Graph.montOk op = true ↔
      (op = .Add ∨ op = .Sub ∨ op = .Mul ∨ op = .Shr ∨ op = .Band ∨
       op = .Div ∨ op = .Neq) := by
  cases op <;> simp [Graph.montOk]

/-- C4: when montgomery_form succeeds, every Constant(v) has been replaced
at its position by MontConstant carrying v * R mod p, no Constant node
remains, and every surviving operator lies in the Montgomery-supported
subset (binary Add, Sub, Mul, Shr, Band, Div, Neq; unary Neg; ternary
TernCond); a graph holding any node with another operator makes the pass a
fatal error (none). -/
theorem c4_montgomery_form :
    (∀ ns ns', Graph.montgomery_form ns = some ns' →
      ns'.length = ns.length ∧
      (∀ i c, ns.get? i = some (.Constant c) →
        ns'.get? i = some (.MontConstant (c * Rmont % M))) ∧
      (∀ c, ¬ (Graph.Node.Constant c) ∈ ns') ∧
      (∀ i op a b, ns'.get? i = some (.Op op a b) →
        op = .Add ∨ op = .Sub ∨ op = .Mul ∨ op = .Shr ∨ op = .Band ∨
        op = .Div ∨ op = .Neq) ∧
      (∀ i op a, ns'.get? i = some (.UnoOp op a) → op = .Neg) ∧
      (∀ i op a b c, ns'.get? i = some (.TresOp op a b c) → op = .TernCond)) ∧
    (∀ ns op a b, (Graph.Node.Op op a b) ∈ ns →
      ¬(op = .Add ∨ op = .Sub ∨ op = .Mul ∨ op = .Shr ∨ op = .Band ∨
        op = .Div ∨ op = .Neq) →
      Graph.montgomery_form ns = none) ∧
    (∀ ns op a, (Graph.Node.UnoOp op a) ∈ ns → op ≠ .Neg →
      Graph.montgomery_form ns = none) ∧
    (∀ ns op a b c, (Graph.Node.TresOp op a b c) ∈ ns → op ≠ .TernCond →
      Graph.montgomery_form ns = none) := by
  refine ⟨?_, ?_, ?_, ?_⟩
  · intro ns ns' h
    obtain ⟨hlen, hget⟩ := mapM_opt_some _ ns ns' h
    have hback := mapM_opt_back _ ns ns' h
    refine ⟨hlen, ?_, ?_, ?_, ?_, ?_⟩
    · intro i c hc
      obtain ⟨y, hy1, hy2⟩ := hget i _ hc
      rw [Graph.montStep] at hy1
      rw [hy2, ← Option.some_inj.mp hy1]
      rfl
    · intro c hc
      obtain ⟨i, hi⟩ := List.get?_of_mem hc
      obtain ⟨x, _, hfx⟩ := hback i _ hi
      exact (montStep_shape x _ hfx).1 c rfl
    · intro i op a b hi
      obtain ⟨x, _, hfx⟩ := hback i _ hi
      exact (montOk_iff op).mp ((montStep_shape x _ hfx).2.1 op a b rfl)
    · intro i op a hi
      obtain ⟨x, _, hfx⟩ := hback i _ hi
      exact (montStep_shape x _ hfx).2.2.1 op a rfl
    · intro i op a b c hi
      obtain ⟨x, _, hfx⟩ := hback i _ hi
      exact (montStep_shape x _ hfx).2.2.2 op a b c rfl
  · intro ns op a b hmem hbad
    apply mapM_opt_none _ ns _ hmem
    have hok : Graph.montOk op = false := by
      rcases hmok : Graph.montOk op with _ | _
      · rfl
      · exact absurd ((montOk_iff op).mp hmok) hbad
    rw [Graph.montStep, hok]
    rfl
  · intro ns op a hmem hbad
    apply mapM_opt_none _ ns _ hmem
    rw [Graph.montStep, if_neg hbad]
  · intro ns op a b c hmem hbad
    apply mapM_opt_none _ ns _ hmem
    rw [Graph.montStep, if_neg hbad]

/-! ### Subcomponent input firing (claim C5) -/

/-- The wrapped decrement is the plain difference whenever the stored size
does not exceed the remaining count (and the count is a valid usize). -/
theorem usizeSub_of_le (x y : Nat) (hy : y ≤ x) (hx : x < 2 ^ 64) :
    BuildCircuit.usizeSub x y = x - y := by
  rw [BuildCircuit.usizeSub]
  have h1 : y % 2 ^ 64 = y := Nat.mod_eq_of_lt (lt_of_le_of_lt hy hx)
  rw [h1]
  omega

/-- Storing more inputs than remain leaves a nonzero (wrapped-around)
counter. -/
theorem usizeSub_pos_of_lt (x y : Nat) (hxy : x < y) (hy : y < 2 ^ 64) :
    0 < BuildCircuit.usizeSub x y := by
  rw [BuildCircuit.usizeSub]
  have h1 : y % 2 ^ 64 = y := Nat.mod_eq_of_lt hy
  rw [h1]
  omega

/-- C5: after a successful store to a subcomponent (which decrements the
remaining-input counter by size, a wrapping usize subtraction that equals
the plain difference whenever size does not exceed the count),
StatusInput::Last demands a remaining count of exactly 0 and fires the
callee, NoLast demands a strictly positive remaining count and does not
fire, and Unknown fires exactly when the remaining count is 0; moreover a
Last store with nonzero remainder and a NoLast store with zero remainder
are assertion failures (none), and storing more inputs than remain (a
wrapped counter) fails a Last assertion and never fires an Unknown
store. -/
theorem c5_subcomponent_firing :
    (∀ status sidx size src signals comp sigs2 comp2 ran,
      BuildCircuit.store_subcomponent_signals status sidx size src signals comp =
        some (sigs2, comp2, ran) →
      comp2.number_of_inputs = BuildCircuit.usizeSub comp.number_of_inputs size ∧
      (status = .Last → comp2.number_of_inputs = 0 ∧ ran = true) ∧
      (status = .NoLast → 0 < comp2.number_of_inputs ∧ ran = false) ∧
      (status = .Unknown → (ran = true ↔ comp2.number_of_inputs = 0))) ∧
    (∀ sidx size src signals comp,
      BuildCircuit.usizeSub comp.number_of_inputs size ≠ 0 →
      BuildCircuit.store_subcomponent_signals .Last sidx size src signals comp = none) ∧
    (∀ sidx size src signals comp,
      BuildCircuit.usizeSub comp.number_of_inputs size = 0 →
      BuildCircuit.store_subcomponent_signals .NoLast sidx size src signals comp = none) ∧
    (∀ sidx size src signals comp,
      comp.number_of_inputs < size → size < 2 ^ 64 →
      BuildCircuit.store_subcomponent_signals .Last sidx size src signals comp = none ∧
      (∀ sigs2 comp2 ran,
        BuildCircuit.store_subcomponent_signals .Unknown sidx size src signals comp =
          some (sigs2, comp2, ran) → ran = false)) := by
  refine ⟨?_, ?_, ?_, ?_⟩
  · intro status sidx size src signals comp sigs2 comp2 ran h
    rw [BuildCircuit.store_subcomponent_signals] at h
    split at h
    · cases h
    · cases hws : BuildCircuit.writeSignals signals sidx (src.take size) with
      | none => rw [hws] at h; cases h
      | some s2 =>
          rw [hws] at h
          cases status with
          | Last =>
              simp only at h
              split at h
              · rename_i hcond
                simp only [Option.some_inj, Prod.mk.injEq] at h
                obtain ⟨h1, h2, h3⟩ := h
                subst h2
                refine ⟨rfl, fun _ => ⟨hcond, h3.symm⟩, ?_, ?_⟩ <;>
                  exact fun hc => absurd hc (by decide)
              · cases h
          | NoLast =>
              simp only at h
              split at h
              · rename_i hcond
                simp only [Option.some_inj, Prod.mk.injEq] at h
                obtain ⟨h1, h2, h3⟩ := h
                subst h2
                refine ⟨rfl, ?_, fun _ => ⟨hcond, h3.symm⟩, ?_⟩ <;>
                  exact fun hc => absurd hc (by decide)
              · cases h
          | Unknown =>
              simp only [Option.some_inj, Prod.mk.injEq] at h
              obtain ⟨h1, h2, h3⟩ := h
              subst h2
              refine ⟨rfl, fun hc => absurd hc (by decide),
                fun hc => absurd hc (by decide), fun _ => ?_⟩
              rw [← h3]
              exact beq_iff_eq
  · intro sidx size src signals comp hne
    rw [BuildCircuit.store_subcomponent_signals]
    split
    · rfl
    · cases hws : BuildCircuit.writeSignals signals sidx (src.take size) with
      | none => rfl
      | some s2 => exact if_neg hne
  · intro sidx size src signals comp hz
    rw [BuildCircuit.store_subcomponent_signals]
    split
    · rfl
    · cases hws : BuildCircuit.writeSignals signals sidx (src.take size) with
      | none => rfl
      | some s2 => exact if_neg (by omega)
  · intro sidx size src signals comp hlt hsz
    have hpos := usizeSub_pos_of_lt comp.number_of_inputs size hlt hsz
    constructor
    · rw [BuildCircuit.store_subcomponent_signals]
      split
      · rfl
      · cases hws : BuildCircuit.writeSignals signals sidx (src.take size) with
        | none => rfl
        | some s2 => exact if_neg (by omega)
    · intro sigs2 comp2 ran h
      rw [BuildCircuit.store_subcomponent_signals] at h
      split at h
      · cases h
      · cases hws : BuildCircuit.writeSignals signals sidx (src.take size) with
        | none => rw [hws] at h; cases h
        | some s2 =>
            rw [hws] at h
            simp only [Option.some_inj, Prod.mk.injEq] at h
            obtain ⟨h1, h2, h3⟩ := h
            rw [← h3]
            exact beq_eq_false_iff_ne.mpr (by omega)

/-- C5 witness: a Last store of the final input of a one-input component
fires it; a NoLast store of the same input is an assertion failure; a Last
store into a component with no remaining inputs (wrapping the counter) is
an assertion failure too. -/
theorem c5_subcomponent_firing_witness :
    (BuildCircuit.ComponentInstance.mk 7 0 0).number_of_inputs =
      BuildCircuit.usizeSub (BuildCircuit.ComponentInstance.mk 7 0 1).number_of_inputs 1 ∧
    ((BuildCircuit.StatusInput.Last = BuildCircuit.StatusInput.Last →
      (BuildCircuit.ComponentInstance.mk 7 0 0).number_of_inputs = 0 ∧ true = true)) ∧
    BuildCircuit.store_subcomponent_signals .NoLast 0 1 [5] [none]
      (BuildCircuit.ComponentInstance.mk 7 0 1) = none ∧
    BuildCircuit.store_subcomponent_signals .Last 0 1 [5] [none]
      (BuildCircuit.ComponentInstance.mk 7 0 0) = none := by
  have h := (c5_subcomponent_firing.1 .Last 0 1 [5] [none]
    (BuildCircuit.ComponentInstance.mk 7 0 1) [some 5]
    (BuildCircuit.ComponentInstance.mk 7 0 0) true (by rfl))
  exact ⟨h.1, h.2.1, c5_subcomponent_firing.2.2.1 0 1 [5] [none]
    (BuildCircuit.ComponentInstance.mk 7 0 1) (by decide),
    (c5_subcomponent_firing.2.2.2 0 1 [5] [none]
      (BuildCircuit.ComponentInstance.mk 7 0 0) (by decide) (by decide)).1⟩

/-! ### Populating the input buffer (claim C7) -/

/-- setAt writes the values contiguously at the offset, preserving length
and everything outside the written window. -/
theorem setAt_spec : ∀ (vals buf : List Nat) (off : Nat),
    off + vals.length ≤ buf.length →
    ∃ buf2, Lib.setAt buf off vals = some buf2 ∧ buf2.length = buf.length ∧
      (∀ j, j < vals.length → buf2.get? (off + j) = vals.get? j) ∧
      (∀ j, j < off ∨ off + vals.length ≤ j → buf2.get? j = buf.get? j) := by
  intro vals
  induction vals with
  | nil =>
      intro buf off _
      exact ⟨buf, rfl, rfl, fun j hj => by simp at hj, fun j _ => rfl⟩
  | cons v rest ih =>
      intro buf off hlen
      have hoff : off < buf.length := by
        simp only [List.length_cons] at hlen
        omega
      have hlen2 : (off + 1) + rest.length ≤ (buf.set off v).length := by
        rw [List.length_set]
        simp only [List.length_cons] at hlen
        omega
      obtain ⟨buf2, hset, hblen, hin, hout⟩ := ih (buf.set off v) (off + 1) hlen2
      refine ⟨buf2, ?_, by rw [hblen, List.length_set], ?_, ?_⟩
      · show Lib.setAt buf off (v :: rest) = some buf2
        rw [Lib.setAt, if_pos hoff]
        exact hset
      · intro j hj
        match j with
        | 0 =>
            rw [Nat.add_zero]
            have h1 : buf2.get? off = (buf.set off v).get? off :=
              hout off (Or.inl (by omega))
            rw [h1, List.get?_set_eq_of_lt v hoff]
            rfl
        | j + 1 =>
            have h1 : off + (j + 1) = (off + 1) + j := by omega
            rw [h1, hin j (by simpa using hj)]
            rfl
      · intro j hj
        simp only [List.length_cons] at hj
        have h1 : buf2.get? j = (buf.set off v).get? j := by
          apply hout
          omega
        rw [h1, List.get?_eq_getElem?, List.getElem?_set_ne (show off ≠ j by omega),
          ← List.get?_eq_getElem?]

/-- Two provided input entries whose declared buffer regions (as resolved
through the input directory) do not overlap. -/
def Lib.regionsDisjoint (info : List (String × Nat × Nat))
    (e1 e2 : String × List Nat) : Prop :=
  ∀ off1 off2, Lib.lookupInfo info e1.1 = some (off1, e1.2.length) →
    Lib.lookupInfo info e2.1 = some (off2, e2.2.length) →
    off1 + e1.2.length ≤ off2 ∨ off2 + e2.2.length ≤ off1

/-- populate_inputs on an arbitrary provided map: when every provided name
resolves in the directory with the matching length, every write fits the
buffer and the resolved regions are pairwise disjoint, the whole copy
succeeds, preserves the buffer length, places every provided vector at its
declared offset, and leaves all other positions unchanged. -/
theorem populate_inputs_spec :
    ∀ (entries : List (String × List Nat)) (info : List (String × Nat × Nat))
      (buf : List Nat),
    (∀ e ∈ entries, ∃ off, Lib.lookupInfo info e.1 = some (off, e.2.length) ∧
      off + e.2.length ≤ buf.length) →
    List.Pairwise (Lib.regionsDisjoint info) entries →
    ∃ buf2, Lib.populate_inputs entries info buf = some buf2 ∧
      buf2.length = buf.length ∧
      (∀ e ∈ entries, ∀ off, Lib.lookupInfo info e.1 = some (off, e.2.length) →
        ∀ j, j < e.2.length → buf2.get? (off + j) = e.2.get? j) ∧
      (∀ p, (∀ e ∈ entries, ∀ off, Lib.lookupInfo info e.1 = some (off, e.2.length) →
        p < off ∨ off + e.2.length ≤ p) → buf2.get? p = buf.get? p) := by
  intro entries
  induction entries with
  | nil =>
      intro info buf _ _
      exact ⟨buf, rfl, rfl, fun e he => absurd he (List.not_mem_nil e), fun p _ => rfl⟩
  | cons e rest ih =>
      intro info buf hfind hdisj
      obtain ⟨k, vals⟩ := e
      obtain ⟨off, hlook, hfit⟩ := hfind (k, vals) (List.mem_cons_self _ _)
      obtain ⟨buf1, hset, hlen1, hin1, hout1⟩ := setAt_spec vals buf off hfit
      obtain ⟨hd1, hd2⟩ := List.pairwise_cons.mp hdisj
      have hfind2 : ∀ e2 ∈ rest, ∃ off2,
          Lib.lookupInfo info e2.1 = some (off2, e2.2.length) ∧
          off2 + e2.2.length ≤ buf1.length := by
        intro e2 he2
        obtain ⟨off2, h1, h2⟩ := hfind e2 (List.mem_cons_of_mem _ he2)
        exact ⟨off2, h1, by rw [hlen1]; exact h2⟩
      obtain ⟨buf2, hpop, hlen2, hin2, hout2⟩ := ih info buf1 hfind2 hd2
      refine ⟨buf2, ?_, hlen2.trans hlen1, ?_, ?_⟩
      · rw [Lib.populate_inputs, hlook]
        simp only
        rw [if_neg (by omega), hset]
        exact hpop
      · intro e2 he2 off2 hlook2 j hj
        rcases List.mem_cons.mp he2 with heq | hmem
        · subst heq
          have hoff : off2 = off := by
            rw [hlook2] at hlook
            have h5 := Option.some_inj.mp hlook
            exact (congrArg Prod.fst h5 : off2 = off)
          subst hoff
          have huntouched : buf2.get? (off2 + j) = buf1.get? (off2 + j) := by
            apply hout2
            intro e3 he3 off3 hlook3
            rcases hd1 e3 he3 off2 off3 hlook2 hlook3 with hcase | hcase
            · left
              omega
            · right
              omega
          rw [huntouched]
          exact hin1 j hj
        · exact hin2 e2 hmem off2 hlook2 j hj
      · intro p hp
        have h2 : buf2.get? p = buf1.get? p :=
          hout2 p (fun e3 he3 off3 hl3 => hp e3 (List.mem_cons_of_mem _ he3) off3 hl3)
        have h1 : buf1.get? p = buf.get? p :=
          hout1 p (hp (k, vals) (List.mem_cons_self _ _) off hlook)
        rw [h2, h1]

/-- C7 counterexample: with the declared directory holding input a of
length 1 and an empty provided map, populate_inputs succeeds (leaving the
buffer zero), whereas the claim requires a failure when a declared name is
absent from the provided map. -/
theorem c7_counterexample :
    Lib.populate_inputs [] [("a", 1, 1)] [0, 0] = some [0, 0] ∧
    Lib.lookupInfo [("a", 1, 1)] "a" = some (1, 1) :=
  ⟨rfl, rfl⟩

/-- C7 amended: populate_inputs iterates over the provided inputs only: it
fails (panics) when a provided name is absent from the declared directory
or its vector length disagrees with the declared length, and otherwise,
for an arbitrary provided map whose declared regions fit the buffer and
are pairwise disjoint, copies each provided vector at its declared offset
and leaves every other position unchanged; a declared input name absent
from the provided map is never visited, so its buffer slots are simply
left untouched (zero). -/
theorem c7_populate_semantics :
    (∀ k vals rest info buf off len,
      Lib.lookupInfo info k = some (off, len) → len ≠ vals.length →
      Lib.populate_inputs ((k, vals) :: rest) info buf = none) ∧
    (∀ k vals rest info buf,
      Lib.lookupInfo info k = none →
      Lib.populate_inputs ((k, vals) :: rest) info buf = none) ∧
    (∀ info buf, Lib.populate_inputs [] info buf = some buf) ∧
    (∀ entries info buf,
      (∀ e ∈ entries, ∃ off, Lib.lookupInfo info e.1 = some (off, e.2.length) ∧
        off + e.2.length ≤ buf.length) →
      List.Pairwise (Lib.regionsDisjoint info) entries →
      ∃ buf2, Lib.populate_inputs entries info buf = some buf2 ∧
        buf2.length = buf.length ∧
        (∀ e ∈ entries, ∀ off, Lib.lookupInfo info e.1 = some (off, e.2.length) →
          ∀ j, j < e.2.length → buf2.get? (off + j) = e.2.get? j) ∧
        (∀ p, (∀ e ∈ entries, ∀ off, Lib.lookupInfo info e.1 = some (off, e.2.length) →
          p < off ∨ off + e.2.length ≤ p) → buf2.get? p = buf.get? p)) := by
  refine ⟨?_, ?_, fun info buf => rfl, populate_inputs_spec⟩
  · intro k vals rest info buf off len hlook hne
    rw [Lib.populate_inputs, hlook]
    simp only
    rw [if_pos hne]
  · intro k vals rest info buf hlook
    rw [Lib.populate_inputs, hlook]

/-- C7 witness: copying a two-entry provided map with disjoint declared
regions. -/
theorem c7_populate_semantics_witness :
    ∃ buf2, Lib.populate_inputs [("x", [9]), ("y", [7, 8])]
        [("x", 1, 1), ("y", 2, 2)] [1, 0, 0, 0] = some buf2 ∧
      buf2.length = 4 ∧
      (∀ e ∈ [("x", [9]), ("y", [7, 8])], ∀ off,
        Lib.lookupInfo [("x", 1, 1), ("y", 2, 2)] e.1 = some (off, e.2.length) →
        ∀ j, j < e.2.length → buf2.get? (off + j) = e.2.get? j) := by
  have h := c7_populate_semantics.2.2.2 [("x", [9]), ("y", [7, 8])]
    [("x", 1, 1), ("y", 2, 2)] [1, 0, 0, 0]
    (by
      intro e he
      rcases List.mem_cons.mp he with heq | hmem
      · subst heq
        exact ⟨1, rfl, by norm_num⟩
      · rw [List.mem_singleton] at hmem
        subst hmem
        exact ⟨2, rfl, by norm_num⟩)
    (by
      refine List.Pairwise.cons ?_ (List.Pairwise.cons ?_ List.Pairwise.nil)
      · intro e2 he2
        rw [List.mem_singleton] at he2
        subst he2
        intro off1 off2 ha hb
        have ha2 : (some ((1 : Nat), (1 : Nat)) : Option (Nat × Nat)) = some (off1, 1) := ha
        have hb2 : (some ((2 : Nat), (2 : Nat)) : Option (Nat × Nat)) = some (off2, 2) := hb
        injection ha2 with hap
        injection hb2 with hbp
        injection hap with ha1 _
        injection hbp with hb1 _
        subst ha1
        subst hb1
        exact Or.inl (by decide)
      · intro e2 he2
        exact absurd he2 (List.not_mem_nil e2))
  obtain ⟨buf2, h1, h2, h3, h4⟩ := h
  exact ⟨buf2, h1, h2.trans rfl, h3⟩

/-! ### Parsing the input JSON (claim C6) -/

/-- C6 counterexample: malformed JSON makes deserialize_inputs panic (the
serde_json result is unwrapped), not return a ParseInput error; and a
decimal string equal to the BN254 modulus — not below it — is accepted
(parsed mod nothing: any value below 2^256 passes). -/
theorem c6_counterexample :
    Lib.deserialize_inputs none = none ∧
    Lib.deserialize_inputs (some (.obj [("a",
      .str "21888242871839275222246405745257275088548364400416034343698204186575808495617")])) =
      some (.ok [("a", [M])]) := by
  exact ⟨rfl, rfl⟩

/-- C6 amended: deserialize_inputs panics on malformed JSON (the source
unwraps the serde_json result) instead of returning an error; it returns an
InputsUnmarshal-class error value for every non-object top level (null,
booleans, numbers, strings, arrays), for entries of the wrong scalar shape
(null, booleans, nested objects; inside arrays also nested arrays and
objects) and for numbers that are not u64 (negative or fractional); array
entries parse elementwise, propagating the first element error and
succeeding on conforming arrays; decimal strings are parsed with a 2^256
overflow check only — values at or above the field modulus are accepted;
conforming entries succeed. -/
theorem c6_inputs_semantics :
    (Lib.deserialize_inputs none = none) ∧
    (∀ b, ∃ e, Lib.deserialize_inputs (some (.bool b)) = some (.error e)) ∧
    (∀ k rest, ∃ e, Lib.deserializeEntries ((k, .null) :: rest) = .error e) ∧
    (∀ k rest b, ∃ e, Lib.deserializeEntries ((k, .bool b) :: rest) = .error e) ∧
    (∀ k rest, ∃ e, Lib.deserializeEntries ((k, .num .nonU64) :: rest) = .error e) ∧
    (∀ k rest n, Lib.deserializeEntries ((k, .num (.uInt n)) :: rest) =
      (Lib.deserializeEntries rest).map (fun l => (k, [n]) :: l)) ∧
    (∀ k rest s n, Lib.parseU256 s = some n →
      Lib.deserializeEntries ((k, .str s) :: rest) =
        (Lib.deserializeEntries rest).map (fun l => (k, [n]) :: l)) ∧
    (∀ k rest s, Lib.parseU256 s = none →
      ∃ e, Lib.deserializeEntries ((k, .str s) :: rest) = .error e) ∧
    (∀ k rest entries, ∃ e,
      Lib.deserializeEntries ((k, .obj entries) :: rest) = .error e) ∧
    (∀ k rest ss vals, Lib.parseArrayScalars ss = .ok vals →
      Lib.deserializeEntries ((k, .arr ss) :: rest) =
        (Lib.deserializeEntries rest).map (fun l => (k, vals) :: l)) ∧
    (∀ k rest ss e, Lib.parseArrayScalars ss = .error e →
      Lib.deserializeEntries ((k, .arr ss) :: rest) = .error e) ∧
    (Lib.parseArrayScalars [] = .ok []) ∧
    (∀ v ss, Lib.parseArrayScalars (v :: ss) =
      (Lib.parseArrayScalar v).bind (fun i =>
        (Lib.parseArrayScalars ss).bind (fun is => .ok (i :: is)))) ∧
    (∀ s n, Lib.parseU256 s = some n → Lib.parseArrayScalar (.str s) = .ok n) ∧
    (∀ s, Lib.parseU256 s = none →
      Lib.parseArrayScalar (.str s) = .error .InputFieldNumberParseError) ∧
    (∀ n, Lib.parseArrayScalar (.num (.uInt n)) = .ok n) ∧
    (∃ e, Lib.parseArrayScalar (.num .nonU64) = .error e) ∧
    (∃ e, Lib.parseArrayScalar .null = .error e) ∧
    (∀ b, ∃ e, Lib.parseArrayScalar (.bool b) = .error e) ∧
    (∀ xs, ∃ e, Lib.parseArrayScalar (.arr xs) = .error e) ∧
    (∀ entries, ∃ e, Lib.parseArrayScalar (.obj entries) = .error e) ∧
    (∃ e, Lib.deserialize_inputs (some .null) = some (.error e)) ∧
    (∀ n, ∃ e, Lib.deserialize_inputs (some (.num n)) = some (.error e)) ∧
    (∀ s, ∃ e, Lib.deserialize_inputs (some (.str s)) = some (.error e)) ∧
    (∀ xs, ∃ e, Lib.deserialize_inputs (some (.arr xs)) = some (.error e)) ∧
    (∀ entries, Lib.deserialize_inputs (some (.obj entries)) =
      some (Lib.deserializeEntries entries)) := by
  refine ⟨rfl, fun b => ⟨_, rfl⟩, fun k rest => ⟨_, rfl⟩, fun k rest b => ⟨_, rfl⟩,
    fun k rest => ⟨_, rfl⟩, ?_, ?_, ?_,
    fun k rest entries => ⟨_, rfl⟩, ?_, ?_, rfl, fun v ss => rfl, ?_, ?_,
    fun n => rfl, ⟨_, rfl⟩, ⟨_, rfl⟩, fun b => ⟨_, rfl⟩, fun xs => ⟨_, rfl⟩,
    fun entries => ⟨_, rfl⟩, ⟨_, rfl⟩, fun n => ⟨_, rfl⟩, fun s => ⟨_, rfl⟩,
    fun xs => ⟨_, rfl⟩, fun entries => rfl⟩
  · intro k rest n
    cases hrest : Lib.deserializeEntries rest <;>
      simp only [Lib.deserializeEntries, hrest] <;> rfl
  · intro k rest s n hs
    cases hrest : Lib.deserializeEntries rest <;>
      simp only [Lib.deserializeEntries, hs, hrest] <;> rfl
  · intro k rest s hs
    refine ⟨Lib.Error.InputFieldNumberParseError, ?_⟩
    simp only [Lib.deserializeEntries, hs]
    rfl
  · intro k rest ss vals hss
    cases hrest : Lib.deserializeEntries rest <;>
      simp only [Lib.deserializeEntries, hss, hrest] <;> rfl
  · intro k rest ss e hss
    simp only [Lib.deserializeEntries, hss]
    rfl
  · intro s n hs
    simp only [Lib.parseArrayScalar, hs]
  · intro s hs
    simp only [Lib.parseArrayScalar, hs]

/-- C6 witness: the amended theorem applied to concrete inputs, including
a conforming array entry and an array holding a nested array. -/
theorem c6_inputs_semantics_witness :
    Lib.deserializeEntries [("k", .str "12")] =
      (Lib.deserializeEntries []).map (fun l => (("k", [12]) :: l)) ∧
    (∃ e, Lib.deserializeEntries [("k", .str "zz")] = .error e) ∧
    Lib.deserializeEntries [("k", .arr [.str "3", .num (.uInt 4)])] =
      (Lib.deserializeEntries []).map (fun l => (("k", [3, 4]) :: l)) ∧
    Lib.deserializeEntries [("k", .arr [.arr []])] =
      .error (.InputsUnmarshal "inputs must be a string") := by
  exact ⟨c6_inputs_semantics.2.2.2.2.2.2.1 "k" [] "12" 12 (by decide),
    c6_inputs_semantics.2.2.2.2.2.2.2.1 "k" [] "zz" (by decide),
    c6_inputs_semantics.2.2.2.2.2.2.2.2.2.1 "k" [] [.str "3", .num (.uInt 4)] [3, 4]
      (by rfl),
    c6_inputs_semantics.2.2.2.2.2.2.2.2.2.2.1 "k" [] [.arr []]
      (.InputsUnmarshal "inputs must be a string") (by rfl)⟩

/-- C4 witness: montgomery_form on a one-Constant graph rewrites it to the
Montgomery-form MontConstant, and fails on a graph holding an Lt operator. -/
theorem c4_montgomery_form_witness :
    Graph.montgomery_form [Graph.Node.Op .Lt 0 0] = none ∧
    [Graph.Node.MontConstant (2 * Rmont % M)].get? 0 =
      some (.MontConstant (2 * Rmont % M)) := by
  refine ⟨c4_montgomery_form.2.1 [Graph.Node.Op .Lt 0 0] .Lt 0 0 (by simp) (by decide), ?_⟩
  exact (c4_montgomery_form.1 [Graph.Node.Constant 2]
    [Graph.Node.MontConstant (2 * Rmont % M)] rfl).2.1 0 2 rfl

/-! ### The back-reference invariant (claim C2): validity infrastructure -/

theorem assert_validAux_iff : ∀ (ns : List Graph.Node) (k : Nat),
    Graph.assert_validAux ns k = true ↔
      ∀ i n, ns.get? i = some n → Graph.nodeRefsLt n (k + i) = true := by
  intro ns
  induction ns with
  | nil =>
      intro k
      simp [Graph.assert_validAux]
  | cons n rest ih =>
      intro k
      rw [Graph.assert_validAux, Bool.and_eq_true, ih (k + 1)]
      constructor
      · rintro ⟨h1, h2⟩ i m hm
        match i with
        | 0 =>
            rw [List.get?_cons_zero, Option.some_inj] at hm
            rw [Nat.add_zero, ← hm]
            exact h1
        | i + 1 =>
            rw [List.get?_cons_succ] at hm
            have h3 := h2 i m hm
            rwa [show k + 1 + i = k + (i + 1) by omega] at h3
      · intro h
        refine ⟨?_, ?_⟩
        · have h0 := h 0 n List.get?_cons_zero
          rwa [Nat.add_zero] at h0
        · intro i m hm
          have h3 := h (i + 1) m (by rwa [List.get?_cons_succ])
          rwa [show k + (i + 1) = k + 1 + i by omega] at h3

theorem assert_valid_iff (ns : List Graph.Node) :
    Graph.assert_valid ns = true ↔
      ∀ i n, ns.get? i = some n → Graph.nodeRefsLt n i = true := by
  rw [Graph.assert_valid, assert_validAux_iff]
  simp

/-- Appending a node whose references lie below the current length keeps
the array valid. -/
theorem assert_valid_snoc {ns : List Graph.Node} {m : Graph.Node}
    (h : Graph.assert_valid ns = true) (hm : Graph.nodeRefsLt m ns.length = true) :
    Graph.assert_valid (ns ++ [m]) = true := by
  rw [assert_valid_iff] at h ⊢
  intro i n hn
  by_cases hi : i < ns.length
  · rw [List.get?_append hi] at hn
    exact h i n hn
  · have hlen : i < (ns ++ [m]).length := (List.get?_eq_some.mp hn).1
    rw [List.length_append, List.length_singleton] at hlen
    have hieq : i = ns.length := by omega
    subst hieq
    have : (ns ++ [m]).get? ns.length = some m := by
      rw [List.get?_append_right (le_refl _)]
      simp
    rw [this, Option.some_inj] at hn
    rw [← hn]
    exact hm

/-- A propagateStep output is the untouched input node or a Constant. -/
theorem propagateStep_shape (acc : List Graph.Node) (n m : Graph.Node)
    (h : Graph.propagateStep acc n = some m) : m = n ∨ ∃ c, m = .Constant c := by
  cases n with
  | Op op a b =>
      dsimp only [Graph.propagateStep] at h
      split at h
      · right
        obtain ⟨c, _, hc⟩ := Option.map_eq_some'.mp h
        exact ⟨c, hc.symm⟩
      · split at h
        · split at h <;>
            first
              | (right; exact ⟨_, (Option.some_inj.mp h).symm⟩)
              | (left; exact (Option.some_inj.mp h).symm)
        · left; exact (Option.some_inj.mp h).symm
  | UnoOp op a =>
      dsimp only [Graph.propagateStep] at h
      split at h
      · right
        obtain ⟨c, _, hc⟩ := Option.map_eq_some'.mp h
        exact ⟨c, hc.symm⟩
      · left; exact (Option.some_inj.mp h).symm
  | TresOp op a b c =>
      dsimp only [Graph.propagateStep] at h
      split at h
      · right
        obtain ⟨d, _, hd⟩ := Option.map_eq_some'.mp h
        exact ⟨d, hd.symm⟩
      · left; exact (Option.some_inj.mp h).symm
  | Input i => left; exact (Option.some_inj.mp h).symm
  | Constant c => left; exact (Option.some_inj.mp h).symm
  | MontConstant c => left; exact (Option.some_inj.mp h).symm

theorem propagateGo_valid : ∀ (rest acc ns2 : List Graph.Node),
    Graph.assert_valid acc = true →
    (∀ j n, rest.get? j = some n → Graph.nodeRefsLt n (acc.length + j) = true) →
    Graph.propagateGo acc rest = some ns2 → Graph.assert_valid ns2 = true := by
  intro rest
  induction rest with
  | nil =>
      intro acc ns2 hacc _ h
      rw [Graph.propagateGo] at h
      rw [← Option.some_inj.mp h]
      exact hacc
  | cons n rest2 ih =>
      intro acc ns2 hacc hrefs h
      rw [Graph.propagateGo] at h
      cases hstep : Graph.propagateStep acc n with
      | none => rw [hstep] at h; cases h
      | some m =>
          rw [hstep] at h
          apply ih (acc ++ [m]) ns2 _ _ h
          · apply assert_valid_snoc hacc
            rcases propagateStep_shape acc n m hstep with hm | ⟨c, hm⟩
            · subst hm
              have h0 := hrefs 0 m List.get?_cons_zero
              rwa [Nat.add_zero] at h0
            · subst hm
              rfl
          · intro j n2 hn2
            have h3 := hrefs (j + 1) n2 (by rwa [List.get?_cons_succ])
            rwa [List.length_append, List.length_singleton,
              show acc.length + 1 + j = acc.length + (j + 1) by omega]

/-- propagate preserves validity. -/
theorem propagate_valid (ns ns2 : List Graph.Node)
    (h : Graph.propagate ns = some ns2) : Graph.assert_valid ns2 = true := by
  rw [Graph.propagate] at h
  split at h
  · rename_i hv
    apply propagateGo_valid ns [] ns2 rfl _ h
    intro j n hn
    rw [List.length_nil, Nat.zero_add]
    exact (assert_valid_iff ns).mp hv j n hn
  · cases h

/-- constants preserves validity: each node is either kept or becomes a
Constant. -/
theorem constants_valid (ns : List Graph.Node) (va vb : List Nat)
    (ns2 : List Graph.Node) (h : Graph.constants ns va vb = some ns2) :
    Graph.assert_valid ns2 = true := by
  rw [Graph.constants] at h
  split at h
  · cases h
  · split at h
    · cases h
    · rename_i hnv _
      have hv : Graph.assert_valid ns = true := by
        cases hval : Graph.assert_valid ns with
        | false => exact absurd hval hnv
        | true => rfl
      obtain rfl := (Option.some_inj.mp h).symm
      rw [assert_valid_iff]
      intro i y hy
      rw [List.get?_map] at hy
      obtain ⟨p, hp, hfy⟩ := Option.map_eq_some'.mp hy
      obtain ⟨hp1, _⟩ := (List.get?_zip_eq_some _ _ _ _).mp hp
      cases hn : p.1 with
      | Constant c =>
          rw [hn] at hfy
          simp only at hfy
          rw [← hfy]
          rfl
      | Input j =>
          rw [hn] at hfy
          simp only at hfy
          split at hfy <;> rw [← hfy] <;> rfl
      | MontConstant c =>
          rw [hn] at hfy
          simp only at hfy
          split at hfy <;> rw [← hfy] <;> rfl
      | Op op a b =>
          rw [hn] at hfy
          simp only at hfy
          split at hfy
          · rw [← hfy]; rfl
          · rw [← hfy]
            rw [hn] at hp1
            exact (assert_valid_iff ns).mp hv i _ hp1
      | UnoOp op a =>
          rw [hn] at hfy
          simp only at hfy
          split at hfy
          · rw [← hfy]; rfl
          · rw [← hfy]
            rw [hn] at hp1
            exact (assert_valid_iff ns).mp hv i _ hp1
      | TresOp op a b c =>
          rw [hn] at hfy
          simp only at hfy
          split at hfy
          · rw [← hfy]; rfl
          · rw [← hfy]
            rw [hn] at hp1
            exact (assert_valid_iff ns).mp hv i _ hp1

/-- idxOfFirst finds an index no larger than any index holding the value. -/
theorem idxOfFirst_le : ∀ (l : List Nat) (a : Nat) (v : Nat),
    l.get? a = some v → ∃ j, Graph.idxOfFirst l v = some j ∧ j ≤ a := by
  intro l
  induction l with
  | nil => intro a v h; simp at h
  | cons x xs ih =>
      intro a v h
      by_cases hx : x = v
      · exact ⟨0, by rw [Graph.idxOfFirst, if_pos hx], Nat.zero_le a⟩
      · match a with
        | 0 =>
            rw [List.get?_cons_zero, Option.some_inj] at h
            exact absurd h hx
        | a + 1 =>
            rw [List.get?_cons_succ] at h
            obtain ⟨j, hj, hle⟩ := ih a v h
            refine ⟨j + 1, ?_, by omega⟩
            rw [Graph.idxOfFirst, if_neg hx, hj]
            rfl

/-- renumValue maps an index to one at most as large. -/
theorem renumValue_le (values : List Nat) (a j : Nat)
    (h : Graph.renumValue values a = some j) : j ≤ a := by
  rw [Graph.renumValue] at h
  cases hv : values.get? a with
  | none => rw [hv] at h; cases h
  | some v =>
      rw [hv] at h
      dsimp only at h
      obtain ⟨j2, hj2, hle⟩ := idxOfFirst_le values a v hv
      rw [hj2, Option.some_inj] at h
      omega

/-- value_numbering preserves validity: every rewritten reference points to
the first index with the same value, which is never larger. -/
theorem value_numbering_valid (ns : List Graph.Node) (outs values : List Nat)
    (ns2 : List Graph.Node) (outs2 : List Nat)
    (h : Graph.value_numbering ns outs values = some (ns2, outs2)) :
    Graph.assert_valid ns2 = true := by
  rw [Graph.value_numbering] at h
  split at h
  · cases h
  · split at h
    · cases h
    · rename_i hnv _
      have hv : Graph.assert_valid ns = true := by
        cases hval : Graph.assert_valid ns with
        | false => exact absurd hval hnv
        | true => rfl
      cases hm : ns.mapM (Graph.vnNode values) with
      | none => rw [hm] at h; cases h
      | some l =>
          rw [hm] at h
          cases ho : outs.mapM (Graph.renumValue values) with
          | none => rw [ho] at h; cases h
          | some l2 =>
              rw [ho] at h
              simp only [Option.some_inj, Prod.mk.injEq] at h
              obtain ⟨rfl, _⟩ := h
              rw [assert_valid_iff]
              intro i y hy
              obtain ⟨x, hx, hfx⟩ := mapM_opt_back _ ns l hm i y hy
              have hxv := (assert_valid_iff ns).mp hv i x hx
              cases x with
              | Op op a b =>
                  cases ha : Graph.renumValue values a with
                  | none => simp [Graph.vnNode, ha] at hfx
                  | some a2 =>
                      cases hb : Graph.renumValue values b with
                      | none => simp [Graph.vnNode, ha, hb] at hfx
                      | some b2 =>
                          simp only [Graph.vnNode, ha, hb, Option.bind_eq_bind,
                            Option.some_bind, Option.some_inj] at hfx
                          rw [← hfx]
                          have h1 := renumValue_le values a a2 ha
                          have h2 := renumValue_le values b b2 hb
                          simp only [Graph.nodeRefsLt, Bool.and_eq_true, decide_eq_true_eq] at hxv ⊢
                          omega
              | UnoOp op a =>
                  cases ha : Graph.renumValue values a with
                  | none => simp [Graph.vnNode, ha] at hfx
                  | some a2 =>
                      simp only [Graph.vnNode, ha, Option.bind_eq_bind,
                        Option.some_bind, Option.some_inj] at hfx
                      rw [← hfx]
                      have h1 := renumValue_le values a a2 ha
                      simp only [Graph.nodeRefsLt, decide_eq_true_eq] at hxv ⊢
                      omega
              | TresOp op a b c =>
                  cases ha : Graph.renumValue values a with
                  | none => simp [Graph.vnNode, ha] at hfx
                  | some a2 =>
                      cases hb : Graph.renumValue values b with
                      | none => simp [Graph.vnNode, ha, hb] at hfx
                      | some b2 =>
                          cases hc : Graph.renumValue values c with
                          | none => simp [Graph.vnNode, ha, hb, hc] at hfx
                          | some c2 =>
                              simp only [Graph.vnNode, ha, hb, hc, Option.bind_eq_bind,
                                Option.some_bind, Option.some_inj] at hfx
                              rw [← hfx]
                              have h1 := renumValue_le values a a2 ha
                              have h2 := renumValue_le values b b2 hb
                              have h3 := renumValue_le values c c2 hc
                              simp only [Graph.nodeRefsLt, Bool.and_eq_true,
                                decide_eq_true_eq] at hxv ⊢
                              omega
              | Input j =>
                  have h2 : Graph.vnNode values (.Input j) = some (.Input j) := rfl
                  rw [h2, Option.some_inj] at hfx
                  rw [← hfx]; rfl
              | Constant c =>
                  have h2 : Graph.vnNode values (.Constant c) = some (.Constant c) := rfl
                  rw [h2, Option.some_inj] at hfx
                  rw [← hfx]; rfl
              | MontConstant c =>
                  have h2 : Graph.vnNode values (.MontConstant c) = some (.MontConstant c) := rfl
                  rw [h2, Option.some_inj] at hfx
                  rw [← hfx]; rfl

/-- montgomery_form preserves validity: references are untouched. -/
theorem montgomery_form_valid (ns ns2 : List Graph.Node)
    (hv : Graph.assert_valid ns = true) (h : Graph.montgomery_form ns = some ns2) :
    Graph.assert_valid ns2 = true := by
  rw [assert_valid_iff]
  intro i y hy
  obtain ⟨x, hx, hfx⟩ := mapM_opt_back _ ns ns2 h i y hy
  have hxv := (assert_valid_iff ns).mp hv i x hx
  cases x with
  | Input j => rw [← Option.some_inj.mp hfx]; rfl
  | Constant c => rw [← Option.some_inj.mp hfx]; rfl
  | MontConstant c => rw [← Option.some_inj.mp hfx]; rfl
  | Op op a b =>
      rw [Graph.montStep] at hfx
      split at hfx
      · rw [← Option.some_inj.mp hfx]
        exact hxv
      · cases hfx
  | UnoOp op a =>
      rw [Graph.montStep] at hfx
      split at hfx
      · rw [← Option.some_inj.mp hfx]
        exact hxv
      · cases hfx
  | TresOp op a b c =>
      rw [Graph.montStep] at hfx
      split at hfx
      · rw [← Option.some_inj.mp hfx]
        exact hxv
      · cases hfx


/-- Count of set flags (the running new-index counter of the tree_shake
renumber loop). -/
def tcount : List Bool → Nat
  | [] => 0
  | b :: r => (if b then 1 else 0) + tcount r

theorem tcount_append (l1 l2 : List Bool) :
    tcount (l1 ++ l2) = tcount l1 + tcount l2 := by
  induction l1 with
  | nil => simp [tcount]
  | cons b r ih =>
      show (if b then 1 else 0) + tcount (r ++ l2) =
        ((if b then 1 else 0) + tcount r) + tcount l2
      rw [ih]
      omega

theorem tcount_mono_take (l : List Bool) (m n : Nat) (h : m ≤ n) :
    tcount (l.take m) ≤ tcount (l.take n) := by
  have h2 : (l.take n).take m = l.take m := by
    rw [List.take_take, Nat.min_eq_left h]
  have h1 : l.take n = l.take m ++ (l.take n).drop m := by
    conv_lhs => rw [← List.take_append_drop m (l.take n)]
    rw [h2]
  rw [h1, tcount_append]
  omega

theorem tcount_strict (used : List Bool) (a i : Nat)
    (ha : used.get? a = some true) (hai : a < i) :
    tcount (used.take a) < tcount (used.take i) := by
  have h1 : used.take (a + 1) = used.take a ++ [true] := by
    rw [List.take_succ]
    rw [List.get?_eq_getElem?] at ha
    rw [ha]
    rfl
  have h2 : tcount (used.take (a + 1)) = tcount (used.take a) + 1 := by
    rw [h1, tcount_append]
    simp [tcount]
  have h3 := tcount_mono_take used (a + 1) i (by omega)
  omega

theorem buildRenumber_length : ∀ (used : List Bool) (c : Nat),
    (Graph.buildRenumber used c).length = used.length := by
  intro used
  induction used with
  | nil => intro c; rfl
  | cons b rest ih => intro c; simp [Graph.buildRenumber, ih]

theorem buildRenumber_get : ∀ (used : List Bool) (c i : Nat) (b : Bool),
    used.get? i = some b →
    (Graph.buildRenumber used c).get? i =
      some (if b then some (c + tcount (used.take i)) else none) := by
  intro used
  induction used with
  | nil => intro c i b h; simp at h
  | cons u rest ih =>
      intro c i b h
      match i with
      | 0 =>
          rw [List.get?_cons_zero, Option.some_inj] at h
          subst h
          cases u <;> simp [Graph.buildRenumber, tcount]
      | i + 1 =>
          rw [List.get?_cons_succ] at h
          show (Graph.buildRenumber rest (if u then c + 1 else c)).get? i = _
          rw [ih (if u then c + 1 else c) i b h]
          have harith : (if u then c + 1 else c) + tcount (rest.take i) =
              c + tcount ((u :: rest).take (i + 1)) := by
            show _ = c + tcount (u :: rest.take i)
            show _ = c + ((if u then 1 else 0) + tcount (rest.take i))
            cases u <;> simp <;> omega
          rw [harith]

theorem renLookup_some {used : List Bool} {a x : Nat}
    (h : Graph.renLookup (Graph.buildRenumber used 0) a = some x) :
    used.get? a = some true ∧ x = tcount (used.take a) := by
  rw [Graph.renLookup] at h
  cases hb : used.get? a with
  | none =>
      have hlen : used.length ≤ a := List.get?_eq_none.mp hb
      have h2 : (Graph.buildRenumber used 0).get? a = none :=
        List.get?_eq_none.mpr (by rw [buildRenumber_length]; exact hlen)
      rw [h2] at h
      cases h
  | some b =>
      rw [buildRenumber_get used 0 a b hb] at h
      cases b with
      | false => simp at h
      | true =>
          simp only [if_pos, Nat.zero_add] at h
          exact ⟨rfl, (Option.some_inj.mp h).symm⟩

theorem retainNodes_get : ∀ (ns : List Graph.Node) (used : List Bool) (k : Nat) (y : Graph.Node),
    (Graph.retainNodes ns used).get? k = some y →
    ∃ i, ns.get? i = some y ∧ used.get? i = some true ∧ tcount (used.take i) = k := by
  intro ns
  induction ns with
  | nil => intro used k y h; simp [Graph.retainNodes] at h
  | cons n rest ih =>
      intro used k y h
      match used with
      | [] => simp [Graph.retainNodes] at h
      | u :: us =>
          cases u with
          | true =>
              have hred : Graph.retainNodes (n :: rest) (true :: us) =
                  n :: Graph.retainNodes rest us := rfl
              rw [hred] at h
              match k with
              | 0 =>
                  rw [List.get?_cons_zero, Option.some_inj] at h
                  exact ⟨0, by rw [h]; rfl, rfl, rfl⟩
              | k + 1 =>
                  rw [List.get?_cons_succ] at h
                  obtain ⟨i, h1, h2, h3⟩ := ih us k y h
                  refine ⟨i + 1, by rwa [List.get?_cons_succ], by rwa [List.get?_cons_succ], ?_⟩
                  show (if true then 1 else 0) + tcount (us.take i) = k + 1
                  simp only [if_pos, h3]
                  omega
          | false =>
              have hred : Graph.retainNodes (n :: rest) (false :: us) =
                  Graph.retainNodes rest us := rfl
              rw [hred] at h
              obtain ⟨i, h1, h2, h3⟩ := ih us k y h
              refine ⟨i + 1, by rwa [List.get?_cons_succ], by rwa [List.get?_cons_succ], ?_⟩
              show (if false then 1 else 0) + tcount (us.take i) = k
              simp [h3]

/-- tree_shake preserves validity: a retained node at new index k
originates at an old index i of rank k; each of its renumbered references
is the rank of a used index below i, which is strictly below k. -/
theorem tree_shake_valid (ns : List Graph.Node) (outs : List Nat)
    (ns2 : List Graph.Node) (outs2 : List Nat)
    (h : Graph.tree_shake ns outs = some (ns2, outs2)) :
    Graph.assert_valid ns2 = true := by
  rw [Graph.tree_shake] at h
  split at h
  · cases h
  · split at h
    · cases h
    · rename_i hnv _
      have hv : Graph.assert_valid ns = true := by
        cases hval : Graph.assert_valid ns with
        | false => exact absurd hval hnv
        | true => rfl
      dsimp only at h
      set used0 := outs.foldl (fun u o => u.set o true) (List.replicate ns.length false) with hu0
      set used := Graph.markLoop ns used0 ns.length with hu
      set ren := Graph.buildRenumber used 0 with hr
      cases hm : (Graph.retainNodes ns used).mapM (Graph.renumberNode ren) with
      | none => rw [hm] at h; cases h
      | some l =>
          rw [hm] at h
          cases ho : outs.mapM (Graph.renLookup ren) with
          | none => rw [ho] at h; cases h
          | some l2 =>
              rw [ho] at h
              simp only [Option.some_inj, Prod.mk.injEq] at h
              obtain ⟨rfl, _⟩ := h
              rw [assert_valid_iff]
              intro k y2 hy2
              obtain ⟨y, hy, hfy⟩ := mapM_opt_back _ _ _ hm k y2 hy2
              obtain ⟨i, hni, husedi, hrank⟩ := retainNodes_get ns used k y hy
              have hyv := (assert_valid_iff ns).mp hv i y hni
              cases y with
              | Input j =>
                  have h2 : Graph.renumberNode ren (.Input j) = some (.Input j) := rfl
                  rw [h2, Option.some_inj] at hfy
                  rw [← hfy]; rfl
              | Constant c =>
                  have h2 : Graph.renumberNode ren (.Constant c) = some (.Constant c) := rfl
                  rw [h2, Option.some_inj] at hfy
                  rw [← hfy]; rfl
              | MontConstant c =>
                  have h2 : Graph.renumberNode ren (.MontConstant c) =
                      some (.MontConstant c) := rfl
                  rw [h2, Option.some_inj] at hfy
                  rw [← hfy]; rfl
              | Op op a b =>
                  cases ha : Graph.renLookup ren a with
                  | none => simp [Graph.renumberNode, ha] at hfy
                  | some a2 =>
                      cases hb : Graph.renLookup ren b with
                      | none => simp [Graph.renumberNode, ha, hb] at hfy
                      | some b2 =>
                          simp only [Graph.renumberNode, ha, hb, Option.bind_eq_bind,
                            Option.some_bind, Option.some_inj] at hfy
                          rw [hr] at ha hb
                          obtain ⟨husA, ha2⟩ := renLookup_some ha
                          obtain ⟨husB, hb2⟩ := renLookup_some hb
                          simp only [Graph.nodeRefsLt, Bool.and_eq_true,
                            decide_eq_true_eq] at hyv
                          have hlta := tcount_strict used a i husA hyv.1
                          have hltb := tcount_strict used b i husB hyv.2
                          rw [← hfy]
                          simp only [Graph.nodeRefsLt, Bool.and_eq_true, decide_eq_true_eq]
                          omega
              | UnoOp op a =>
                  cases ha : Graph.renLookup ren a with
                  | none => simp [Graph.renumberNode, ha] at hfy
                  | some a2 =>
                      simp only [Graph.renumberNode, ha, Option.bind_eq_bind,
                        Option.some_bind, Option.some_inj] at hfy
                      rw [hr] at ha
                      obtain ⟨husA, ha2⟩ := renLookup_some ha
                      simp only [Graph.nodeRefsLt, decide_eq_true_eq] at hyv
                      have hlta := tcount_strict used a i husA hyv
                      rw [← hfy]
                      simp only [Graph.nodeRefsLt, decide_eq_true_eq]
                      omega
              | TresOp op a b c =>
                  cases ha : Graph.renLookup ren a with
                  | none => simp [Graph.renumberNode, ha] at hfy
                  | some a2 =>
                      cases hb : Graph.renLookup ren b with
                      | none => simp [Graph.renumberNode, ha, hb] at hfy
                      | some b2 =>
                          cases hc : Graph.renLookup ren c with
                          | none => simp [Graph.renumberNode, ha, hb, hc] at hfy
                          | some c2 =>
                              simp only [Graph.renumberNode, ha, hb, hc, Option.bind_eq_bind,
                                Option.some_bind, Option.some_inj] at hfy
                              rw [hr] at ha hb hc
                              obtain ⟨husA, ha2⟩ := renLookup_some ha
                              obtain ⟨husB, hb2⟩ := renLookup_some hb
                              obtain ⟨husC, hc2⟩ := renLookup_some hc
                              simp only [Graph.nodeRefsLt, Bool.and_eq_true,
                                decide_eq_true_eq] at hyv
                              have hlta := tcount_strict used a i husA hyv.1.1
                              have hltb := tcount_strict used b i husB hyv.1.2
                              have hltc := tcount_strict used c i husC hyv.2
                              rw [← hfy]
                              simp only [Graph.nodeRefsLt, Bool.and_eq_true,
                                decide_eq_true_eq]
                              omega

/-! ### Builder invariant (claim C2): node emission discipline -/

theorem varOk_mono {l1 l2 : Nat} (h : l1 ≤ l2) :
    ∀ {v : BuildCircuit.Var}, BuildCircuit.varOk l1 v → BuildCircuit.varOk l2 v := by
  intro v hv
  cases v with
  | Value c => trivial
  | Node i => exact lt_of_lt_of_le hv h

theorem node_from_var_spec (nodes : List Graph.Node) (v : BuildCircuit.Var)
    (hval : Graph.assert_valid nodes = true)
    (hok : BuildCircuit.varOk nodes.length v) :
    Graph.assert_valid (BuildCircuit.node_from_var nodes v).1 = true ∧
    (BuildCircuit.node_from_var nodes v).2 < (BuildCircuit.node_from_var nodes v).1.length ∧
    nodes.length ≤ (BuildCircuit.node_from_var nodes v).1.length := by
  cases v with
  | Value c =>
      refine ⟨assert_valid_snoc hval rfl, ?_, ?_⟩ <;>
        simp [BuildCircuit.node_from_var]
  | Node i => exact ⟨hval, hok, le_refl _⟩

theorem pushOp2_spec (s : BuildCircuit.BState) (op : Graph.Operation)
    (va vb : BuildCircuit.Var)
    (hval : Graph.assert_valid s.nodes = true)
    (ha : BuildCircuit.varOk s.nodes.length va)
    (hb : BuildCircuit.varOk s.nodes.length vb) :
    Graph.assert_valid (BuildCircuit.pushOp2 s op va vb).1.nodes = true ∧
    (BuildCircuit.pushOp2 s op va vb).2 < (BuildCircuit.pushOp2 s op va vb).1.nodes.length ∧
    s.nodes.length ≤ (BuildCircuit.pushOp2 s op va vb).1.nodes.length ∧
    (BuildCircuit.pushOp2 s op va vb).1.signals = s.signals ∧
    (BuildCircuit.pushOp2 s op va vb).1.vars = s.vars := by
  obtain ⟨h1v, h1lt, h1le⟩ := node_from_var_spec s.nodes va hval ha
  obtain ⟨h2v, h2lt, h2le⟩ :=
    node_from_var_spec (BuildCircuit.node_from_var s.nodes va).1 vb h1v (varOk_mono h1le hb)
  refine ⟨?_, ?_, ?_, rfl, rfl⟩
  · apply assert_valid_snoc h2v
    simp only [Graph.nodeRefsLt, Bool.and_eq_true, decide_eq_true_eq]
    exact ⟨lt_of_lt_of_le h1lt h2le, h2lt⟩
  · simp [BuildCircuit.pushOp2]
  · show s.nodes.length ≤ (_ ++ [_]).length
    rw [List.length_append, List.length_singleton]
    omega

theorem pushOp1_spec (s : BuildCircuit.BState) (op : Graph.Operation)
    (va : BuildCircuit.Var)
    (hval : Graph.assert_valid s.nodes = true)
    (ha : BuildCircuit.varOk s.nodes.length va) :
    Graph.assert_valid (BuildCircuit.pushOp1 s op va).1.nodes = true ∧
    (BuildCircuit.pushOp1 s op va).2 < (BuildCircuit.pushOp1 s op va).1.nodes.length ∧
    s.nodes.length ≤ (BuildCircuit.pushOp1 s op va).1.nodes.length ∧
    (BuildCircuit.pushOp1 s op va).1.signals = s.signals ∧
    (BuildCircuit.pushOp1 s op va).1.vars = s.vars := by
  obtain ⟨h1v, h1lt, h1le⟩ := node_from_var_spec s.nodes va hval ha
  refine ⟨?_, ?_, ?_, rfl, rfl⟩
  · apply assert_valid_snoc h1v
    simp only [Graph.nodeRefsLt, decide_eq_true_eq]
    exact h1lt
  · simp [BuildCircuit.pushOp1]
  · show s.nodes.length ≤ (_ ++ [_]).length
    rw [List.length_append, List.length_singleton]
    omega

theorem pushOp3_spec (s : BuildCircuit.BState) (op : Graph.Operation)
    (va vb vc : BuildCircuit.Var)
    (hval : Graph.assert_valid s.nodes = true)
    (ha : BuildCircuit.varOk s.nodes.length va)
    (hb : BuildCircuit.varOk s.nodes.length vb)
    (hc : BuildCircuit.varOk s.nodes.length vc) :
    Graph.assert_valid (BuildCircuit.pushOp3 s op va vb vc).1.nodes = true ∧
    (BuildCircuit.pushOp3 s op va vb vc).2 <
      (BuildCircuit.pushOp3 s op va vb vc).1.nodes.length ∧
    s.nodes.length ≤ (BuildCircuit.pushOp3 s op va vb vc).1.nodes.length ∧
    (BuildCircuit.pushOp3 s op va vb vc).1.signals = s.signals ∧
    (BuildCircuit.pushOp3 s op va vb vc).1.vars = s.vars := by
  obtain ⟨h1v, h1lt, h1le⟩ := node_from_var_spec s.nodes va hval ha
  obtain ⟨h2v, h2lt, h2le⟩ :=
    node_from_var_spec (BuildCircuit.node_from_var s.nodes va).1 vb h1v (varOk_mono h1le hb)
  obtain ⟨h3v, h3lt, h3le⟩ :=
    node_from_var_spec (BuildCircuit.node_from_var
      (BuildCircuit.node_from_var s.nodes va).1 vb).1 vc h2v
      (varOk_mono (le_trans h1le h2le) hc)
  refine ⟨?_, ?_, ?_, rfl, rfl⟩
  · apply assert_valid_snoc h3v
    simp only [Graph.nodeRefsLt, Bool.and_eq_true, decide_eq_true_eq]
    exact ⟨⟨lt_of_lt_of_le h1lt (le_trans h2le h3le), lt_of_lt_of_le h2lt h3le⟩, h3lt⟩
  · simp [BuildCircuit.pushOp3]
  · show s.nodes.length ≤ (_ ++ [_]).length
    rw [List.length_append, List.length_singleton]
    omega

/-- Expression evaluation preserves the builder invariant, only grows the
node array, leaves the tables untouched and returns an in-range Var. -/
theorem evalVar_invariant {s s' : BuildCircuit.BState} {v : BuildCircuit.Var}
    (h : BuildCircuit.EvalVar s s' v) (hok : BuildCircuit.stateOk s) :
    BuildCircuit.stateOk s' ∧ BuildCircuit.varOk s'.nodes.length v ∧
    s.nodes.length ≤ s'.nodes.length := by
  induction h with
  | value s c => exact ⟨hok, trivial, le_refl _⟩
  | constRef s i c h => exact ⟨hok, (List.get?_eq_some.mp h).1, le_refl _⟩
  | loadSignal s k i h => exact ⟨hok, hok.2.1 k i h, le_refl _⟩
  | loadVar s k v h => exact ⟨hok, hok.2.2 k v h, le_refl _⟩
  | foldValue2 s s1 s2 op ca cb r h1 h2 _ ih1 ih2 =>
      obtain ⟨hs1, _, hm1⟩ := ih1 hok
      obtain ⟨hs2, _, hm2⟩ := ih2 hs1
      exact ⟨hs2, trivial, le_trans hm1 hm2⟩
  | foldValue1 s s1 op ca r h1 _ ih1 =>
      obtain ⟨hs1, _, hm1⟩ := ih1 hok
      exact ⟨hs1, trivial, hm1⟩
  | compute2 s s1 s2 op va vb h1 h2 ih1 ih2 =>
      obtain ⟨hs1, hva, hm1⟩ := ih1 hok
      obtain ⟨hs2, hvb, hm2⟩ := ih2 hs1
      obtain ⟨hv, hlt, hle, hsig, hvars⟩ :=
        pushOp2_spec s2 op va vb hs2.1 (varOk_mono hm2 hva) hvb
      refine ⟨⟨hv, ?_, ?_⟩, hlt, le_trans (le_trans hm1 hm2) hle⟩
      · intro k i hki
        rw [hsig] at hki
        exact lt_of_lt_of_le (hs2.2.1 k i hki) hle
      · intro k v2 hkv
        rw [hvars] at hkv
        exact varOk_mono hle (hs2.2.2 k v2 hkv)
  | compute1 s s1 op va h1 ih1 =>
      obtain ⟨hs1, hva, hm1⟩ := ih1 hok
      obtain ⟨hv, hlt, hle, hsig, hvars⟩ := pushOp1_spec s1 op va hs1.1 hva
      refine ⟨⟨hv, ?_, ?_⟩, hlt, le_trans hm1 hle⟩
      · intro k i hki
        rw [hsig] at hki
        exact lt_of_lt_of_le (hs1.2.1 k i hki) hle
      · intro k v2 hkv
        rw [hvars] at hkv
        exact varOk_mono hle (hs1.2.2 k v2 hkv)
  | compute3 s s1 s2 s3 op va vb vc h1 h2 h3 ih1 ih2 ih3 =>
      obtain ⟨hs1, hva, hm1⟩ := ih1 hok
      obtain ⟨hs2, hvb, hm2⟩ := ih2 hs1
      obtain ⟨hs3, hvc, hm3⟩ := ih3 hs2
      obtain ⟨hv, hlt, hle, hsig, hvars⟩ :=
        pushOp3_spec s3 op va vb vc hs3.1
          (varOk_mono (le_trans hm2 hm3) hva) (varOk_mono hm3 hvb) hvc
      refine ⟨⟨hv, ?_, ?_⟩, hlt, le_trans (le_trans hm1 (le_trans hm2 hm3)) hle⟩
      · intro k i hki
        rw [hsig] at hki
        exact lt_of_lt_of_le (hs3.2.1 k i hki) hle
      · intro k v2 hkv
        rw [hvars] at hkv
        exact varOk_mono hle (hs3.2.2 k v2 hkv)

/-- Builder steps preserve the invariant. -/
theorem bstep_invariant {s s' : BuildCircuit.BState}
    (h : BuildCircuit.BStep s s') (hok : BuildCircuit.stateOk s) :
    BuildCircuit.stateOk s' := by
  cases h with
  | storeVar s1 k v hev =>
      obtain ⟨hs1, hva, _⟩ := evalVar_invariant hev hok
      refine ⟨hs1.1, hs1.2.1, ?_⟩
      intro k2 v2 hkv
      rw [List.get?_set] at hkv
      split at hkv
      · obtain ⟨x, _, hx2⟩ := Option.map_eq_some'.mp hkv
        obtain rfl : v = v2 := Option.some_inj.mp hx2
        exact hva
      · exact hs1.2.2 k2 v2 hkv
  | storeSignal s1 k v hev hunset =>
      obtain ⟨hs1, hva, _⟩ := evalVar_invariant hev hok
      obtain ⟨hval, hlt, hle⟩ := node_from_var_spec s1.nodes v hs1.1 hva
      refine ⟨hval, ?_, ?_⟩
      · intro k2 i hki
        simp only at hki
        rw [List.get?_set] at hki
        split at hki
        · obtain ⟨x, _, hx2⟩ := Option.map_eq_some'.mp hki
          obtain rfl := Option.some_inj.mp hx2
          exact hlt
        · exact lt_of_lt_of_le (hs1.2.1 k2 i hki) hle
      · intro k2 v2 hkv
        exact varOk_mono hle (hs1.2.2 k2 v2 hkv)
  | pushInput k j =>
      refine ⟨assert_valid_snoc hok.1 rfl, ?_, ?_⟩
      · intro k2 i hki
        simp only at hki
        rw [List.get?_set] at hki
        show i < (s.nodes ++ [Graph.Node.Input j]).length
        rw [List.length_append, List.length_singleton]
        split at hki
        · obtain ⟨x, _, hx2⟩ := Option.map_eq_some'.mp hki
          obtain rfl := Option.some_inj.mp hx2
          omega
        · have := hok.2.1 k2 i hki
          omega
      · intro k2 v2 hkv
        apply varOk_mono _ (hok.2.2 k2 v2 hkv)
        show s.nodes.length ≤ (s.nodes ++ [Graph.Node.Input j]).length
        rw [List.length_append, List.length_singleton]
        omega

/-- All builder-reachable states satisfy the invariant. -/
theorem breach_invariant {s s' : BuildCircuit.BState}
    (h : BuildCircuit.BReach s s') (hok : BuildCircuit.stateOk s) :
    BuildCircuit.stateOk s' := by
  induction h with
  | refl => exact hok
  | tail _ hstep ih => exact bstep_invariant hstep ih

/-- The initial builder state satisfies the invariant. -/
theorem initState_ok (nsig nvar : Nat) :
    BuildCircuit.stateOk (BuildCircuit.initState nsig nvar) := by
  refine ⟨rfl, ?_, ?_⟩
  · intro k i hki
    have hmem := List.get?_mem hki
    have := List.eq_of_mem_replicate hmem
    cases this
  · intro k v hkv
    have hmem := List.get?_mem hkv
    have := List.eq_of_mem_replicate hmem
    cases this

/-- C2: every graph produced by the builder (modelled as any state the
node-emission steps of the symbolic interpreter can reach from the initial
empty state) has only back-references, and every optimization pass —
tree-shake, constant propagation, value numbering, probabilistic constant
detection and the Montgomery rewrite — yields a graph with only
back-references whenever it completes. -/
theorem c2_back_references :
    (∀ nsig nvar s, BuildCircuit.BReach (BuildCircuit.initState nsig nvar) s →
      Graph.assert_valid s.nodes = true) ∧
    (∀ ns outs ns2 outs2, Graph.tree_shake ns outs = some (ns2, outs2) →
      Graph.assert_valid ns2 = true) ∧
    (∀ ns ns2, Graph.propagate ns = some ns2 → Graph.assert_valid ns2 = true) ∧
    (∀ ns outs values ns2 outs2,
      Graph.value_numbering ns outs values = some (ns2, outs2) →
      Graph.assert_valid ns2 = true) ∧
    (∀ ns va vb ns2, Graph.constants ns va vb = some ns2 →
      Graph.assert_valid ns2 = true) ∧
    (∀ ns ns2, Graph.assert_valid ns = true → Graph.montgomery_form ns = some ns2 →
      Graph.assert_valid ns2 = true) :=
  ⟨fun nsig nvar s h => (breach_invariant h (initState_ok nsig nvar)).1,
   tree_shake_valid, propagate_valid,
   value_numbering_valid, constants_valid, montgomery_form_valid⟩

/-- C2 witness: the empty initial graph is reachable and valid, and a
concrete tree_shake run returns a valid graph. -/
theorem c2_back_references_witness :
    Graph.assert_valid (BuildCircuit.initState 2 1).nodes = true ∧
    Graph.assert_valid [Graph.Node.Input 0, Graph.Node.Op .Add 0 0] = true := by
  refine ⟨c2_back_references.1 2 1 _ Relation.ReflTransGen.refl, ?_⟩
  exact c2_back_references.2.1 [Graph.Node.Input 0, Graph.Node.Op .Add 0 0] [1]
    [Graph.Node.Input 0, Graph.Node.Op .Add 0 0] [1] (by decide)


/-! ### The graph file codec round trip (claim C1) -/



theorem varintEncAux_nonempty (f n : Nat) : Storage.varintEncAux f n ≠ [] := by
  cases f with
  | zero => simp [Storage.varintEncAux]
  | succ f =>
      rw [Storage.varintEncAux]
      split <;> simp

theorem varintDecAux_enc : ∀ (f n i : Nat) (rest : List Nat), n ≤ f → i ≤ 9 →
    n < 2 ^ (64 - 7 * i) →
    Storage.varintDecAux i (Storage.varintEncAux f n ++ rest) =
      some (n * 2 ^ (7 * i), i + (Storage.varintEncAux f n).length) := by
  intro f
  induction f with
  | zero =>
      intro n i rest hn hi hbound
      have h0 : n = 0 := Nat.le_zero.mp hn
      subst h0
      show Storage.varintDecAux i ((0 % 128) :: rest) = some (0 * 2 ^ (7 * i), i + 1)
      rw [Storage.varintDecAux]
      rw [if_neg (by omega), if_pos (by omega), if_neg (by omega)]
  | succ f ih =>
      intro n i rest hn hi hbound
      by_cases hsmall : n < 128
      · show Storage.varintDecAux i ((Storage.varintEncAux (f+1) n) ++ rest) = _
        rw [Storage.varintEncAux, if_pos hsmall]
        show Storage.varintDecAux i (n :: rest) = some (n * 2 ^ (7 * i), i + 1)
        rw [Storage.varintDecAux]
        rw [if_neg (by omega), if_pos hsmall]
        have hnot : ¬ (i = 9 ∧ 2 ≤ n) := by
          rintro ⟨rfl, h2⟩
          have : n < 2 ^ (64 - 63) := hbound
          omega
        rw [if_neg hnot]
      · have hile : i ≤ 8 := by
          by_contra hgt
          have hi9 : i = 9 := by omega
          subst hi9
          have : n < 2 ^ (64 - 63) := hbound
          omega
        have hrec : n / 128 < 2 ^ (64 - 7 * (i + 1)) := by
          rw [Nat.div_lt_iff_lt_mul (by norm_num)]
          have h1 : (2 : Nat) ^ (64 - 7 * (i + 1)) * 128 = 2 ^ (64 - 7 * i) := by
            rw [show (128 : Nat) = 2 ^ 7 by norm_num, ← pow_add]
            congr 1
            omega
          omega
        have hfuel : n / 128 ≤ f := by
          have h1 : n / 128 < n := Nat.div_lt_self (by omega) (by norm_num)
          omega
        rw [Storage.varintEncAux, if_neg hsmall]
        show Storage.varintDecAux i ((n % 128 + 128) :: (Storage.varintEncAux f (n / 128) ++ rest)) = _
        rw [Storage.varintDecAux]
        rw [if_neg (by omega), if_neg (by omega)]
        rw [ih (n / 128) (i + 1) rest hfuel (by omega) hrec]
        dsimp only
        have harith : (n % 128 + 128 - 128) * 2 ^ (7 * i) + n / 128 * 2 ^ (7 * (i + 1)) = n * 2 ^ (7 * i) := by
          have h1 : (2 : Nat) ^ (7 * (i + 1)) = 2 ^ (7 * i) * 128 := by
            rw [show 7 * (i + 1) = 7 * i + 7 by ring, pow_add]
            norm_num
          have h2 : n % 128 + 128 - 128 = n % 128 := by omega
          rw [h1, h2]
          conv_rhs => rw [← Nat.mod_add_div n 128]
          ring
        rw [harith]
        simp only [List.length_cons]
        have hlen : i + 1 + (Storage.varintEncAux f (n / 128)).length = i + ((Storage.varintEncAux f (n / 128)).length + 1) := by omega
        rw [hlen]

theorem varintDec_enc (n : Nat) (rest : List Nat) (h : n < 2 ^ 64) :
    Storage.varintDec (Storage.varintEnc n ++ rest) = some (n, (Storage.varintEnc n).length) := by
  have := varintDecAux_enc n n 0 rest (Nat.le_refl n) (by omega) (by simpa using h)
  simpa [Storage.varintDec, Storage.varintEnc] using this

theorem varintEncAux_len : ∀ (f n k : Nat), n ≤ f → 1 ≤ k → n < 2 ^ (7 * k) →
    (Storage.varintEncAux f n).length ≤ k := by
  intro f
  induction f with
  | zero =>
      intro n k _ hk _
      show ([n % 128] : List Nat).length ≤ k
      simpa using hk
  | succ f ih =>
      intro n k hn hk hb
      rw [Storage.varintEncAux]
      split
      · simpa using hk
      · rename_i hns
        have hk2 : 2 ≤ k := by
          by_contra hlt
          have hk1 : k = 1 := by omega
          subst hk1
          simp at hb
          omega
        have hrec : n / 128 < 2 ^ (7 * (k - 1)) := by
          rw [Nat.div_lt_iff_lt_mul (by norm_num)]
          have h1 : (2 : Nat) ^ (7 * (k - 1)) * 128 = 2 ^ (7 * k) := by
            rw [show (128 : Nat) = 2 ^ 7 by norm_num, ← pow_add]
            congr 1
            omega
          omega
        have := ih (n / 128) (k - 1) (by
          have h1 : n / 128 < n := Nat.div_lt_self (by omega) (by norm_num)
          omega) (by omega) hrec
        simp only [List.length_cons]
        omega

theorem varintEnc_len (n : Nat) (h : n < 2 ^ 64) : (Storage.varintEnc n).length ≤ 10 :=
  varintEncAux_len n n 10 (Nat.le_refl n) (by omega) (by omega)

theorem varintEnc_len_pos (n : Nat) : 1 ≤ (Storage.varintEnc n).length := by
  have := varintEncAux_nonempty n n
  cases hE : Storage.varintEnc n with
  | nil => exact absurd hE this
  | cons a l => simp


/-! ### Field-list codec round trip -/

theorem fieldsEnc_nil : Storage.fieldsEnc [] = [] := rfl

theorem fieldsEnc_cons (p : Nat × Storage.FieldVal) (fl : List (Nat × Storage.FieldVal)) :
    Storage.fieldsEnc (p :: fl) = Storage.fieldEnc p ++ Storage.fieldsEnc fl := by
  simp [Storage.fieldsEnc]

/-- Wellformedness of one protobuf field for the encoder: a positive field
number small enough that the tag is a u64 varint, and a u64 payload. -/
def fieldWf (p : Nat × Storage.FieldVal) : Prop :=
  1 ≤ p.1 ∧ p.1 < 2 ^ 61 ∧
    match p.2 with
    | .vint n => n < 2 ^ 64
    | .bytes bs => bs.length < 2 ^ 64

theorem fieldEnc_len_ge (p : Nat × Storage.FieldVal) :
    2 ≤ (Storage.fieldEnc p).length := by
  obtain ⟨f, v⟩ := p
  cases v with
  | vint n =>
      show 2 ≤ (Storage.varintEnc (f * 8) ++ Storage.varintEnc n).length
      rw [List.length_append]
      have h1 := varintEnc_len_pos (f * 8)
      have h2 := varintEnc_len_pos n
      omega
  | bytes bs =>
      show 2 ≤ (Storage.varintEnc (f * 8 + 2) ++ Storage.varintEnc bs.length ++ bs).length
      rw [List.length_append, List.length_append]
      have h1 := varintEnc_len_pos (f * 8 + 2)
      have h2 := varintEnc_len_pos bs.length
      omega

theorem fieldsDecAux_nil (fuel : Nat) : Storage.fieldsDecAux fuel [] = some [] := by
  cases fuel <;> rfl

theorem fieldsDecAux_succ (f : Nat) (bs : List Nat) (h : bs ≠ []) :
    Storage.fieldsDecAux (f + 1) bs =
      match Storage.varintDec bs with
      | none => none
      | some (tag, used) =>
          if tag < 8 then none
          else
            let rest := bs.drop used
            match tag % 8 with
            | 0 =>
                match Storage.varintDec rest with
                | none => none
                | some (v, used2) =>
                    (Storage.fieldsDecAux f (rest.drop used2)).map
                      (fun fl => (tag / 8, Storage.FieldVal.vint v) :: fl)
            | 2 =>
                match Storage.varintDec rest with
                | none => none
                | some (ln, used2) =>
                    let rest2 := rest.drop used2
                    if ln ≤ rest2.length then
                      (Storage.fieldsDecAux f (rest2.drop ln)).map
                        (fun fl => (tag / 8, Storage.FieldVal.bytes (rest2.take ln)) :: fl)
                    else none
            | _ => none := by
  cases bs with
  | nil => exact absurd rfl h
  | cons b tl => rfl

theorem fieldsDecAux_enc : ∀ (fl : List (Nat × Storage.FieldVal)) (fuel : Nat),
    (∀ p ∈ fl, fieldWf p) → (Storage.fieldsEnc fl).length ≤ fuel →
    Storage.fieldsDecAux fuel (Storage.fieldsEnc fl) = some fl := by
  intro fl
  induction fl with
  | nil =>
      intro fuel _ _
      rw [fieldsEnc_nil]
      exact fieldsDecAux_nil fuel
  | cons p fl ih =>
      intro fuel hwf hfuel
      obtain ⟨f, v⟩ := p
      obtain ⟨hf1, hf61, hv⟩ := hwf _ (List.mem_cons_self _ _)
      rw [fieldsEnc_cons] at hfuel ⊢
      have hge := fieldEnc_len_ge (f, v)
      have hlen : (Storage.fieldEnc (f, v)).length + (Storage.fieldsEnc fl).length ≤ fuel := by
        rw [List.length_append] at hfuel
        exact hfuel
      obtain ⟨fuel', rfl⟩ : ∃ fuel', fuel = fuel' + 1 := ⟨fuel - 1, by omega⟩
      have hihabs : ∀ q ∈ fl, fieldWf q := fun q hq => hwf q (List.mem_cons_of_mem _ hq)
      have hihlen : (Storage.fieldsEnc fl).length ≤ fuel' := by omega
      cases v with
      | vint n =>
          have hv' : n < 2 ^ 64 := hv
          have he : Storage.fieldEnc (f, Storage.FieldVal.vint n) ++ Storage.fieldsEnc fl
              = Storage.varintEnc (f * 8) ++ (Storage.varintEnc n ++ Storage.fieldsEnc fl) := by
            show Storage.varintEnc (f * 8) ++ Storage.varintEnc n ++ Storage.fieldsEnc fl = _
            rw [List.append_assoc]
          rw [he]
          have hne : Storage.varintEnc (f * 8) ++ (Storage.varintEnc n ++ Storage.fieldsEnc fl) ≠ [] := by
            intro hc
            have h1 := congrArg List.length hc
            rw [List.length_append] at h1
            have h2 := varintEnc_len_pos (f * 8)
            simp only [List.length_nil] at h1
            omega
          rw [fieldsDecAux_succ _ _ hne]
          rw [varintDec_enc (f * 8) _ (by omega)]
          dsimp only
          rw [if_neg (by omega)]
          rw [List.drop_left]
          have hmod : f * 8 % 8 = 0 := Nat.mul_mod_left f 8
          rw [hmod]
          rw [varintDec_enc n _ hv']
          dsimp only
          rw [List.drop_left]
          rw [ih fuel' hihabs hihlen]
          have hdiv : f * 8 / 8 = f := Nat.mul_div_cancel f (by norm_num)
          rw [hdiv]
          rfl
      | bytes bs =>
          have hv' : bs.length < 2 ^ 64 := hv
          have he : Storage.fieldEnc (f, Storage.FieldVal.bytes bs) ++ Storage.fieldsEnc fl
              = Storage.varintEnc (f * 8 + 2) ++
                  (Storage.varintEnc bs.length ++ (bs ++ Storage.fieldsEnc fl)) := by
            show Storage.varintEnc (f * 8 + 2) ++ Storage.varintEnc bs.length ++ bs ++
              Storage.fieldsEnc fl = _
            simp only [List.append_assoc]
          rw [he]
          have hne : Storage.varintEnc (f * 8 + 2) ++
              (Storage.varintEnc bs.length ++ (bs ++ Storage.fieldsEnc fl)) ≠ [] := by
            intro hc
            have h1 := congrArg List.length hc
            rw [List.length_append] at h1
            have h2 := varintEnc_len_pos (f * 8 + 2)
            simp only [List.length_nil] at h1
            omega
          rw [fieldsDecAux_succ _ _ hne]
          rw [varintDec_enc (f * 8 + 2) _ (by omega)]
          dsimp only
          rw [if_neg (by omega)]
          rw [List.drop_left]
          have hmod : (f * 8 + 2) % 8 = 2 := by omega
          rw [hmod]
          rw [varintDec_enc bs.length _ hv']
          dsimp only
          rw [List.drop_left]
          rw [if_pos (by rw [List.length_append]; omega)]
          rw [List.take_left, List.drop_left]
          rw [ih fuel' hihabs hihlen]
          have hdiv : (f * 8 + 2) / 8 = f := by omega
          rw [hdiv]
          rfl

theorem fieldsDec_enc (fl : List (Nat × Storage.FieldVal))
    (hwf : ∀ p ∈ fl, fieldWf p) :
    Storage.fieldsDec (Storage.fieldsEnc fl) = some fl :=
  fieldsDecAux_enc fl (Storage.fieldsEnc fl).length hwf (Nat.le_refl _)

/-! ### Packed varints, little-endian byte strings -/

theorem packedDecAux_nil (fuel : Nat) : Storage.packedDecAux fuel [] = some [] := by
  cases fuel <;> rfl

theorem packedDecAux_succ (f : Nat) (bs : List Nat) (h : bs ≠ []) :
    Storage.packedDecAux (f + 1) bs =
      match Storage.varintDec bs with
      | none => none
      | some (v, used) => (Storage.packedDecAux f (bs.drop used)).map (fun l => v :: l) := by
  cases bs with
  | nil => exact absurd rfl h
  | cons b tl => rfl

theorem packedDecAux_enc : ∀ (ns : List Nat) (fuel : Nat),
    (∀ x ∈ ns, x < 2 ^ 64) → (Storage.packedEnc ns).length ≤ fuel →
    Storage.packedDecAux fuel (Storage.packedEnc ns) = some ns := by
  intro ns
  induction ns with
  | nil =>
      intro fuel _ _
      exact packedDecAux_nil fuel
  | cons n ns ih =>
      intro fuel hb hfuel
      have hn : n < 2 ^ 64 := hb n (List.mem_cons_self _ _)
      have he : Storage.packedEnc (n :: ns) = Storage.varintEnc n ++ Storage.packedEnc ns := by
        simp [Storage.packedEnc]
      rw [he] at hfuel ⊢
      have hp := varintEnc_len_pos n
      rw [List.length_append] at hfuel
      obtain ⟨fuel', rfl⟩ : ∃ fuel', fuel = fuel' + 1 := ⟨fuel - 1, by omega⟩
      have hne : Storage.varintEnc n ++ Storage.packedEnc ns ≠ [] := by
        intro hc
        have h1 := congrArg List.length hc
        rw [List.length_append] at h1
        simp only [List.length_nil] at h1
        omega
      rw [packedDecAux_succ _ _ hne]
      rw [varintDec_enc n _ hn]
      dsimp only
      rw [List.drop_left]
      rw [ih fuel' (fun x hx => hb x (List.mem_cons_of_mem _ hx)) (by omega)]
      rfl

theorem packedDec_enc (ns : List Nat) (hb : ∀ x ∈ ns, x < 2 ^ 64) :
    Storage.packedDec (Storage.packedEnc ns) = some ns :=
  packedDecAux_enc ns (Storage.packedEnc ns).length hb (Nat.le_refl _)

theorem bytesToNatLE_natBytesLEAux : ∀ (f n : Nat), n ≤ f →
    Storage.bytesToNatLE (Storage.natBytesLEAux f n) = n := by
  intro f
  induction f with
  | zero =>
      intro n hn
      have h0 : n = 0 := Nat.le_zero.mp hn
      subst h0
      rfl
  | succ f ih =>
      intro n hn
      rw [Storage.natBytesLEAux]
      split
      · rename_i h0
        subst h0
        rfl
      · rename_i h0
        rw [Storage.bytesToNatLE]
        rw [ih (n / 256) (by
          have := Nat.div_lt_self (Nat.pos_of_ne_zero h0) (by norm_num : (1:Nat) < 256)
          omega)]
        omega

theorem bytesToNatLE_natBytesLE (n : Nat) :
    Storage.bytesToNatLE (Storage.natBytesLE n) = n := by
  rw [Storage.natBytesLE]
  split
  · rename_i h0
    subst h0
    rfl
  · exact bytesToNatLE_natBytesLEAux n n (Nat.le_refl n)

theorem natBytesLEAux_len : ∀ (f n k : Nat), n ≤ f → n < 256 ^ k →
    (Storage.natBytesLEAux f n).length ≤ k := by
  intro f
  induction f with
  | zero =>
      intro n k hn _
      have h0 : n = 0 := Nat.le_zero.mp hn
      subst h0
      simp [Storage.natBytesLEAux]
  | succ f ih =>
      intro n k hn hk
      rw [Storage.natBytesLEAux]
      split
      · simp
      · rename_i h0
        have hkpos : 1 ≤ k := by
          by_contra hc
          have : k = 0 := by omega
          subst this
          simp at hk
          omega
        have hrec : n / 256 < 256 ^ (k - 1) := by
          rw [Nat.div_lt_iff_lt_mul (by norm_num)]
          have : (256 : Nat) ^ (k - 1) * 256 = 256 ^ k := by
            rw [← pow_succ]
            congr 1
            omega
          omega
        have := ih (n / 256) (k - 1) (by
          have := Nat.div_lt_self (Nat.pos_of_ne_zero h0) (by norm_num : (1:Nat) < 256)
          omega) hrec
        simp only [List.length_cons]
        omega

theorem natBytesLE_len (n : Nat) (h : n < 256 ^ 32) :
    (Storage.natBytesLE n).length ≤ 32 := by
  rw [Storage.natBytesLE]
  split
  · simp
  · exact natBytesLEAux_len n n 32 (Nat.le_refl n) h

theorem u64le_length (n : Nat) : (Storage.u64le n).length = 8 := rfl

theorem bytesToNatLE_u64le (n : Nat) :
    Storage.bytesToNatLE (Storage.u64le n) = n % 2 ^ 64 := by
  show (n % 256) + 256 * ((n / 256 % 256) + 256 * ((n / 256 ^ 2 % 256) + 256 *
    ((n / 256 ^ 3 % 256) + 256 * ((n / 256 ^ 4 % 256) + 256 * ((n / 256 ^ 5 % 256) + 256 *
    ((n / 256 ^ 6 % 256) + 256 * ((n / 256 ^ 7 % 256) + 256 * 0))))))) = n % 2 ^ 64
  have h2 : (2 : Nat) ^ 64 = 256 ^ 8 := by norm_num
  rw [h2]
  omega

/-! ### The length-delimited message reader -/

theorem rmLength_enc (L : Nat) (x : List Nat) (hL : L < 2 ^ 64) :
    Storage.rmLength (Storage.varintEnc L ++ x) =
      some (L, x ++ List.replicate (10 - (Storage.varintEnc L ++ x).length) 0) := by
  have hle : (Storage.varintEnc L).length ≤ 10 := varintEnc_len L hL
  have hbuf : (Storage.varintEnc L ++ x).take 10 ++
      List.replicate (10 - (Storage.varintEnc L ++ x).length) 0 =
      Storage.varintEnc L ++ (x.take (10 - (Storage.varintEnc L).length) ++
        List.replicate (10 - (Storage.varintEnc L ++ x).length) 0) := by
    rw [List.take_append_eq_append_take, List.take_of_length_le hle, List.append_assoc]
  simp only [Storage.rmLength]
  rw [hbuf]
  rw [varintDec_enc L _ hL]
  dsimp only
  rw [List.drop_left]
  congr 1
  congr 1
  rw [List.drop_append_eq_append_drop, List.drop_eq_nil_of_le hle, List.nil_append]
  rw [List.length_append]
  by_cases hlen : 10 ≤ (Storage.varintEnc L).length + x.length
  · have hpad : 10 - ((Storage.varintEnc L).length + x.length) = 0 := by omega
    rw [hpad, List.replicate_zero, List.append_nil, List.append_nil]
    exact List.take_append_drop _ x
  · have hxk : x.length ≤ 10 - (Storage.varintEnc L).length := by omega
    rw [List.take_of_length_le hxk, List.drop_eq_nil_of_le hxk, List.append_nil]

theorem rmBytes_enc (m x : List Nat) (hm : m.length < 2 ^ 64) :
    Storage.rmBytes (Storage.varintEnc m.length ++ (m ++ x)) =
      some (m, x ++ List.replicate (10 - (Storage.varintEnc m.length ++ (m ++ x)).length) 0) := by
  rw [Storage.rmBytes, rmLength_enc m.length (m ++ x) hm]
  dsimp only
  rw [List.append_assoc]
  rw [if_pos (by rw [List.length_append]; omega)]
  rw [List.take_left, List.drop_left]

theorem rmBytes_enc' (m x : List Nat) (hm : m.length < 2 ^ 64) (hx : 10 ≤ x.length) :
    Storage.rmBytes (Storage.varintEnc m.length ++ (m ++ x)) = some (m, x) := by
  rw [rmBytes_enc m x hm]
  have hpad : 10 - (Storage.varintEnc m.length ++ (m ++ x)).length = 0 := by
    rw [List.length_append, List.length_append]
    omega
  rw [hpad, List.replicate_zero, List.append_nil]

/-! ### Protobuf node messages -/

theorem fieldsEnc_singleton (p : Nat × Storage.FieldVal) :
    Storage.fieldsEnc [p] = Storage.fieldEnc p := by
  simp [Storage.fieldsEnc]

theorem fieldEnc_vint_len (f n : Nat) (hf : f * 8 < 2 ^ 64) (hn : n < 2 ^ 64) :
    (Storage.fieldEnc (f, Storage.FieldVal.vint n)).length ≤ 20 := by
  show (Storage.varintEnc (f * 8) ++ Storage.varintEnc n).length ≤ 20
  rw [List.length_append]
  have h1 := varintEnc_len (f * 8) hf
  have h2 := varintEnc_len n hn
  omega

theorem fieldEnc_bytes_len (f : Nat) (bs : List Nat) (hf : f * 8 + 2 < 2 ^ 64)
    (hb : bs.length < 2 ^ 64) :
    (Storage.fieldEnc (f, Storage.FieldVal.bytes bs)).length ≤ 20 + bs.length := by
  show (Storage.varintEnc (f * 8 + 2) ++ Storage.varintEnc bs.length ++ bs).length ≤ 20 + bs.length
  rw [List.length_append, List.length_append]
  have h1 := varintEnc_len (f * 8 + 2) hf
  have h2 := varintEnc_len bs.length hb
  omega

theorem unoFromCode_code (op : Storage.UnoOperation) :
    Storage.unoFromCode op.code = some op := by cases op <;> rfl

theorem duoFromCode_code (op : Storage.Operation) :
    Storage.duoFromCode op.code = some op := by cases op <;> rfl

theorem tresFromCode_code (op : Storage.TresOperation) :
    Storage.tresFromCode op.code = some op := by cases op <;> rfl

theorem unoCode_lt (op : Storage.UnoOperation) : op.code < 2 ^ 64 := by
  cases op <;> decide

theorem duoCode_lt (op : Storage.Operation) : op.code < 2 ^ 64 := by
  cases op <;> decide

theorem tresCode_lt (op : Storage.TresOperation) : op.code < 2 ^ 64 := by
  cases op <;> decide

/-- Wellformedness of an in-memory protobuf node message: all varint
payloads fit a u64 and a constant payload is at most 32 bytes (the
little-endian digits of a 256-bit value). -/
def pnodeWf : Storage.PNode → Prop
  | .input idx => idx < 2 ^ 64
  | .constant none => True
  | .constant (some bytes) => bytes.length ≤ 32
  | .unoOp op a => op < 2 ^ 64 ∧ a < 2 ^ 64
  | .duoOp op a b => op < 2 ^ 64 ∧ a < 2 ^ 64 ∧ b < 2 ^ 64
  | .tresOp op a b c => op < 2 ^ 64 ∧ a < 2 ^ 64 ∧ b < 2 ^ 64 ∧ c < 2 ^ 64

theorem pnodeEnc_len (pn : Storage.PNode) (h : pnodeWf pn) :
    (Storage.pnodeEnc pn).length ≤ 124 := by
  cases pn with
  | input idx =>
      have hidx : idx < 2 ^ 64 := h
      have h1 := fieldEnc_vint_len 1 idx (by norm_num) hidx
      have h2 := fieldEnc_bytes_len 1 (Storage.fieldEnc (1, Storage.FieldVal.vint idx))
        (by norm_num) (by omega)
      show (Storage.fieldsEnc [(1, Storage.FieldVal.bytes
        (Storage.fieldsEnc [(1, Storage.FieldVal.vint idx)]))]).length ≤ 124
      simp only [fieldsEnc_singleton]
      omega
  | constant c =>
      cases c with
      | none =>
          have h2 := fieldEnc_bytes_len 2 [] (by norm_num) (by norm_num)
          simp only [List.length_nil] at h2
          show (Storage.fieldsEnc [(2, Storage.FieldVal.bytes (Storage.fieldsEnc []))]).length ≤ 124
          simp only [fieldsEnc_singleton, fieldsEnc_nil]
          omega
      | some bytes =>
          have hb : bytes.length ≤ 32 := h
          have h3 := fieldEnc_bytes_len 1 bytes (by norm_num) (by omega)
          have h2 := fieldEnc_bytes_len 1
            (Storage.fieldEnc (1, Storage.FieldVal.bytes bytes)) (by norm_num) (by omega)
          have h1 := fieldEnc_bytes_len 2
            (Storage.fieldEnc (1, Storage.FieldVal.bytes
              (Storage.fieldEnc (1, Storage.FieldVal.bytes bytes)))) (by norm_num) (by omega)
          show (Storage.fieldsEnc [(2, Storage.FieldVal.bytes
            (Storage.fieldsEnc [(1, Storage.FieldVal.bytes
              (Storage.fieldsEnc [(1, Storage.FieldVal.bytes bytes)]))]))]).length ≤ 124
          simp only [fieldsEnc_singleton]
          omega
  | unoOp op a =>
      obtain ⟨h1, h2⟩ := h
      have e1 := fieldEnc_vint_len 1 op (by norm_num) h1
      have e2 := fieldEnc_vint_len 2 a (by norm_num) h2
      have e0 := fieldEnc_bytes_len 3
        (Storage.fieldEnc (1, Storage.FieldVal.vint op) ++
          Storage.fieldEnc (2, Storage.FieldVal.vint a)) (by norm_num)
        (by rw [List.length_append]; omega)
      rw [List.length_append] at e0
      show (Storage.fieldsEnc [(3, Storage.FieldVal.bytes (Storage.fieldsEnc
        [(1, Storage.FieldVal.vint op), (2, Storage.FieldVal.vint a)]))]).length ≤ 124
      simp only [fieldsEnc_singleton, fieldsEnc_cons, fieldsEnc_nil, List.append_nil]
      omega
  | duoOp op a b =>
      obtain ⟨h1, h2, h3⟩ := h
      have e1 := fieldEnc_vint_len 1 op (by norm_num) h1
      have e2 := fieldEnc_vint_len 2 a (by norm_num) h2
      have e3 := fieldEnc_vint_len 3 b (by norm_num) h3
      have e0 := fieldEnc_bytes_len 4
        (Storage.fieldEnc (1, Storage.FieldVal.vint op) ++
          (Storage.fieldEnc (2, Storage.FieldVal.vint a) ++
            Storage.fieldEnc (3, Storage.FieldVal.vint b))) (by norm_num)
        (by rw [List.length_append, List.length_append]; omega)
      rw [List.length_append, List.length_append] at e0
      show (Storage.fieldsEnc [(4, Storage.FieldVal.bytes (Storage.fieldsEnc
        [(1, Storage.FieldVal.vint op), (2, Storage.FieldVal.vint a),
         (3, Storage.FieldVal.vint b)]))]).length ≤ 124
      simp only [fieldsEnc_singleton, fieldsEnc_cons, fieldsEnc_nil, List.append_nil]
      omega
  | tresOp op a b c =>
      obtain ⟨h1, h2, h3, h4⟩ := h
      have e1 := fieldEnc_vint_len 1 op (by norm_num) h1
      have e2 := fieldEnc_vint_len 2 a (by norm_num) h2
      have e3 := fieldEnc_vint_len 3 b (by norm_num) h3
      have e4 := fieldEnc_vint_len 4 c (by norm_num) h4
      have e0 := fieldEnc_bytes_len 5
        (Storage.fieldEnc (1, Storage.FieldVal.vint op) ++
          (Storage.fieldEnc (2, Storage.FieldVal.vint a) ++
            (Storage.fieldEnc (3, Storage.FieldVal.vint b) ++
              Storage.fieldEnc (4, Storage.FieldVal.vint c)))) (by norm_num)
        (by rw [List.length_append, List.length_append, List.length_append]; omega)
      rw [List.length_append, List.length_append, List.length_append] at e0
      show (Storage.fieldsEnc [(5, Storage.FieldVal.bytes (Storage.fieldsEnc
        [(1, Storage.FieldVal.vint op), (2, Storage.FieldVal.vint a),
         (3, Storage.FieldVal.vint b), (4, Storage.FieldVal.vint c)]))]).length ≤ 124
      simp only [fieldsEnc_singleton, fieldsEnc_cons, fieldsEnc_nil, List.append_nil]
      omega

theorem fieldWf_vint (f n : Nat) (h1 : 1 ≤ f) (h2 : f < 2 ^ 61) (h3 : n < 2 ^ 64) :
    fieldWf (f, Storage.FieldVal.vint n) := ⟨h1, h2, h3⟩

theorem fieldWf_bytes (f : Nat) (bs : List Nat) (h1 : 1 ≤ f) (h2 : f < 2 ^ 61)
    (h3 : bs.length < 2 ^ 64) : fieldWf (f, Storage.FieldVal.bytes bs) := ⟨h1, h2, h3⟩

theorem pnode_decode (pn : Storage.PNode) (h : pnodeWf pn) :
    Storage.fieldsDec (Storage.pnodeEnc pn) = some (Storage.pnodeFields pn) ∧
    Storage.interpNode (Storage.pnodeFields pn) = some (some pn) := by
  cases pn with
  | input idx =>
      have hidx : idx < 2 ^ 64 := h
      have hil : (Storage.fieldsEnc [(1, Storage.FieldVal.vint idx)]).length < 2 ^ 64 := by
        rw [fieldsEnc_singleton]
        have := fieldEnc_vint_len 1 idx (by norm_num) hidx
        omega
      have hfdi : Storage.fieldsDec (Storage.fieldsEnc [(1, Storage.FieldVal.vint idx)]) =
          some [(1, Storage.FieldVal.vint idx)] := by
        apply fieldsDec_enc
        intro p hp
        simp only [Storage.pnodeFields] at hp
        rw [List.mem_singleton] at hp
        subst hp
        exact fieldWf_vint 1 idx (by norm_num) (by norm_num) hidx
      refine ⟨?_, ?_⟩
      · apply fieldsDec_enc
        intro p hp
        simp only [Storage.pnodeFields] at hp
        rw [List.mem_singleton] at hp
        subst hp
        exact fieldWf_bytes 1 _ (by norm_num) (by norm_num) hil
      · simp [Storage.pnodeFields, Storage.interpNode, Storage.interpNodeGo, hfdi,
          Storage.interpInput, Storage.interpInputGo]
  | constant c =>
      cases c with
      | none =>
          have hfdi : Storage.fieldsDec (Storage.fieldsEnc ([] : List (Nat × Storage.FieldVal))) =
              some [] := fieldsDec_enc [] (by intro p hp; simp at hp)
          refine ⟨?_, ?_⟩
          · apply fieldsDec_enc
            intro p hp
            simp only [Storage.pnodeFields] at hp
            rw [List.mem_singleton] at hp
            subst hp
            exact fieldWf_bytes 2 _ (by norm_num) (by norm_num)
              (by rw [fieldsEnc_nil]; norm_num)
          · simp [Storage.pnodeFields, Storage.interpNode, Storage.interpNodeGo, hfdi,
              Storage.interpConst, Storage.interpConstGo]
      | some bytes =>
          have hb : bytes.length ≤ 32 := h
          have hl3 : (Storage.fieldsEnc [(1, Storage.FieldVal.bytes bytes)]).length ≤ 52 := by
            rw [fieldsEnc_singleton]
            have := fieldEnc_bytes_len 1 bytes (by norm_num) (by omega)
            omega
          have hfd3 : Storage.fieldsDec (Storage.fieldsEnc [(1, Storage.FieldVal.bytes bytes)]) =
              some [(1, Storage.FieldVal.bytes bytes)] := by
            apply fieldsDec_enc
            intro p hp
            simp only [Storage.pnodeFields] at hp
            rw [List.mem_singleton] at hp
            subst hp
            exact fieldWf_bytes 1 bytes (by norm_num) (by norm_num) (by omega)
          have hl2 : (Storage.fieldsEnc [(1, Storage.FieldVal.bytes
              (Storage.fieldsEnc [(1, Storage.FieldVal.bytes bytes)]))]).length ≤ 72 := by
            rw [fieldsEnc_singleton]
            have := fieldEnc_bytes_len 1
              (Storage.fieldsEnc [(1, Storage.FieldVal.bytes bytes)]) (by norm_num) (by omega)
            omega
          have hfd2 : Storage.fieldsDec (Storage.fieldsEnc [(1, Storage.FieldVal.bytes
              (Storage.fieldsEnc [(1, Storage.FieldVal.bytes bytes)]))]) =
              some [(1, Storage.FieldVal.bytes
                (Storage.fieldsEnc [(1, Storage.FieldVal.bytes bytes)]))] := by
            apply fieldsDec_enc
            intro p hp
            simp only [Storage.pnodeFields] at hp
            rw [List.mem_singleton] at hp
            subst hp
            exact fieldWf_bytes 1 _ (by norm_num) (by norm_num) (by omega)
          refine ⟨?_, ?_⟩
          · apply fieldsDec_enc
            intro p hp
            simp only [Storage.pnodeFields] at hp
            rw [List.mem_singleton] at hp
            subst hp
            exact fieldWf_bytes 2 _ (by norm_num) (by norm_num) (by omega)
          · simp [Storage.pnodeFields, Storage.interpNode, Storage.interpNodeGo, hfd2, hfd3,
              Storage.interpConst, Storage.interpConstGo, Storage.interpBig, Storage.interpBigGo]
  | unoOp op a =>
      obtain ⟨h1, h2⟩ := h
      have hil : (Storage.fieldsEnc
          [(1, Storage.FieldVal.vint op), (2, Storage.FieldVal.vint a)]).length < 2 ^ 64 := by
        rw [fieldsEnc_cons, fieldsEnc_singleton, List.length_append]
        have e1 := fieldEnc_vint_len 1 op (by norm_num) h1
        have e2 := fieldEnc_vint_len 2 a (by norm_num) h2
        omega
      have hfdi : Storage.fieldsDec (Storage.fieldsEnc
          [(1, Storage.FieldVal.vint op), (2, Storage.FieldVal.vint a)]) =
          some [(1, Storage.FieldVal.vint op), (2, Storage.FieldVal.vint a)] := by
        apply fieldsDec_enc
        intro p hp
        simp only [Storage.pnodeFields, List.mem_cons, List.mem_singleton,
          List.not_mem_nil, or_false] at hp
        rcases hp with rfl | rfl
        · exact fieldWf_vint 1 op (by norm_num) (by norm_num) h1
        · exact fieldWf_vint 2 a (by norm_num) (by norm_num) h2
      refine ⟨?_, ?_⟩
      · apply fieldsDec_enc
        intro p hp
        simp only [Storage.pnodeFields] at hp
        rw [List.mem_singleton] at hp
        subst hp
        exact fieldWf_bytes 3 _ (by norm_num) (by norm_num) hil
      · simp [Storage.pnodeFields, Storage.interpNode, Storage.interpNodeGo, hfdi,
          Storage.interpUno, Storage.interpUnoGo]
  | duoOp op a b =>
      obtain ⟨h1, h2, h3⟩ := h
      have hil : (Storage.fieldsEnc
          [(1, Storage.FieldVal.vint op), (2, Storage.FieldVal.vint a),
           (3, Storage.FieldVal.vint b)]).length < 2 ^ 64 := by
        rw [fieldsEnc_cons, fieldsEnc_cons, fieldsEnc_singleton,
          List.length_append, List.length_append]
        have e1 := fieldEnc_vint_len 1 op (by norm_num) h1
        have e2 := fieldEnc_vint_len 2 a (by norm_num) h2
        have e3 := fieldEnc_vint_len 3 b (by norm_num) h3
        omega
      have hfdi : Storage.fieldsDec (Storage.fieldsEnc
          [(1, Storage.FieldVal.vint op), (2, Storage.FieldVal.vint a),
           (3, Storage.FieldVal.vint b)]) =
          some [(1, Storage.FieldVal.vint op), (2, Storage.FieldVal.vint a),
            (3, Storage.FieldVal.vint b)] := by
        apply fieldsDec_enc
        intro p hp
        simp only [Storage.pnodeFields, List.mem_cons, List.mem_singleton,
          List.not_mem_nil, or_false] at hp
        rcases hp with rfl | rfl | rfl
        · exact fieldWf_vint 1 op (by norm_num) (by norm_num) h1
        · exact fieldWf_vint 2 a (by norm_num) (by norm_num) h2
        · exact fieldWf_vint 3 b (by norm_num) (by norm_num) h3
      refine ⟨?_, ?_⟩
      · apply fieldsDec_enc
        intro p hp
        simp only [Storage.pnodeFields] at hp
        rw [List.mem_singleton] at hp
        subst hp
        exact fieldWf_bytes 4 _ (by norm_num) (by norm_num) hil
      · simp [Storage.pnodeFields, Storage.interpNode, Storage.interpNodeGo, hfdi,
          Storage.interpDuo, Storage.interpDuoGo]
  | tresOp op a b c =>
      obtain ⟨h1, h2, h3, h4⟩ := h
      have hil : (Storage.fieldsEnc
          [(1, Storage.FieldVal.vint op), (2, Storage.FieldVal.vint a),
           (3, Storage.FieldVal.vint b), (4, Storage.FieldVal.vint c)]).length < 2 ^ 64 := by
        rw [fieldsEnc_cons, fieldsEnc_cons, fieldsEnc_cons, fieldsEnc_singleton,
          List.length_append, List.length_append, List.length_append]
        have e1 := fieldEnc_vint_len 1 op (by norm_num) h1
        have e2 := fieldEnc_vint_len 2 a (by norm_num) h2
        have e3 := fieldEnc_vint_len 3 b (by norm_num) h3
        have e4 := fieldEnc_vint_len 4 c (by norm_num) h4
        omega
      have hfdi : Storage.fieldsDec (Storage.fieldsEnc
          [(1, Storage.FieldVal.vint op), (2, Storage.FieldVal.vint a),
           (3, Storage.FieldVal.vint b), (4, Storage.FieldVal.vint c)]) =
          some [(1, Storage.FieldVal.vint op), (2, Storage.FieldVal.vint a),
            (3, Storage.FieldVal.vint b), (4, Storage.FieldVal.vint c)] := by
        apply fieldsDec_enc
        intro p hp
        simp only [Storage.pnodeFields, List.mem_cons, List.mem_singleton,
          List.not_mem_nil, or_false] at hp
        rcases hp with rfl | rfl | rfl | rfl
        · exact fieldWf_vint 1 op (by norm_num) (by norm_num) h1
        · exact fieldWf_vint 2 a (by norm_num) (by norm_num) h2
        · exact fieldWf_vint 3 b (by norm_num) (by norm_num) h3
        · exact fieldWf_vint 4 c (by norm_num) (by norm_num) h4
      refine ⟨?_, ?_⟩
      · apply fieldsDec_enc
        intro p hp
        simp only [Storage.pnodeFields] at hp
        rw [List.mem_singleton] at hp
        subst hp
        exact fieldWf_bytes 5 _ (by norm_num) (by norm_num) hil
      · simp [Storage.pnodeFields, Storage.interpNode, Storage.interpNodeGo, hfdi,
          Storage.interpTres, Storage.interpTresGo]

/-- The image of one node after the writer casts its usize references to
u32 and the reader reduces a constant payload modulo M. -/
def truncNode : Storage.Node → Storage.Node
  | .Input i => .Input (i % 2 ^ 32)
  | .Constant c => .Constant c
  | .MontConstant c => .MontConstant (c % M)
  | .UnoOp op a => .UnoOp op (a % 2 ^ 32)
  | .Op op a b => .Op op (a % 2 ^ 32) (b % 2 ^ 32)
  | .TresOp op a b c => .TresOp op (a % 2 ^ 32) (b % 2 ^ 32) (c % 2 ^ 32)

theorem node_roundtrip (n : Storage.Node) (hn : ∀ c, n ≠ Storage.Node.Constant c)
    (hm : ∀ c, n = Storage.Node.MontConstant c → c < 2 ^ 256) :
    ∃ pn, Storage.nodeToProto n = some pn ∧ pnodeWf pn ∧
      Storage.protoToNode pn = some (truncNode n) := by
  cases n with
  | Input i =>
      refine ⟨.input (i % 2 ^ 32), rfl, ?_, rfl⟩
      show i % 2 ^ 32 < 2 ^ 64
      have := Nat.mod_lt i (show 0 < 2 ^ 32 by norm_num)
      omega
  | Constant c => exact absurd rfl (hn c)
  | MontConstant c =>
      have hc : c < 2 ^ 256 := hm c rfl
      refine ⟨.constant (some (Storage.natBytesLE c)), rfl, ?_, ?_⟩
      · show (Storage.natBytesLE c).length ≤ 32
        exact natBytesLE_len c (by norm_num at hc ⊢; omega)
      · show some (Storage.Node.MontConstant (Storage.bytesToNatLE (Storage.natBytesLE c) % M)) = _
        rw [bytesToNatLE_natBytesLE]
        rfl
  | UnoOp op a =>
      refine ⟨.unoOp op.code (a % 2 ^ 32), rfl, ?_, ?_⟩
      · refine ⟨unoCode_lt op, ?_⟩
        have := Nat.mod_lt a (show 0 < 2 ^ 32 by norm_num)
        omega
      · show (Storage.unoFromCode op.code).map _ = _
        rw [unoFromCode_code]
        rfl
  | Op op a b =>
      refine ⟨.duoOp op.code (a % 2 ^ 32) (b % 2 ^ 32), rfl, ?_, ?_⟩
      · refine ⟨duoCode_lt op, ?_, ?_⟩
        · have := Nat.mod_lt a (show 0 < 2 ^ 32 by norm_num)
          omega
        · have := Nat.mod_lt b (show 0 < 2 ^ 32 by norm_num)
          omega
      · show (Storage.duoFromCode op.code).map _ = _
        rw [duoFromCode_code]
        rfl
  | TresOp op a b c =>
      refine ⟨.tresOp op.code (a % 2 ^ 32) (b % 2 ^ 32) (c % 2 ^ 32), rfl, ?_, ?_⟩
      · refine ⟨tresCode_lt op, ?_, ?_, ?_⟩
        · have := Nat.mod_lt a (show 0 < 2 ^ 32 by norm_num)
          omega
        · have := Nat.mod_lt b (show 0 < 2 ^ 32 by norm_num)
          omega
        · have := Nat.mod_lt c (show 0 < 2 ^ 32 by norm_num)
          omega
      · simp only [Storage.protoToNode, tresFromCode_code, Option.map_some]
        rfl

theorem readNodes_succ (k : Nat) (avail : List Nat) :
    Storage.readNodes (k + 1) avail =
      match Storage.rmBytes avail with
      | none => none
      | some (mb, avail2) =>
          match Storage.fieldsDec mb with
          | none => none
          | some fl =>
              match Storage.interpNode fl with
              | none => none
              | some none => none
              | some (some pn) =>
                  match Storage.protoToNode pn with
                  | none => none
                  | some n => (Storage.readNodes k avail2).map (fun p => (n :: p.1, p.2)) := rfl

theorem readNodes_enc : ∀ (nodes : List Storage.Node),
    (∀ n ∈ nodes, (∀ c, n ≠ Storage.Node.Constant c) ∧
      (∀ c, n = Storage.Node.MontConstant c → c < 2 ^ 256)) →
    ∃ pns, nodes.mapM Storage.nodeToProto = some pns ∧
      ∀ rest, 10 ≤ rest.length →
        Storage.readNodes nodes.length
          ((pns.map (fun pn =>
            Storage.varintEnc (Storage.pnodeEnc pn).length ++ Storage.pnodeEnc pn)).flatten
            ++ rest) =
          some (nodes.map truncNode, rest) := by
  intro nodes
  induction nodes with
  | nil =>
      intro _
      refine ⟨[], rfl, ?_⟩
      intro rest _
      simp [Storage.readNodes]
  | cons n nodes ih =>
      intro hok
      obtain ⟨pn, hpn, hwf, hptn⟩ := node_roundtrip n
        (hok n (List.mem_cons_self _ _)).1 (hok n (List.mem_cons_self _ _)).2
      obtain ⟨pns, hpns, hread⟩ := ih (fun x hx => hok x (List.mem_cons_of_mem _ hx))
      refine ⟨pn :: pns, ?_, ?_⟩
      · rw [List.mapM_cons, hpn, hpns]
        rfl
      · intro rest hrest
        have hfd := (pnode_decode pn hwf).1
        have hin := (pnode_decode pn hwf).2
        have hml : (Storage.pnodeEnc pn).length < 2 ^ 64 := by
          have := pnodeEnc_len pn hwf
          omega
        have htail : 10 ≤ ((pns.map (fun pn =>
            Storage.varintEnc (Storage.pnodeEnc pn).length ++ Storage.pnodeEnc pn)).flatten
            ++ rest).length := by
          rw [List.length_append]
          omega
        have havail : ((pn :: pns).map (fun pn =>
            Storage.varintEnc (Storage.pnodeEnc pn).length ++ Storage.pnodeEnc pn)).flatten
            ++ rest =
            Storage.varintEnc (Storage.pnodeEnc pn).length ++ (Storage.pnodeEnc pn ++
              ((pns.map (fun pn =>
                Storage.varintEnc (Storage.pnodeEnc pn).length ++ Storage.pnodeEnc pn)).flatten
                ++ rest)) := by
          rw [List.map_cons, List.flatten_cons]
          simp only [List.append_assoc]
        rw [havail]
        show Storage.readNodes (nodes.length + 1) _ = _
        rw [readNodes_succ]
        rw [rmBytes_enc' _ _ hml htail]
        dsimp only
        rw [hfd]
        dsimp only
        rw [hin]
        dsimp only
        rw [hptn]
        dsimp only
        rw [hread _ hrest]
        rfl

/-! ### The metadata message -/

theorem payload_le_fieldsEnc : ∀ (fl : List (Nat × Storage.FieldVal)) (f : Nat) (bs : List Nat),
    (f, Storage.FieldVal.bytes bs) ∈ fl → bs.length ≤ (Storage.fieldsEnc fl).length := by
  intro fl
  induction fl with
  | nil =>
      intro f bs hm
      simp at hm
  | cons p fl ih =>
      intro f bs hm
      rw [fieldsEnc_cons, List.length_append]
      rcases List.mem_cons.mp hm with h | h
      · subst h
        show bs.length ≤ (Storage.varintEnc (f * 8 + 2) ++
          Storage.varintEnc bs.length ++ bs).length + _
        rw [List.length_append, List.length_append]
        omega
      · have := ih f bs h
        omega

theorem sig_decode (off len : Nat) :
    Storage.fieldsDec (Storage.fieldsEnc
      [(1, Storage.FieldVal.vint (off % 2 ^ 32)), (2, Storage.FieldVal.vint (len % 2 ^ 32))]) =
      some [(1, Storage.FieldVal.vint (off % 2 ^ 32)), (2, Storage.FieldVal.vint (len % 2 ^ 32))] := by
  apply fieldsDec_enc
  intro p hp
  have ho : off % 2 ^ 32 < 2 ^ 64 := by
    have := Nat.mod_lt off (show 0 < 2 ^ 32 by norm_num)
    omega
  have hl : len % 2 ^ 32 < 2 ^ 64 := by
    have := Nat.mod_lt len (show 0 < 2 ^ 32 by norm_num)
    omega
  simp only [List.mem_cons, List.mem_singleton, List.not_mem_nil, or_false] at hp
  rcases hp with rfl | rfl
  · exact fieldWf_vint 1 _ (by norm_num) (by norm_num) ho
  · exact fieldWf_vint 2 _ (by norm_num) (by norm_num) hl

theorem sigEnc_len (off len : Nat) :
    (Storage.fieldsEnc
      [(1, Storage.FieldVal.vint (off % 2 ^ 32)), (2, Storage.FieldVal.vint (len % 2 ^ 32))]).length
      ≤ 40 := by
  rw [fieldsEnc_cons, fieldsEnc_singleton, List.length_append]
  have ho : off % 2 ^ 32 < 2 ^ 64 := by
    have := Nat.mod_lt off (show 0 < 2 ^ 32 by norm_num)
    omega
  have hl : len % 2 ^ 32 < 2 ^ 64 := by
    have := Nat.mod_lt len (show 0 < 2 ^ 32 by norm_num)
    omega
  have e1 := fieldEnc_vint_len 1 _ (by norm_num) ho
  have e2 := fieldEnc_vint_len 2 _ (by norm_num) hl
  omega

theorem entry_decode (key : List Nat) (off len : Nat) (hk : key.length < 2 ^ 64) :
    Storage.fieldsDec (Storage.fieldsEnc
      [(1, Storage.FieldVal.bytes key),
       (2, Storage.FieldVal.bytes (Storage.fieldsEnc
         [(1, Storage.FieldVal.vint (off % 2 ^ 32)),
          (2, Storage.FieldVal.vint (len % 2 ^ 32))]))]) =
      some [(1, Storage.FieldVal.bytes key),
        (2, Storage.FieldVal.bytes (Storage.fieldsEnc
          [(1, Storage.FieldVal.vint (off % 2 ^ 32)),
           (2, Storage.FieldVal.vint (len % 2 ^ 32))]))] ∧
    Storage.interpEntry
      [(1, Storage.FieldVal.bytes key),
       (2, Storage.FieldVal.bytes (Storage.fieldsEnc
         [(1, Storage.FieldVal.vint (off % 2 ^ 32)),
          (2, Storage.FieldVal.vint (len % 2 ^ 32))]))] =
      some (key, off % 2 ^ 32, len % 2 ^ 32) := by
  constructor
  · apply fieldsDec_enc
    intro p hp
    simp only [List.mem_cons, List.mem_singleton, List.not_mem_nil, or_false] at hp
    rcases hp with rfl | rfl
    · exact fieldWf_bytes 1 key (by norm_num) (by norm_num) hk
    · exact fieldWf_bytes 2 _ (by norm_num) (by norm_num)
        (by have := sigEnc_len off len; omega)
  · have hsd := sig_decode off len
    norm_num at hsd
    simp [Storage.interpEntry, Storage.interpEntryGo, hsd,
      Storage.interpSig, Storage.interpSigGo]

/-- The encoded map-entry field of one input, as embedded in mdFields. -/
def entryField (e : List Nat × Nat × Nat) : Nat × Storage.FieldVal :=
  (2, Storage.FieldVal.bytes (Storage.fieldsEnc
    [(1, Storage.FieldVal.bytes e.1),
     (2, Storage.FieldVal.bytes (Storage.fieldsEnc
       [(1, Storage.FieldVal.vint (e.2.1 % 2 ^ 32)),
        (2, Storage.FieldVal.vint (e.2.2 % 2 ^ 32))]))]))

theorem mdFields_eq (ws : List Nat) (inputs : List (List Nat × Nat × Nat)) :
    Storage.mdFields ws inputs =
      (1, Storage.FieldVal.bytes (Storage.packedEnc (ws.map (fun x => x % 2 ^ 32)))) ::
        inputs.map entryField := rfl

theorem interpMdGo_entries :
    ∀ (inputs : List (List Nat × Nat × Nat)) (st : List Nat × List (List Nat × Nat × Nat)),
    (∀ e ∈ inputs, e.1.length < 2 ^ 64) →
    Storage.interpMdGo st (inputs.map entryField) =
      some (st.1, st.2 ++ inputs.map (fun e => (e.1, e.2.1 % 2 ^ 32, e.2.2 % 2 ^ 32))) := by
  intro inputs
  induction inputs with
  | nil =>
      intro st _
      simp [Storage.interpMdGo]
  | cons e inputs ih =>
      intro st hk
      obtain ⟨hfd, hie⟩ := entry_decode e.1 e.2.1 e.2.2 (hk e (List.mem_cons_self _ _))
      rw [List.map_cons]
      have hstep : Storage.interpMdGo st (entryField e :: inputs.map entryField) =
          Storage.interpMdGo (st.1, st.2 ++ [(e.1, e.2.1 % 2 ^ 32, e.2.2 % 2 ^ 32)])
            (inputs.map entryField) := by
        show Storage.interpMdGo st ((2, Storage.FieldVal.bytes (Storage.fieldsEnc
          [(1, Storage.FieldVal.bytes e.1),
           (2, Storage.FieldVal.bytes (Storage.fieldsEnc
             [(1, Storage.FieldVal.vint (e.2.1 % 2 ^ 32)),
              (2, Storage.FieldVal.vint (e.2.2 % 2 ^ 32))]))])) :: inputs.map entryField) = _
        rw [Storage.interpMdGo]
        rw [if_neg (by norm_num), if_pos rfl]
        rw [hfd]
        dsimp only
        rw [hie]
      rw [hstep]
      rw [ih _ (fun x hx => hk x (List.mem_cons_of_mem _ hx))]
      simp

theorem md_decode (ws : List Nat) (inputs : List (List Nat × Nat × Nat))
    (hlen : (Storage.mdEnc ws inputs).length < 2 ^ 64) :
    Storage.fieldsDec (Storage.mdEnc ws inputs) = some (Storage.mdFields ws inputs) ∧
    Storage.interpMd (Storage.mdFields ws inputs) =
      some (ws.map (fun x => x % 2 ^ 32),
        inputs.map (fun e => (e.1, e.2.1 % 2 ^ 32, e.2.2 % 2 ^ 32))) := by
  have hentry_le : ∀ e ∈ inputs,
      (Storage.fieldsEnc
        [(1, Storage.FieldVal.bytes e.1),
         (2, Storage.FieldVal.bytes (Storage.fieldsEnc
           [(1, Storage.FieldVal.vint (e.2.1 % 2 ^ 32)),
            (2, Storage.FieldVal.vint (e.2.2 % 2 ^ 32))]))]).length ≤
        (Storage.mdEnc ws inputs).length := by
    intro e he
    apply payload_le_fieldsEnc (Storage.mdFields ws inputs) 2
    rw [mdFields_eq]
    apply List.mem_cons_of_mem
    exact List.mem_map_of_mem _ he
  have hkey_le : ∀ e ∈ inputs, e.1.length < 2 ^ 64 := by
    intro e he
    have h1 : e.1.length ≤ (Storage.fieldsEnc
        [(1, Storage.FieldVal.bytes e.1),
         (2, Storage.FieldVal.bytes (Storage.fieldsEnc
           [(1, Storage.FieldVal.vint (e.2.1 % 2 ^ 32)),
            (2, Storage.FieldVal.vint (e.2.2 % 2 ^ 32))]))]).length := by
      apply payload_le_fieldsEnc _ 1
      exact List.mem_cons_self _ _
    have h2 := hentry_le e he
    omega
  have hpacked_le : (Storage.packedEnc (ws.map (fun x => x % 2 ^ 32))).length ≤
      (Storage.mdEnc ws inputs).length := by
    apply payload_le_fieldsEnc (Storage.mdFields ws inputs) 1
    rw [mdFields_eq]
    exact List.mem_cons_self _ _
  constructor
  · apply fieldsDec_enc
    intro p hp
    rw [mdFields_eq] at hp
    rcases List.mem_cons.mp hp with h | h
    · subst h
      exact fieldWf_bytes 1 _ (by norm_num) (by norm_num) (by omega)
    · obtain ⟨e, he, rfl⟩ := List.mem_map.mp h
      exact fieldWf_bytes 2 _ (by norm_num) (by norm_num)
        (by have := hentry_le e he; omega)
  · have hpd : Storage.packedDec (Storage.packedEnc (ws.map (fun x => x % 2 ^ 32))) =
        some (ws.map (fun x => x % 2 ^ 32)) := by
      apply packedDec_enc
      intro x hx
      obtain ⟨w, _, rfl⟩ := List.mem_map.mp hx
      have := Nat.mod_lt w (show 0 < 2 ^ 32 by norm_num)
      omega
    show Storage.interpMd _ = _
    rw [mdFields_eq]
    show Storage.interpMdGo ([], []) _ = _
    rw [Storage.interpMdGo]
    rw [if_pos rfl]
    rw [hpd]
    dsimp only
    rw [interpMdGo_entries inputs ([] ++ ws.map (fun x => x % 2 ^ 32), []) hkey_le]
    simp

/-! ### The top-level round trip -/

theorem rmBytes_enc_total (m x : List Nat) (hm : m.length < 2 ^ 64)
    (hx : 10 ≤ (Storage.varintEnc m.length ++ (m ++ x)).length) :
    Storage.rmBytes (Storage.varintEnc m.length ++ (m ++ x)) = some (m, x) := by
  rw [rmBytes_enc m x hm]
  have hpad : 10 - (Storage.varintEnc m.length ++ (m ++ x)).length = 0 := by omega
  rw [hpad, List.replicate_zero, List.append_nil]

/-- Serializability and exact re-readability of one node: no Constant node,
and all references and values within the ranges the writer casts into. -/
def nodeOk : Storage.Node → Prop
  | .Input i => i < 2 ^ 32
  | .Constant _ => False
  | .MontConstant c => c < M
  | .UnoOp _ a => a < 2 ^ 32
  | .Op _ a b => a < 2 ^ 32 ∧ b < 2 ^ 32
  | .TresOp _ a b c => a < 2 ^ 32 ∧ b < 2 ^ 32 ∧ c < 2 ^ 32

theorem nodeOk_not_constant (n : Storage.Node) (h : nodeOk n) :
    (∀ c, n ≠ Storage.Node.Constant c) ∧
    (∀ c, n = Storage.Node.MontConstant c → c < 2 ^ 256) := by
  cases n with
  | Constant c => exact absurd h (by intro hc; exact hc)
  | MontConstant c =>
      refine ⟨fun c hc => (by cases hc), fun c' hc => ?_⟩
      cases hc
      have hM : M < 2 ^ 256 := M_lt_U256size
      exact lt_trans h hM
  | Input i => exact ⟨fun c hc => (by cases hc), fun c hc => (by cases hc)⟩
  | UnoOp op a => exact ⟨fun c hc => (by cases hc), fun c hc => (by cases hc)⟩
  | Op op a b => exact ⟨fun c hc => (by cases hc), fun c hc => (by cases hc)⟩
  | TresOp op a b c => exact ⟨fun c' hc => (by cases hc), fun c' hc => (by cases hc)⟩

theorem truncNode_eq (n : Storage.Node) (h : nodeOk n) : truncNode n = n := by
  cases n with
  | Input i => show Storage.Node.Input (i % 2 ^ 32) = _; rw [Nat.mod_eq_of_lt h]
  | Constant c => rfl
  | MontConstant c => show Storage.Node.MontConstant (c % M) = _; rw [Nat.mod_eq_of_lt h]
  | UnoOp op a => show Storage.Node.UnoOp op (a % 2 ^ 32) = _; rw [Nat.mod_eq_of_lt h]
  | Op op a b =>
      obtain ⟨h1, h2⟩ := h
      show Storage.Node.Op op (a % 2 ^ 32) (b % 2 ^ 32) = _
      rw [Nat.mod_eq_of_lt h1, Nat.mod_eq_of_lt h2]
  | TresOp op a b c =>
      obtain ⟨h1, h2, h3⟩ := h
      show Storage.Node.TresOp op (a % 2 ^ 32) (b % 2 ^ 32) (c % 2 ^ 32) = _
      rw [Nat.mod_eq_of_lt h1, Nat.mod_eq_of_lt h2, Nat.mod_eq_of_lt h3]

theorem mdEnc_len_ge (ws : List Nat) (inputs : List (List Nat × Nat × Nat)) :
    2 ≤ (Storage.mdEnc ws inputs).length := by
  show 2 ≤ (Storage.fieldsEnc (Storage.mdFields ws inputs)).length
  rw [mdFields_eq, fieldsEnc_cons, List.length_append]
  have := fieldEnc_len_ge (1, Storage.FieldVal.bytes
    (Storage.packedEnc (ws.map (fun x => x % 2 ^ 32))))
  omega

theorem map_id_of_eq {α : Type} (l : List α) (f : α → α) (h : ∀ a ∈ l, f a = a) :
    l.map f = l := by
  induction l with
  | nil => rfl
  | cons x xs ih =>
      rw [List.map_cons, h x (List.mem_cons_self _ _),
        ih (fun a ha => h a (List.mem_cons_of_mem _ ha))]

/-- C1 amended: serialize then deserialize is the identity on the
node/witness/input triple whenever the graph is serializable: no node is a
raw Constant, every node reference and every witness signal and input
offset/length fits in a u32, a MontConstant value is canonical (below M),
the node count fits in a u64 and the encoded metadata message is shorter
than 2^64 bytes.  Outside those ranges the writer truncates (see the
counterexample). -/
theorem c1_roundtrip_semantics (nodes : List Storage.Node) (ws : List Nat)
    (inputs : List (List Nat × Nat × Nat))
    (hok : ∀ n ∈ nodes, nodeOk n)
    (hcnt : nodes.length < 2 ^ 64)
    (hws : ∀ w ∈ ws, w < 2 ^ 32)
    (hinp : ∀ e ∈ inputs, e.2.1 < 2 ^ 32 ∧ e.2.2 < 2 ^ 32)
    (hmd : (Storage.mdEnc ws inputs).length < 2 ^ 64) :
    ∃ bs, Storage.serialize_witnesscalc_graph nodes ws inputs = some bs ∧
      Storage.deserialize_witnesscalc_graph bs = some (nodes, ws, inputs) := by
  obtain ⟨pns, hpns, hread⟩ := readNodes_enc nodes
    (fun n hn => nodeOk_not_constant n (hok n hn))
  refine ⟨Storage.MAGIC ++ (Storage.u64le nodes.length ++
      (((pns.map (fun pn =>
        Storage.varintEnc (Storage.pnodeEnc pn).length ++ Storage.pnodeEnc pn)).flatten) ++
        (Storage.varintEnc (Storage.mdEnc ws inputs).length ++ (Storage.mdEnc ws inputs ++
          Storage.u64le ((14 + 8 + ((pns.map (fun pn =>
            Storage.varintEnc (Storage.pnodeEnc pn).length ++
              Storage.pnodeEnc pn)).flatten).length) % 2 ^ 64))))), ?_, ?_⟩
  · simp only [Storage.serialize_witnesscalc_graph, hpns, List.append_assoc,
      Nat.mod_eq_of_lt hcnt]
  · have hmdge := mdEnc_len_ge ws inputs
    have hTAILlen : 10 ≤ (Storage.varintEnc (Storage.mdEnc ws inputs).length ++
        (Storage.mdEnc ws inputs ++ Storage.u64le ((14 + 8 + ((pns.map (fun pn =>
          Storage.varintEnc (Storage.pnodeEnc pn).length ++
            Storage.pnodeEnc pn)).flatten).length) % 2 ^ 64))).length := by
      rw [List.length_append, List.length_append]
      have h1 := varintEnc_len_pos (Storage.mdEnc ws inputs).length
      have h2 : (Storage.u64le ((14 + 8 + ((pns.map (fun pn =>
          Storage.varintEnc (Storage.pnodeEnc pn).length ++
            Storage.pnodeEnc pn)).flatten).length) % 2 ^ 64)).length = 8 := rfl
      omega
    have hreadapp := hread _ hTAILlen
    have hmapn : nodes.map truncNode = nodes :=
      map_id_of_eq nodes truncNode (fun n hn => truncNode_eq n (hok n hn))
    have hrm := rmBytes_enc_total (Storage.mdEnc ws inputs)
      (Storage.u64le ((14 + 8 + ((pns.map (fun pn =>
        Storage.varintEnc (Storage.pnodeEnc pn).length ++
          Storage.pnodeEnc pn)).flatten).length) % 2 ^ 64)) hmd (by
        rw [List.length_append, List.length_append]
        have h1 := varintEnc_len_pos (Storage.mdEnc ws inputs).length
        have h2 : (Storage.u64le ((14 + 8 + ((pns.map (fun pn =>
            Storage.varintEnc (Storage.pnodeEnc pn).length ++
              Storage.pnodeEnc pn)).flatten).length) % 2 ^ 64)).length = 8 := rfl
        omega)
    obtain ⟨hfdmd, himd⟩ := md_decode ws inputs hmd
    have hmw : ws.map (fun x => x % 2 ^ 32) = ws :=
      map_id_of_eq ws _ (fun w hw => Nat.mod_eq_of_lt (hws w hw))
    have hmi : inputs.map (fun e => (e.1, e.2.1 % 2 ^ 32, e.2.2 % 2 ^ 32)) = inputs :=
      map_id_of_eq inputs _ (fun e he => by
        obtain ⟨h1, h2⟩ := hinp e he
        rw [Nat.mod_eq_of_lt h1, Nat.mod_eq_of_lt h2])
    simp only [Storage.deserialize_witnesscalc_graph]
    rw [if_neg (by
      rw [List.length_append]
      have : Storage.MAGIC.length = 14 := rfl
      omega)]
    rw [List.take_left' (show Storage.MAGIC.length = 14 from rfl)]
    rw [if_neg (fun hne => hne rfl)]
    rw [List.drop_left' (show Storage.MAGIC.length = 14 from rfl)]
    rw [if_neg (by
      rw [List.length_append]
      have : (Storage.u64le nodes.length).length = 8 := rfl
      omega)]
    rw [List.take_left' (show (Storage.u64le nodes.length).length = 8 from rfl)]
    rw [List.drop_left' (show (Storage.u64le nodes.length).length = 8 from rfl)]
    rw [bytesToNatLE_u64le, Nat.mod_eq_of_lt hcnt]
    rw [hreadapp]
    dsimp only
    rw [hrm]
    dsimp only
    rw [hfdmd]
    dsimp only
    rw [himd]
    dsimp only
    rw [hmapn, hmw, hmi]

/-- C1 counterexample: the round trip is not the identity on every triple:
an Input node whose index is 2^32 is written back as Input 0 (the writer
casts usize indices to u32), and serializing a graph holding a raw
Constant node panics (From for the protobuf node is only defined on the
other variants). -/
theorem c1_counterexample :
    ∃ bs, Storage.serialize_witnesscalc_graph [Storage.Node.Input (2 ^ 32)] [] [] = some bs ∧
      Storage.deserialize_witnesscalc_graph bs = some ([Storage.Node.Input 0], [], []) ∧
      Storage.Node.Input (2 ^ 32) ≠ Storage.Node.Input 0 ∧
      Storage.serialize_witnesscalc_graph [Storage.Node.Constant 1] [] [] = none :=
  ⟨_, rfl, by decide, by decide, rfl⟩

/-- C1 witness: the amended theorem applied to a two-node graph with one
witness signal and one input. -/
theorem c1_roundtrip_semantics_witness :
    ∃ bs, Storage.serialize_witnesscalc_graph
        [Storage.Node.Input 1, Storage.Node.MontConstant 5] [2] [([97], 1, 1)] = some bs ∧
      Storage.deserialize_witnesscalc_graph bs =
        some ([Storage.Node.Input 1, Storage.Node.MontConstant 5], [2], [([97], 1, 1)]) :=
  c1_roundtrip_semantics [Storage.Node.Input 1, Storage.Node.MontConstant 5] [2] [([97], 1, 1)]
    (by
      intro n hn
      simp only [List.mem_cons, List.mem_singleton, List.not_mem_nil, or_false] at hn
      rcases hn with rfl | rfl
      · show (1 : Nat) < 2 ^ 32
        norm_num
      · show (5 : Nat) < M
        decide)
    (by norm_num)
    (by
      intro w hw
      rw [List.mem_singleton] at hw
      subst hw
      norm_num)
    (by
      intro e he
      rw [List.mem_singleton] at he
      subst he
      exact ⟨by norm_num, by norm_num⟩)
    (by decide)
